import Mathlib

/-!
Patricia: the evaluator and the search driver

A shallow embedding of `src/engine/src/defs.h`, `nnue.h` and `search.h`.

Conventions of the embedding
* C++ arrays are total functions from the index to the cell; a write is a
  pointwise update, so reading outside the declared extent is defined in the
  model (the source has undefined behaviour there).
* `int16_t` cells hold `Int`; a store into such a cell goes through `wrap16`.
  32-bit `int` arithmetic that can leave the range goes through `wrap32`.
* `size_t` arithmetic is taken modulo `2^64`.
* Piece codes, square numbers, views and king squares are natural numbers:
  board cells are `uint8_t` and every loop in the source runs over
  non-negative values.
-/

namespace Patricia

/-! ## defs.h -/

namespace Colors
def White : Nat := 0
def Black : Nat := 1
end Colors

namespace Pieces
def Blank : Nat := 0
def WPawn : Nat := 2
def BPawn : Nat := 3
def WKnight : Nat := 4
def BKnight : Nat := 5
def WBishop : Nat := 6
def BBishop : Nat := 7
def WRook : Nat := 8
def BRook : Nat := 9
def WQueen : Nat := 10
def BQueen : Nat := 11
def WKing : Nat := 12
def BKing : Nat := 13
end Pieces

/-- The type `Move` of `defs.h` (`uint16_t`). -/
abbrev Move := Nat

/-- The struct `Position`. `material_count` is indexed the way `search.h`
indexes it, by one index `0..9` (piece code minus two). -/
structure Position where
  board : Nat → Nat
  material_count : Nat → Nat
  castling_rights : Nat → Nat → Bool
  kingpos : Nat → Nat
  ep_square : Nat
  color : Bool
  halfmoves : Nat

/-- The struct `GameHistory`. -/
structure GameHistory where
  position_key : Nat
  played_move : Move
  piece_moved : Nat
deriving DecidableEq

/-- The macro `out_of_board(x)`. -/
def out_of_board (x : Nat) : Nat := x &&& 0x88

/-- The macro `get_rank(x)`. -/
def get_rank (x : Nat) : Nat := x / 16

/-- The macro `get_file(x)`. -/
def get_file (x : Nat) : Nat := x % 16

/-- The table `StandardToMailbox[64]`, read at index `i`. -/
def StandardToMailbox (i : Nat) : Nat :=
  [0x0,  0x1,  0x2,  0x3,  0x4,  0x5,  0x6,  0x7,  0x10, 0x11, 0x12,
   0x13, 0x14, 0x15, 0x16, 0x17, 0x20, 0x21, 0x22, 0x23, 0x24, 0x25,
   0x26, 0x27, 0x30, 0x31, 0x32, 0x33, 0x34, 0x35, 0x36, 0x37, 0x40,
   0x41, 0x42, 0x43, 0x44, 0x45, 0x46, 0x47, 0x50, 0x51, 0x52, 0x53,
   0x54, 0x55, 0x56, 0x57, 0x60, 0x61, 0x62, 0x63, 0x64, 0x65, 0x66,
   0x67, 0x70, 0x71, 0x72, 0x73, 0x74, 0x75, 0x76, 0x77].getD i 0

/-! ## nnue.h -/

def INPUT_SIZE : Nat := 768
def LAYER1_SIZE : Nat := 768

def SCRELU_MIN : Int := 0
def SCRELU_MAX : Int := 255

def SCALE : Int := 400

def QA : Int := 255
def QB : Int := 64

def QAB : Int := QA * QB

/-- Modelled from the spec: the square constants `a1` and `SqNone` that
`reset_nnue` loops between are declared outside the given sources; squares are
numbered `0..63`, the numbering `feature_index` works with (stride 64). -/
def a1 : Nat := 0

/-- Modelled from the spec: see `a1`. -/
def SqNone : Nat := 64

/-- Conversion of an `int` to `int16_t` (two's complement wrap-around). -/
def wrap16 (x : Int) : Int := (x + 32768) % 65536 - 32768

/-- Conversion of a wide integer to 32-bit `int` (two's complement
wrap-around). -/
def wrap32 (x : Int) : Int := (x + 2147483648) % 4294967296 - 2147483648

/-- Conversion to `size_t`. -/
def toSizeT (x : Int) : Nat := (x % 18446744073709551616).toNat

/-- The struct `NNUE_Params`: the weight blob. -/
structure NNUE_Params where
  feature_v : Nat → Int
  feature_bias : Nat → Int
  output_v : Nat → Int
  output_bias : Int

/-- The struct `Accumulator<LAYER1_SIZE>`: `colors[view][i]`. -/
abbrev Accumulator := Nat → Nat → Int

/-- The method `Accumulator::init`: both views are overwritten with the
bias. -/
def Accumulator.init (acc : Accumulator) (bias : Nat → Int) : Accumulator :=
  fun view i =>
    if (view = 1 ∨ view = 0) ∧ i < LAYER1_SIZE then bias i else acc view i

/-- The function `std::clamp(v, lo, hi)`. -/
def clamp (v lo hi : Int) : Int :=
  if v < lo then lo else if hi < v then hi else v

def screlu (x : Int) : Int :=
  let clipped := clamp x SCRELU_MIN SCRELU_MAX
  clipped * clipped

/-- The function `add_to_all`, with `size = LAYER1_SIZE`; `input` and `output`
may be the same array, every cell is read before it is written. -/
def add_to_all (input : Nat → Int) (delta : Nat → Int) (offset : Nat) :
    Nat → Int :=
  fun i =>
    if i < LAYER1_SIZE then
      wrap16 (input i + delta ((offset + i) % 18446744073709551616))
    else input i

def feature_index (view kingSq piece sq : Nat) : Nat :=
  let color_stride : Int := 64 * 6
  let piece_stride : Int := 64
  let sq := if kingSq &&& 4 ≠ 0 then sq ^^^ 7 else sq
  let base : Int := ((piece / 2 : Nat) : Int) - 1
  let color : Nat := piece &&& 1
  toSizeT ((if view ≠ color then 1 else 0) * color_stride +
    base * piece_stride +
    ((sq ^^^ (56 * view) : Nat) : Int))

/-- The cell `g_nnue.feature_v[ft * LAYER1_SIZE + i]`. -/
def feature_weight (net : NNUE_Params) (ft i : Nat) : Int :=
  net.feature_v ((ft * LAYER1_SIZE + i) % 18446744073709551616)

/-- The scalar branch of `screlu_flatten`: the accumulated `sum` after the
first `n` rounds of the loop. -/
def screlu_flatten_loop (us them weights : Nat → Int) : Nat → Int
  | 0 => 0
  | n + 1 =>
    let sum := screlu_flatten_loop us them weights n
    let sum := wrap32 (sum + wrap32 (screlu (us n) * weights n))
    wrap32 (sum + wrap32 (screlu (them n) * weights (LAYER1_SIZE + n)))

def screlu_flatten (us them weights : Nat → Int) : Int :=
  Int.tdiv (screlu_flatten_loop us them weights LAYER1_SIZE) QA

/-- The class `NNUE_State`; `m_curr` is the index of the cursor into
`m_accumulator_stack`. -/
structure NNUE_State where
  m_accumulator_stack : Nat → Accumulator
  m_curr : Nat
  kings_pos : Nat → Nat

/-- The accumulator the cursor points at. -/
def NNUE_State.curr (s : NNUE_State) : Accumulator :=
  s.m_accumulator_stack s.m_curr

/-- Write `acc` into slot `k` of the stack. -/
def setSlot (stack : Nat → Accumulator) (k : Nat) (acc : Accumulator) :
    Nat → Accumulator :=
  fun j => if j = k then acc else stack j

def NNUE_State.add_sub (net : NNUE_Params) (s : NNUE_State)
    (from_piece from_sq to_piece to_sq : Nat) : NNUE_State :=
  let next : Accumulator := fun view i =>
    if view ≤ Colors.Black ∧ i < LAYER1_SIZE then
      let from_ft := feature_index view (s.kings_pos view) from_piece from_sq
      let to_ft := feature_index view (s.kings_pos view) to_piece to_sq
      wrap16 (s.curr view i + feature_weight net to_ft i -
        feature_weight net from_ft i)
    else s.m_accumulator_stack (s.m_curr + 1) view i
  { s with
    m_accumulator_stack := setSlot s.m_accumulator_stack (s.m_curr + 1) next
    m_curr := s.m_curr + 1 }

def NNUE_State.add_sub_sub (net : NNUE_Params) (s : NNUE_State)
    (from_piece from_sq to_piece to_sq captured captured_sq : Nat) : NNUE_State :=
  let next : Accumulator := fun view i =>
    if view ≤ Colors.Black ∧ i < LAYER1_SIZE then
      let from_ft := feature_index view (s.kings_pos view) from_piece from_sq
      let to_ft := feature_index view (s.kings_pos view) to_piece to_sq
      let cap_ft := feature_index view (s.kings_pos view) captured captured_sq
      wrap16 (s.curr view i + feature_weight net to_ft i -
        feature_weight net from_ft i - feature_weight net cap_ft i)
    else s.m_accumulator_stack (s.m_curr + 1) view i
  { s with
    m_accumulator_stack := setSlot s.m_accumulator_stack (s.m_curr + 1) next
    m_curr := s.m_curr + 1 }

def NNUE_State.add_add_sub_sub (net : NNUE_Params) (s : NNUE_State)
    (piece1 from1 to1 piece2 from2 to2 : Nat) : NNUE_State :=
  let next : Accumulator := fun view i =>
    if view ≤ Colors.Black ∧ i < LAYER1_SIZE then
      let from1_ft := feature_index view (s.kings_pos view) piece1 from1
      let to1_ft := feature_index view (s.kings_pos view) piece1 to1
      let from2_ft := feature_index view (s.kings_pos view) piece2 from2
      let to2_ft := feature_index view (s.kings_pos view) piece2 to2
      wrap16 (s.curr view i + feature_weight net to1_ft i -
        feature_weight net from1_ft i + feature_weight net to2_ft i -
        feature_weight net from2_ft i)
    else s.m_accumulator_stack (s.m_curr + 1) view i
  { s with
    m_accumulator_stack := setSlot s.m_accumulator_stack (s.m_curr + 1) next
    m_curr := s.m_curr + 1 }

def NNUE_State.pop (s : NNUE_State) : NNUE_State :=
  { s with m_curr := s.m_curr - 1 }

def NNUE_State.evaluate (net : NNUE_Params) (s : NNUE_State) (color : Nat) :
    Int :=
  let output := screlu_flatten (s.curr color) (s.curr (color ^^^ 1)) net.output_v
  Int.tdiv (wrap32 (wrap32 (output + net.output_bias) * SCALE)) QAB

def NNUE_State.add_feature (net : NNUE_Params) (s : NNUE_State)
    (piece square : Nat) : NNUE_State :=
  let acc : Accumulator := fun view =>
    if view ≤ Colors.Black then
      add_to_all (s.curr view) net.feature_v
        ((feature_index view (s.kings_pos view) piece square * LAYER1_SIZE) %
          18446744073709551616)
    else s.curr view
  { s with m_accumulator_stack := setSlot s.m_accumulator_stack s.m_curr acc }

/-- The loop of `reset_nnue` over the squares in `squares`, in order. -/
def reset_loop (net : NNUE_Params) (position : Position) :
    List Nat → NNUE_State → NNUE_State
  | [], s => s
  | square :: rest, s =>
    if position.board square ≠ Pieces.Blank then
      reset_loop net position rest
        (s.add_feature net (position.board square) square)
    else reset_loop net position rest s

/-- The method `reset_nnue`; `get_king_pos` is declared in `nnue.h` and defined
elsewhere, it is a parameter. -/
def NNUE_State.reset_nnue (net : NNUE_Params)
    (get_king_pos : Position → Nat → Nat) (s : NNUE_State)
    (position : Position) : NNUE_State :=
  let stack := setSlot s.m_accumulator_stack 0
    (Accumulator.init (s.m_accumulator_stack 0) net.feature_bias)
  let kings : Nat → Nat := fun view =>
    if view ≤ Colors.Black then get_king_pos position view else s.kings_pos view
  reset_loop net position (List.range' a1 (SqNone - a1))
    { m_accumulator_stack := stack, m_curr := 0, kings_pos := kings }

/-! ## search.h -/

/-- The constants of the namespace `EntryTypes`. -/
inductive EntryTypes where
  | None
  | Exact
  | LBound
  | UBound
deriving DecidableEq

/-- A cell of the transposition table `TT`, with the fields `search` reads and
`insert_entry` is given. -/
structure TTEntry where
  position_key : Nat
  depth : Int
  best_move : Move
  score : Int
  type : EntryTypes

/-- The fields of `ThreadInfo` that `search.h` works on. The counters `nodes`,
`search_ply` and `game_ply` are not declared in the given `defs.h`; they are
taken without wrap-around. -/
structure ThreadInfo where
  nodes : Nat
  search_ply : Int
  game_ply : Int
  game_hist : Int → GameHistory

/-- What `search.h` takes from the headers it includes (`movegen.h`,
`position.h`, `utils.h`): these functions and constants are parameters of the
embedding. `make_move` gives the position after the move and whether the move
was rejected (a non-zero return). -/
structure Engine where
  calculate : Position → Nat
  movegen : Position → List Move
  make_move : Position → Move → Position × Bool
  attacks_square : Position → Nat → Nat → Bool
  extract_from : Move → Nat
  get_hash_upper_bits : Nat → Nat
  insert_entry : (Nat → TTEntry) → Nat → Int → Move → Int → EntryTypes → (Nat → TTEntry)
  TT_mask : Nat
  MateScore : Int
  Mate : Int
  ScoreNone : Int
  MoveNone : Move

/-- Modelled from the spec: `insert_entry` is defined outside the given
sources. The store is an unconditional overwrite of the slot the hash
addresses, with the key fragment of the hash and the depth, move, score and
bound type it is given. -/
def insert_entry (TT_mask : Nat) (get_hash_upper_bits : Nat → Nat) (TT : Nat → TTEntry)
    (hash : Nat) (depth : Int) (best_move : Move) (score : Int) (type : EntryTypes) :
    Nat → TTEntry :=
  fun j =>
    if j = hash &&& TT_mask then
      { position_key := get_hash_upper_bits hash, depth := depth, best_move := best_move,
        score := score, type := type }
    else TT j

def eval (position : Position) : Int :=
  let m : Int :=
    ((position.material_count 0 : Int) - position.material_count 1) * 100 +
    ((position.material_count 2 : Int) - position.material_count 3) * 300 +
    ((position.material_count 4 : Int) - position.material_count 5) * 300 +
    ((position.material_count 6 : Int) - position.material_count 7) * 500 +
    ((position.material_count 8 : Int) - position.material_count 9) * 900
  if position.color then -m else m

def ss_push (E : Engine) (position : Position) (thread_info : ThreadInfo) (move : Move)
    (hash : Nat) : ThreadInfo :=
  { thread_info with
    search_ply := thread_info.search_ply + 1
    game_hist := fun j =>
      if j = thread_info.game_ply then
        { position_key := hash, played_move := move,
          piece_moved := position.board (E.extract_from move) }
      else thread_info.game_hist j
    game_ply := thread_info.game_ply + 1 }

def ss_pop (thread_info : ThreadInfo) : ThreadInfo :=
  { thread_info with
    search_ply := thread_info.search_ply - 1
    game_ply := thread_info.game_ply - 1 }

def material_draw (position : Position) : Bool :=
  if [0, 1, 6, 7, 8, 9].any (fun i => position.material_count i ≠ 0) then false
  else if position.material_count 4 > 1 ∨ position.material_count 2 > 2 ∨
      (position.material_count 2 ≠ 0 ∧ position.material_count 4 ≠ 0) then false
  else if position.material_count 5 > 1 ∨ position.material_count 3 > 2 ∨
      (position.material_count 3 ≠ 0 ∧ position.material_count 5 ≠ 0) then false
  else true

/-- The repetition loop of `is_draw`, `for (i = start_index; i >= end_indx;
i -= 2)`, entered at index `i`; `rounds` bounds the number of rounds. -/
def is_draw_scan (game_hist : Int → GameHistory) (hash : Nat) (end_indx : Int) :
    Nat → Int → Bool
  | 0, _ => false
  | rounds + 1, i =>
    if i ≥ end_indx then
      if hash = (game_hist i).position_key then true
      else is_draw_scan game_hist hash end_indx rounds (i - 2)
    else false

def is_draw (position : Position) (thread_info : ThreadInfo) (hash : Nat) : Bool :=
  let halfmoves : Int := position.halfmoves
  let game_ply : Int := thread_info.game_ply
  if halfmoves ≥ 100 then true
  else if material_draw position then true
  else
    let start_index := game_ply - 4
    let end_indx := max (game_ply - halfmoves) 0
    is_draw_scan thread_info.game_hist hash end_indx
      (start_index - end_indx + 2).toNat start_index

/-- What `search` threads through a call: the thread's record and the global
table `TT`. -/
structure SearchState where
  thread_info : ThreadInfo
  TT : Nat → TTEntry

/-- The variables of the move loop of `search`. The field `searched` is not in
the source: it records, in order, every move that was made and searched,
with its score. -/
structure LoopState where
  alpha : Int
  best_score : Int
  best_move : Move
  raised_alpha : Bool
  st : SearchState
  searched : List (Move × Int)

/-- Negation of a 32-bit `int`. -/
def neg32 (x : Int) : Int := wrap32 (-x)

/-- The move loop of `search`, lines 114-135; `child alpha beta position` is
the recursive call at `depth - 1`. -/
def move_loop (E : Engine) (child : Int → Int → Position → SearchState → Int × SearchState)
    (beta : Int) (position : Position) (hash : Nat) : List Move → LoopState → LoopState
  | [], ls => ls
  | move :: rest, ls =>
    let moved := E.make_move position move
    if moved.2 then move_loop E child beta position hash rest ls
    else
      let pushed : SearchState :=
        { ls.st with thread_info := ss_push E position ls.st.thread_info move hash }
      let r := child (neg32 beta) (neg32 ls.alpha) moved.1 pushed
      let score := neg32 r.1
      let popped : SearchState := { r.2 with thread_info := ss_pop r.2.thread_info }
      let searched := ls.searched ++ [(move, score)]
      if score > ls.best_score then
        let raised_alpha := if score > ls.alpha then true else ls.raised_alpha
        let alpha := if score > ls.alpha then score else ls.alpha
        let ls' : LoopState :=
          { alpha := alpha, best_score := score, best_move := move,
            raised_alpha := raised_alpha, st := popped, searched := searched }
        if score ≥ beta then ls'
        else move_loop E child beta position hash rest ls'
      else
        move_loop E child beta position hash rest
          { ls with st := popped, searched := searched }

/-- The bound type `search` stores, lines 142-144. -/
def entry_type_of (beta best_score : Int) (raised_alpha : Bool) : EntryTypes :=
  if best_score ≥ beta then EntryTypes.LBound
  else if raised_alpha then EntryTypes.Exact
  else EntryTypes.UBound

/-- The index a `bool` colour selects. -/
def colorIndex (color : Bool) : Nat := if color then 1 else 0

/-- The part of `search` from the move generation on, lines 110-147. -/
def search_moves (E : Engine)
    (child : Int → Int → Position → SearchState → Int × SearchState)
    (alpha beta depth : Int) (position : Position) (hash : Nat) (st : SearchState) :
    Int × SearchState :=
  let color := position.color
  let r := move_loop E child beta position hash (E.movegen position)
    { alpha := alpha, best_score := E.ScoreNone, best_move := E.MoveNone,
      raised_alpha := false, st := st, searched := [] }
  if r.best_score = E.ScoreNone then
    (if E.attacks_square position (position.kingpos (colorIndex color))
        (colorIndex color ^^^ 1)
      then E.Mate + r.st.thread_info.search_ply else 0, r.st)
  else
    let entry_type := entry_type_of beta r.best_score r.raised_alpha
    (r.best_score,
      { r.st with TT := E.insert_entry r.st.TT hash depth r.best_move r.best_score entry_type })

/-- The variable `tt_score` once the probe has matched: the stored score,
shifted by `search_ply` when it is in mate range. -/
def probe_score (E : Engine) (entry : TTEntry) (search_ply : Int) : Int :=
  if entry.score > E.MateScore then entry.score - search_ply
  else if entry.score < -E.MateScore then entry.score + search_ply
  else entry.score

/-- The function `search` at `depth = d` for a natural number `d`; a call with
`depth <= 0` is the case `d = 0`. -/
def search_aux (E : Engine) :
    Nat → Int → Int → Position → SearchState → Int × SearchState
  | 0, _, _, position, st =>
    (eval position,
      { st with thread_info := { st.thread_info with nodes := st.thread_info.nodes + 1 } })
  | d + 1, alpha, beta, position, st =>
    let depth : Int := ((d + 1 : Nat) : Int)
    let st : SearchState :=
      { st with thread_info := { st.thread_info with nodes := st.thread_info.nodes + 1 } }
    let root : Bool := st.thread_info.search_ply = 0
    let hash := E.calculate position
    if !root && is_draw position st.thread_info hash then
      (2 - ((st.thread_info.nodes &&& 3 : Nat) : Int), st)
    else
      let entry := st.TT (hash &&& E.TT_mask)
      if entry.position_key = E.get_hash_upper_bits hash then
        let entry_type := entry.type
        let tt_score := probe_score E entry st.thread_info.search_ply
        if !root && entry.depth ≥ depth then
          if entry_type = EntryTypes.Exact ∨
              (entry_type = EntryTypes.LBound ∧ tt_score ≥ beta) ∨
              (entry_type = EntryTypes.UBound ∧ tt_score ≤ alpha) then
            (tt_score, st)
          else search_moves E (search_aux E d) alpha beta depth position hash st
        else search_moves E (search_aux E d) alpha beta depth position hash st
      else search_moves E (search_aux E d) alpha beta depth position hash st

def search (E : Engine) (alpha beta depth : Int) (position : Position)
    (st : SearchState) : Int × SearchState :=
  search_aux E depth.toNat alpha beta position st

/-- The state once `search` has counted the node (`thread_info.nodes++`). -/
def counted (st : SearchState) : SearchState :=
  { st with thread_info := { st.thread_info with nodes := st.thread_info.nodes + 1 } }

/-- The test `search` applies to a matching table entry before it returns the
stored score: deep enough, and the bound type fits the window. -/
def tt_cutoff (E : Engine) (alpha beta depth : Int) (entry : TTEntry) (search_ply : Int) :
    Prop :=
  entry.depth ≥ depth ∧
    (entry.type = EntryTypes.Exact ∨
      (entry.type = EntryTypes.LBound ∧ probe_score E entry search_ply ≥ beta) ∨
      (entry.type = EntryTypes.UBound ∧ probe_score E entry search_ply ≤ alpha))

instance (E : Engine) (alpha beta depth : Int) (entry : TTEntry) (search_ply : Int) :
    Decidable (tt_cutoff E alpha beta depth entry search_ply) := by
  unfold tt_cutoff
  infer_instance

/-- The call reaches the move generation: `depth >= 1`, no draw return and no
table cutoff. -/
def reaches_moves (E : Engine) (alpha beta depth : Int) (position : Position)
    (st : SearchState) : Prop :=
  1 ≤ depth ∧
  (st.thread_info.search_ply = 0 ∨
    (is_draw position st.thread_info (E.calculate position) = false ∧
      ((st.TT (E.calculate position &&& E.TT_mask)).position_key ≠
          E.get_hash_upper_bits (E.calculate position) ∨
        ¬ tt_cutoff E alpha beta depth (st.TT (E.calculate position &&& E.TT_mask))
          st.thread_info.search_ply)))

instance (E : Engine) (alpha beta depth : Int) (position : Position) (st : SearchState) :
    Decidable (reaches_moves E alpha beta depth position st) := by
  unfold reaches_moves
  infer_instance

/-- The loop variables on entry to the move loop. -/
def initLoop (E : Engine) (alpha : Int) (st : SearchState) : LoopState :=
  { alpha := alpha, best_score := E.ScoreNone, best_move := E.MoveNone,
    raised_alpha := false, st := st, searched := [] }

/-- The score the loop computes for `move`: the negated result of the child
search on the position after the move. -/
def step_score (E : Engine) (child : Int → Int → Position → SearchState → Int × SearchState)
    (beta : Int) (position : Position) (hash : Nat) (move : Move) (ls : LoopState) : Int :=
  neg32 (child (neg32 beta) (neg32 ls.alpha) (E.make_move position move).1
    { ls.st with thread_info := ss_push E position ls.st.thread_info move hash }).1

/-- The state after the child search of `move` and `ss_pop`. -/
def step_state (E : Engine) (child : Int → Int → Position → SearchState → Int × SearchState)
    (beta : Int) (position : Position) (hash : Nat) (move : Move) (ls : LoopState) :
    SearchState :=
  let r := child (neg32 beta) (neg32 ls.alpha) (E.make_move position move).1
    { ls.st with thread_info := ss_push E position ls.st.thread_info move hash }
  { r.2 with thread_info := ss_pop r.2.thread_info }

/-- The loop variables after a move with score `score` that beats
`best_score`. -/
def improved (ls : LoopState) (move : Move) (score : Int) (st : SearchState) : LoopState :=
  { alpha := if score > ls.alpha then score else ls.alpha
    best_score := score
    best_move := move
    raised_alpha := if score > ls.alpha then true else ls.raised_alpha
    st := st
    searched := ls.searched ++ [(move, score)] }

/-- The best score is attained at `best_move`, no earlier searched move reaches
it and no later one exceeds it. -/
def BestOf (ls : LoopState) : Prop :=
  ∃ pre post, ls.searched = pre ++ (ls.best_move, ls.best_score) :: post ∧
    (∀ x ∈ pre, x.2 < ls.best_score) ∧ (∀ x ∈ post, x.2 ≤ ls.best_score)

/-- What holds of the loop variables between two rounds of the move loop
entered with `alpha0`. -/
structure LoopInv (E : Engine) (alpha0 beta : Int) (ls : LoopState) : Prop where
  below : ∀ x ∈ ls.searched, x.2 < beta
  above : ∀ x ∈ ls.searched, E.ScoreNone < x.2
  best : (ls.searched = [] ∧ ls.best_score = E.ScoreNone ∧ ls.best_move = E.MoveNone) ∨
    BestOf ls
  raised : ls.raised_alpha = true ↔ ∃ x ∈ ls.searched, alpha0 < x.2
  alpha_ge : alpha0 ≤ ls.alpha
  alpha_ub : ∀ x ∈ ls.searched, x.2 ≤ ls.alpha
  alpha_eq : ls.alpha = alpha0 ∨ ∃ x ∈ ls.searched, x.2 = ls.alpha

/-- What holds of the loop variables when the move loop is left. -/
structure LoopPost (E : Engine) (alpha0 beta : Int) (r : LoopState) : Prop where
  stop : (∀ x ∈ r.searched, x.2 < beta) ∨
    (∃ pre, r.searched = pre ++ [(r.best_move, r.best_score)] ∧ beta ≤ r.best_score ∧
      ∀ x ∈ pre, x.2 < beta)
  best : (r.searched = [] ∧ r.best_score = E.ScoreNone ∧ r.best_move = E.MoveNone) ∨
    BestOf r
  raised : r.raised_alpha = true ↔ ∃ x ∈ r.searched, alpha0 < x.2

/-- The loop variables with which the move loop of the call
`search(alpha, beta, depth, position, ...)` ends, when the call reaches it. -/
def loop_result (E : Engine) (alpha beta depth : Int) (position : Position)
    (st : SearchState) : LoopState :=
  move_loop E (fun a b p s => search E a b (depth - 1) p s) beta position
    (E.calculate position) (E.movegen position) (initLoop E alpha (counted st))

/-- The generated moves that `make_move` accepts, in generation order. -/
def legal_moves (E : Engine) (position : Position) (moves : List Move) : List Move :=
  moves.filter (fun m => !(E.make_move position m).2)

/-! ## Auxiliary definitions for the statements about the evaluator -/

/-- The weight a cell of the board contributes to entry `i` of the view's
accumulator: nothing for a blank cell. -/
def cellWeight (net : NNUE_Params) (view kingSq : Nat) (board : Nat → Nat)
    (i square : Nat) : Int :=
  if board square ≠ Pieces.Blank then
    feature_weight net (feature_index view kingSq (board square) square) i
  else 0

/-- Entry `i` of the sum of the weights of all occupied squares, seen from
`view` with the view's king on `kingSq`. -/
def scratchSum (net : NNUE_Params) (view kingSq : Nat) (board : Nat → Nat) (i : Nat) : Int :=
  ∑ square ∈ Finset.range 64, cellWeight net view kingSq board i square


/-- The piece code and square a feature number stands for, for a view and the
view's king square: the inverse of `feature_index` on piece codes `2..13` and
squares `0..63`. -/
def feature_decode (view kingSq ft : Nat) : Nat × Nat :=
  let color := if ft / 384 = 0 then view else 1 - view
  let base := (ft % 384) / 64
  let sq := (ft % 64) ^^^ (56 * view)
  (2 * (base + 1) + color, if kingSq &&& 4 ≠ 0 then sq ^^^ 7 else sq)

/-- For a piece code `2..13`: the feature number is below 768, lies in the
first half exactly for a piece of the view's colour, and decodes to the piece
and square. -/
def FeatureFacts (view kingSq piece sq : Nat) : Prop :=
  2 ≤ piece →
    (feature_index view kingSq piece sq < 768 ∧
      feature_index view kingSq piece sq / 384 = (if piece &&& 1 = view then 0 else 1) ∧
      feature_decode view kingSq (feature_index view kingSq piece sq) = (piece, sq))

instance (view kingSq piece sq : Nat) : Decidable (FeatureFacts view kingSq piece sq) := by
  unfold FeatureFacts
  infer_instance

/-! ## Concrete data used to instantiate the statements -/

/-- A position given by its board and the two king squares; no material, White
to move. -/
def mkPosition (board : Nat → Nat) (wk bk : Nat) : Position :=
  { board := board
    material_count := fun _ => 0
    castling_rights := fun _ _ => false
    kingpos := fun c => if c = 0 then wk else bk
    ep_square := 0
    color := false
    halfmoves := 0 }

/-- A `get_king_pos` that reads the `kingpos` field. -/
def kingposOf (position : Position) (color : Nat) : Nat := position.kingpos color

/-- A weight blob whose only non-zero cell is entry 0 of feature 323 (a king of
the view's own colour on square 3, after the mirroring of `feature_index`). -/
def netKingD1 : NNUE_Params :=
  { feature_v := fun j => if j = 323 * 768 then 1 else 0
    feature_bias := fun _ => 0
    output_v := fun _ => 0
    output_bias := 0 }

/-- An evaluator state with a zeroed stack. -/
def zeroState : NNUE_State :=
  { m_accumulator_stack := fun _ _ _ => 0, m_curr := 0, kings_pos := fun _ => 0 }

/-- White king on e1 (square 4), black king on e8 (square 60). -/
def kingsE1E8 : Position :=
  mkPosition (fun sq => if sq = 4 then Pieces.WKing else if sq = 60 then Pieces.BKing
    else Pieces.Blank) 4 60

/-- The position after the white king steps from e1 to d1 (square 3). -/
def kingsD1E8 : Position :=
  mkPosition (fun sq => if sq = 3 then Pieces.WKing else if sq = 60 then Pieces.BKing
    else Pieces.Blank) 3 60

/-- Kings on e1 and e8 and a white pawn on e2 (square 12). -/
def pawnE2 : Position :=
  mkPosition (fun sq => if sq = 4 then Pieces.WKing else if sq = 60 then Pieces.BKing
    else if sq = 12 then Pieces.WPawn else Pieces.Blank) 4 60

/-- The position after the pawn moves from e2 to e4 (square 28). -/
def pawnE4 : Position :=
  mkPosition (fun sq => if sq = 28 then Pieces.WPawn else if sq = 12 then Pieces.Blank
    else pawnE2.board sq) 4 60

/-- The mirror image of `pawnE2`: colours toggled, squares xor 56. -/
def pawnE2Mirror : Position :=
  mkPosition (fun sq => if sq = 60 then Pieces.BKing else if sq = 4 then Pieces.WKing
    else if sq = 52 then Pieces.BPawn else Pieces.Blank) 4 60

/-! ## The score of `evaluate` in exact arithmetic -/

/-- The term of index `i` that the side to move contributes:
`clamp(acc[c][i], 0, 255)^2 * output_v[i]`. -/
def evalTermUs (net : NNUE_Params) (acc : Accumulator) (c i : Nat) : Int :=
  (clamp (acc c i) 0 255) ^ 2 * net.output_v i

/-- The term of index `i` that the other side contributes:
`clamp(acc[c ^ 1][i], 0, 255)^2 * output_v[768 + i]`. -/
def evalTermThem (net : NNUE_Params) (acc : Accumulator) (c i : Nat) : Int :=
  (clamp (acc (c ^^^ 1) i) 0 255) ^ 2 * net.output_v (768 + i)

/-- The sum of the terms of index below `n`, in exact arithmetic. -/
def evalSum (net : NNUE_Params) (acc : Accumulator) (c n : Nat) : Int :=
  ∑ i ∈ Finset.range n, (evalTermUs net acc c i + evalTermThem net acc c i)

/-- The score `((S / 255) + output_bias) * 400 / 16320` with truncating
division, `S` the sum over all 768 indices. -/
def evaluate_formula (net : NNUE_Params) (acc : Accumulator) (c : Nat) : Int :=
  Int.tdiv ((Int.tdiv (evalSum net acc c 768) 255 + net.output_bias) * 400) 16320

/-- The value fits a 32-bit signed `int`. -/
def InInt32 (x : Int) : Prop := -2147483648 ≤ x ∧ x ≤ 2147483647

instance (x : Int) : Decidable (InInt32 x) := by
  unfold InInt32
  infer_instance

/-- No intermediate value of `evaluate` leaves the 32-bit range: the products,
the running sum after each of the two additions of a round, the sum with the
bias and its product with `SCALE`. -/
def NoOverflow32 (net : NNUE_Params) (acc : Accumulator) (c : Nat) : Prop :=
  (∀ n < 768, InInt32 (evalTermUs net acc c n) ∧
    InInt32 (evalSum net acc c n + evalTermUs net acc c n) ∧
    InInt32 (evalTermThem net acc c n) ∧
    InInt32 (evalSum net acc c (n + 1))) ∧
  InInt32 (Int.tdiv (evalSum net acc c 768) 255 + net.output_bias) ∧
  InInt32 ((Int.tdiv (evalSum net acc c 768) 255 + net.output_bias) * 400)

instance (net : NNUE_Params) (acc : Accumulator) (c : Nat) :
    Decidable (NoOverflow32 net acc c) := by
  unfold NoOverflow32
  infer_instance

/-- A weight blob with two non-zero output weights and a bias. -/
def netOut : NNUE_Params :=
  { feature_v := fun _ => 0
    feature_bias := fun _ => 0
    output_v := fun j => if j = 0 then 64 else if j = 768 then -64 else 0
    output_bias := 5 }

/-- An evaluator state whose accumulator at the cursor holds 300 in entry 0 of
view 0 and 10 in entry 0 of view 1. -/
def stateOut : NNUE_State :=
  { m_accumulator_stack := fun _ view i =>
      if i = 0 then (if view = 0 then 300 else 10) else 0
    m_curr := 0
    kings_pos := fun _ => 0 }

/-! ## Concrete data for the statements about draws and the search -/

/-- A thread record with an empty history, at game ply and search ply `ply`. -/
def threadAt (ply : Int) : ThreadInfo :=
  { nodes := 0
    search_ply := ply
    game_ply := ply
    game_hist := fun _ => { position_key := 0, played_move := 0, piece_moved := 0 } }

/-- A position with the given material counts and half-move clock, kings on e1
and e8, White to move. -/
def materialPosition (counts : Nat → Nat) (halfmoves : Nat) : Position :=
  { kingsE1E8 with material_count := counts, halfmoves := halfmoves }

/-- A small engine: the hash of a position is 1 with White to move and 2 with
Black to move; White has the one move 7, Black has none; every move is
accepted and passes the turn; every square is attacked. -/
def toyEngine : Engine :=
  { calculate := fun p => if p.color then 2 else 1
    movegen := fun p => if p.color then [] else [7]
    make_move := fun p _ => ({ p with color := !p.color }, false)
    attacks_square := fun _ _ _ => true
    extract_from := fun m => m % 64
    get_hash_upper_bits := fun h => h / 65536
    insert_entry := insert_entry 65535 (fun h => h / 65536)
    TT_mask := 65535
    MateScore := 99000
    Mate := -100000
    ScoreNone := -1000000
    MoveNone := 0 }

/-- A table none of whose entries matches a hash below `65536`. -/
def emptyTT : Nat → TTEntry :=
  fun _ => { position_key := 1, depth := 0, best_move := 0, score := 0,
             type := EntryTypes.None }

/-- Kings and one white pawn, White to move, clock at zero. -/
def toyPosition : Position := materialPosition (fun i => if i = 0 then 1 else 0) 0

/-- One ply below the root, nothing in the table. -/
def toyState : SearchState := { thread_info := threadAt 1, TT := emptyTT }

/-- King and two white knights against the bare king. -/
def twoKnights : Position := materialPosition (fun i => if i = 2 then 2 else 0) 0

/-- King and two white bishops against the bare king. -/
def twoBishops : Position := materialPosition (fun i => if i = 4 then 2 else 0) 0

/-- The method `reset_nnue` with the squares visited in the order `order`
instead of `a1, ..., SqNone - 1`. -/
def NNUE_State.reset_nnue_order (net : NNUE_Params)
    (get_king_pos : Position → Nat → Nat) (s : NNUE_State)
    (position : Position) (order : List Nat) : NNUE_State :=
  let stack := setSlot s.m_accumulator_stack 0
    (Accumulator.init (s.m_accumulator_stack 0) net.feature_bias)
  let kings : Nat → Nat := fun view =>
    if view ≤ Colors.Black then get_king_pos position view else s.kings_pos view
  reset_loop net position order
    { m_accumulator_stack := stack, m_curr := 0, kings_pos := kings }

/-! ## What a call of `search` does along the way -/

/-- The things a call of `search` does that the statements below count or
bound: an invocation of `search` (one `nodes++`), a write of `game_hist[i]` in
`ss_push`, a read of `game_hist[i]` in the repetition loop of `is_draw`. -/
inductive Event where
  | call
  | write (i : Int)
  | read (i : Int)
deriving DecidableEq

/-- The indices the repetition loop of `is_draw` reads, in order; the loop is
the one of `is_draw_scan`. -/
def is_draw_scan_reads (game_hist : Int → GameHistory) (hash : Nat) (end_indx : Int) :
    Nat → Int → List Int
  | 0, _ => []
  | rounds + 1, i =>
    if i ≥ end_indx then
      i :: (if hash = (game_hist i).position_key then []
        else is_draw_scan_reads game_hist hash end_indx rounds (i - 2))
    else []

/-- The indices of `game_hist` that `is_draw` reads. -/
def is_draw_reads (position : Position) (thread_info : ThreadInfo) (hash : Nat) : List Int :=
  let halfmoves : Int := position.halfmoves
  let game_ply : Int := thread_info.game_ply
  if halfmoves ≥ 100 then []
  else if material_draw position then []
  else
    let start_index := game_ply - 4
    let end_indx := max (game_ply - halfmoves) 0
    is_draw_scan_reads thread_info.game_hist hash end_indx
      (start_index - end_indx + 2).toNat start_index

/-- The events of the move loop, following `move_loop` round by round;
`child_events` gives the events of the recursive call. -/
def loop_events (E : Engine) (child : Int → Int → Position → SearchState → Int × SearchState)
    (child_events : Int → Int → Position → SearchState → List Event)
    (beta : Int) (position : Position) (hash : Nat) : List Move → LoopState → List Event
  | [], _ => []
  | move :: rest, ls =>
    if (E.make_move position move).2 then
      loop_events E child child_events beta position hash rest ls
    else
      Event.write ls.st.thread_info.game_ply ::
        (child_events (neg32 beta) (neg32 ls.alpha) (E.make_move position move).1
            { ls.st with thread_info := ss_push E position ls.st.thread_info move hash } ++
          if step_score E child beta position hash move ls > ls.best_score then
            if step_score E child beta position hash move ls ≥ beta then []
            else
              loop_events E child child_events beta position hash rest
                (improved ls move (step_score E child beta position hash move ls)
                  (step_state E child beta position hash move ls))
          else
            loop_events E child child_events beta position hash rest
              { ls with
                st := step_state E child beta position hash move ls
                searched := ls.searched ++
                  [(move, step_score E child beta position hash move ls)] })

/-- The events of the call `search_aux E d alpha beta position st`, following
`search_aux` branch by branch. -/
def search_events (E : Engine) :
    Nat → Int → Int → Position → SearchState → List Event
  | 0, _, _, _, _ => [Event.call]
  | d + 1, alpha, beta, position, st =>
    let depth : Int := ((d + 1 : Nat) : Int)
    let st : SearchState := counted st
    let root : Bool := st.thread_info.search_ply = 0
    let hash := E.calculate position
    let moves_events :=
      loop_events E (search_aux E d) (search_events E d) beta position hash
        (E.movegen position) (initLoop E alpha st)
    Event.call ::
      ((if !root then (is_draw_reads position st.thread_info hash).map Event.read else []) ++
        if !root && is_draw position st.thread_info hash then []
        else
          let entry := st.TT (hash &&& E.TT_mask)
          if entry.position_key = E.get_hash_upper_bits hash then
            let tt_score := probe_score E entry st.thread_info.search_ply
            if !root && entry.depth ≥ depth then
              if entry.type = EntryTypes.Exact ∨
                  (entry.type = EntryTypes.LBound ∧ tt_score ≥ beta) ∨
                  (entry.type = EntryTypes.UBound ∧ tt_score ≤ alpha) then []
              else moves_events
            else moves_events
          else moves_events)

/-- The child search leaves `search_ply` and `game_ply` as it found them, and
the history below `game_ply` too. -/
def KeepsPlies (child : Int → Int → Position → SearchState → Int × SearchState) : Prop :=
  ∀ a b p s,
    (child a b p s).2.thread_info.search_ply = s.thread_info.search_ply ∧
    (child a b p s).2.thread_info.game_ply = s.thread_info.game_ply ∧
    ∀ j < s.thread_info.game_ply,
      (child a b p s).2.thread_info.game_hist j = s.thread_info.game_hist j

/-- The child search raises `nodes` by the number of invocations among its
events. -/
def CountsNodes (child : Int → Int → Position → SearchState → Int × SearchState)
    (child_events : Int → Int → Position → SearchState → List Event) : Prop :=
  ∀ a b p s,
    (child a b p s).2.thread_info.nodes =
      s.thread_info.nodes + (child_events a b p s).count Event.call

/-- The constant `INT32_MIN`. -/
def INT32_MIN : Int := -2147483648

/-- The constant `INT32_MAX`. -/
def INT32_MAX : Int := 2147483647

/-- The state in which `iterative_deepen` makes its first call of `search`:
`nodes` and `search_ply` are set to zero. -/
def deepen_start (st : SearchState) : SearchState :=
  { st with thread_info := { st.thread_info with nodes := 0, search_ply := 0 } }

/-- One round of the loop of `iterative_deepen`: the search at `depth`, the
best move read from the table, and the line printed (depth, score, nodes, best
move; the clock is left out). -/
def deepen_step (E : Engine) (position : Position)
    (acc : SearchState × List (Int × Int × Nat × Move)) (depth : Nat) :
    SearchState × List (Int × Int × Nat × Move) :=
  let hash_key := E.calculate position
  let r := search E INT32_MIN INT32_MAX depth position acc.1
  let best_move := (r.2.TT (hash_key &&& E.TT_mask)).best_move
  (r.2, acc.2 ++ [((depth : Int), r.1, r.2.thread_info.nodes, best_move)])

/-- The function `iterative_deepen`; `MaxSearchDepth` is declared outside the
given sources and is a parameter. The result is the final state and the lines
printed. -/
def iterative_deepen (E : Engine) (MaxSearchDepth : Nat) (position : Position)
    (st : SearchState) : SearchState × List (Int × Int × Nat × Move) :=
  (List.range' 1 MaxSearchDepth).foldl (deepen_step E position) (deepen_start st, [])

/-- The index of a history access lies in `[0, 1000)`, the extent of
`game_hist[1000]`. -/
def Event.InBounds : Event → Prop
  | Event.call => True
  | Event.write i => 0 ≤ i ∧ i < 1000
  | Event.read i => 0 ≤ i ∧ i < 1000

instance (e : Event) : Decidable e.InBounds := by
  cases e <;> unfold Event.InBounds <;> infer_instance

/-- Entered with `0 <= game_ply` and `game_ply + d <= 1000`, the child search
accesses the history only inside its extent. -/
def EventsInBounds (child_events : Int → Int → Position → SearchState → List Event)
    (d : Nat) : Prop :=
  ∀ a b p s, 0 ≤ s.thread_info.game_ply → s.thread_info.game_ply + (d : Int) ≤ 1000 →
    ∀ e ∈ child_events a b p s, e.InBounds

/-- The child search changes `game_hist` only at indices that its events list
as written. -/
def WritesListed (child : Int → Int → Position → SearchState → Int × SearchState)
    (child_events : Int → Int → Position → SearchState → List Event) : Prop :=
  ∀ a b p s j, Event.write j ∉ child_events a b p s →
    (child a b p s).2.thread_info.game_hist j = s.thread_info.game_hist j

/-- An engine with a game tree: every position has the two moves 2 and 1, in
this order; a move adds its number to the count of white pawns and passes the
turn; the hash is twice that count plus the side to move. -/
def treeEngine : Engine :=
  { calculate := fun p => 2 * p.material_count 0 + (if p.color then 1 else 0)
    movegen := fun _ => [2, 1]
    make_move := fun p m =>
      ({ p with
         color := !p.color
         material_count := fun i => if i = 0 then p.material_count 0 + m
           else p.material_count i }, false)
    attacks_square := fun _ _ _ => true
    extract_from := fun m => m % 64
    get_hash_upper_bits := fun h => h / 65536
    insert_entry := insert_entry 65535 (fun h => h / 65536)
    TT_mask := 65535
    MateScore := 99000
    Mate := -100000
    ScoreNone := -1000000
    MoveNone := 0 }

/-! ## The vectorised branch of `screlu_flatten` -/

/-- Modelled from the spec: `simd.h` is not among the given sources. A register
is the function from the lane number to the value of the lane;
`get_int16_vec(x)` holds `x` in every 16-bit lane. -/
def get_int16_vec (x : Int) : Nat → Int := fun _ => x

/-- The constant `SCRELU_MIN_VEC`. -/
def SCRELU_MIN_VEC : Nat → Int := get_int16_vec SCRELU_MIN

/-- The constant `QA_VEC`. -/
def QA_VEC : Nat → Int := get_int16_vec QA

/-- Modelled from the spec: `int16_load(&arr[i])` of the absent `simd.h`, lane
`j` holds `arr[i + j]`. -/
def int16_load (arr : Nat → Int) (i : Nat) : Nat → Int := fun j => arr (i + j)

/-- Modelled from the spec: `vec_int16_clamp` of the absent `simd.h`, the
lane-wise clamp, as the minimum with `hi` of the maximum with `lo`. -/
def vec_int16_clamp (v lo hi : Nat → Int) : Nat → Int :=
  fun j => min (max (v j) (lo j)) (hi j)

/-- Modelled from the spec: `vec_int16_multiply` of the absent `simd.h`, the
16-bit lane multiply: each lane keeps the low 16 bits of the product. -/
def vec_int16_multiply (a b : Nat → Int) : Nat → Int :=
  fun j => wrap16 (a j * b j)

/-- Modelled from the spec: `vec_int16_madd_int32` of the absent `simd.h`, the
multiply-add into 32-bit lanes: lane `k` holds the sum of the products of the
16-bit lanes `2k` and `2k + 1`. -/
def vec_int16_madd_int32 (a b : Nat → Int) : Nat → Int :=
  fun k => wrap32 (a (2 * k) * b (2 * k) + a (2 * k + 1) * b (2 * k + 1))

/-- Modelled from the spec: `vec_int32_add` of the absent `simd.h`, the
lane-wise 32-bit sum. -/
def vec_int32_add (a b : Nat → Int) : Nat → Int :=
  fun k => wrap32 (a k + b k)

/-- Modelled from the spec: `vec_int32_zero` of the absent `simd.h`. -/
def vec_int32_zero : Nat → Int := fun _ => 0

/-- Modelled from the spec: `vec_int32_hadd` of the absent `simd.h`, the
horizontal 32-bit sum of the `REGISTER_SIZE / 2` lanes of a register of
`REGISTER_SIZE` 16-bit lanes. -/
def vec_int32_hadd (REGISTER_SIZE : Nat) (v : Nat → Int) : Int :=
  wrap32 (∑ k ∈ Finset.range (REGISTER_SIZE / 2), v k)

/-- The vectorised branch of `screlu_flatten`: the register `sum` after the
first `n` rounds of the loop, round `n` working at `i = n * REGISTER_SIZE`. -/
def screlu_flatten_vec_loop (REGISTER_SIZE : Nat) (us them weights : Nat → Int) :
    Nat → (Nat → Int)
  | 0 => vec_int32_zero
  | n + 1 =>
    let i := n * REGISTER_SIZE
    let sum := screlu_flatten_vec_loop REGISTER_SIZE us them weights n
    let v_us := int16_load us i
    let w_us := int16_load weights i
    let v_us := vec_int16_clamp v_us SCRELU_MIN_VEC QA_VEC
    let our_product := vec_int16_multiply v_us w_us
    let our_result := vec_int16_madd_int32 our_product v_us
    let sum := vec_int32_add sum our_result
    let v_them := int16_load them i
    let w_them := int16_load weights (LAYER1_SIZE + i)
    let v_them := vec_int16_clamp v_them SCRELU_MIN_VEC QA_VEC
    let their_product := vec_int16_multiply v_them w_them
    let their_result := vec_int16_madd_int32 their_product v_them
    vec_int32_add sum their_result

/-- The vectorised branch of `screlu_flatten`; the loop
`for (i = 0; i < LAYER1_SIZE; i += REGISTER_SIZE)` makes
`ceil(LAYER1_SIZE / REGISTER_SIZE)` rounds. -/
def screlu_flatten_vec (REGISTER_SIZE : Nat) (us them weights : Nat → Int) : Int :=
  Int.tdiv
    (vec_int32_hadd REGISTER_SIZE
      (screlu_flatten_vec_loop REGISTER_SIZE us them weights
        ((LAYER1_SIZE + REGISTER_SIZE - 1) / REGISTER_SIZE)))
    QA

/-- The value fits a 16-bit signed lane. -/
def InInt16 (x : Int) : Prop := -32768 ≤ x ∧ x ≤ 32767

instance (x : Int) : Decidable (InInt16 x) := by
  unfold InInt16
  infer_instance

/-- What index `j` contributes to the vectorised sum: for each side the 16-bit
product of the clamped activation and the weight, times the clamped
activation. -/
def vecTerm (us them weights : Nat → Int) (j : Nat) : Int :=
  wrap16 (clamp (us j) 0 255 * weights j) * clamp (us j) 0 255 +
  wrap16 (clamp (them j) 0 255 * weights (768 + j)) * clamp (them j) 0 255

/-- What index `j` contributes to the scalar sum. -/
def scalarTerm (us them weights : Nat → Int) (j : Nat) : Int :=
  screlu (us j) * weights j + screlu (them j) * weights (768 + j)

/-- An activation vector with 255 in entry 0. -/
def usOne : Nat → Int := fun i => if i = 0 then 255 else 0

/-- Output weights with 1000 in entry 0. -/
def weightsOne : Nat → Int := fun i => if i = 0 then 1000 else 0

/-- Output weights with 100 in entry 0. -/
def weightsSmall : Nat → Int := fun i => if i = 0 then 100 else 0

/-- The small engine without moves, in which only the square 60 is attacked, and
only by White (colour 0). -/
def checkEngine : Engine :=
  { toyEngine with
    movegen := fun _ => []
    attacks_square := fun _ sq by_color => decide (sq = 60 ∧ by_color = 0) }
/-! ## Arithmetic of the wrap-around conversions -/

theorem wrap16_add_left (a b : Int) : wrap16 (wrap16 a + b) = wrap16 (a + b) := by
  unfold wrap16; omega

theorem wrap16_add_right (a b : Int) : wrap16 (a + wrap16 b) = wrap16 (a + b) := by
  unfold wrap16; omega

theorem wrap16_sub_left (a b : Int) : wrap16 (wrap16 a - b) = wrap16 (a - b) := by
  unfold wrap16; omega

theorem wrap16_idem (a : Int) : wrap16 (wrap16 a) = wrap16 a := by
  unfold wrap16; omega

theorem wrap32_of_inRange (x : Int) (h1 : -2147483648 ≤ x) (h2 : x < 2147483648) :
    wrap32 x = x := by
  unfold wrap32; omega

/-! ## The accumulator that `reset_nnue` builds -/

theorem add_feature_curr (net : NNUE_Params) (s : NNUE_State) (piece square : Nat)
    (view i : Nat) (hv : view ≤ 1) (hi : i < 768) :
    (s.add_feature net piece square).curr view i =
      wrap16 (s.curr view i +
        feature_weight net (feature_index view (s.kings_pos view) piece square) i) := by
  simp [NNUE_State.add_feature, NNUE_State.curr, setSlot, add_to_all, feature_weight,
    Colors.Black, LAYER1_SIZE, hv, hi]

theorem add_feature_kings_pos (net : NNUE_Params) (s : NNUE_State) (piece square : Nat) :
    (s.add_feature net piece square).kings_pos = s.kings_pos := rfl

theorem reset_loop_kings_pos (net : NNUE_Params) (position : Position) (l : List Nat) :
    ∀ s : NNUE_State, (reset_loop net position l s).kings_pos = s.kings_pos := by
  induction l with
  | nil => intro s; rfl
  | cons sq rest ih =>
    intro s
    unfold reset_loop
    split
    · rw [ih, add_feature_kings_pos]
    · exact ih s

theorem reset_loop_curr (net : NNUE_Params) (position : Position) (view i : Nat)
    (hv : view ≤ 1) (hi : i < 768) (l : List Nat) :
    ∀ s : NNUE_State, (reset_loop net position l s).curr view i =
      if ∀ sq ∈ l, position.board sq = Pieces.Blank then s.curr view i
      else wrap16 (s.curr view i +
        (l.map (cellWeight net view (s.kings_pos view) position.board i)).sum) := by
  induction l with
  | nil => intro s; simp [reset_loop]
  | cons sq rest ih =>
    intro s
    unfold reset_loop
    by_cases hb : position.board sq = Pieces.Blank
    · simp only [hb, ne_eq, not_true_eq_false, if_false, List.mem_cons, forall_eq_or_imp,
        true_and, List.map_cons, List.sum_cons]
      rw [ih s]
      simp [cellWeight, hb]
    · simp only [ne_eq, hb, not_false_eq_true, if_true, List.mem_cons, forall_eq_or_imp,
        false_and, if_false, List.map_cons, List.sum_cons]
      rw [ih, add_feature_curr net s _ _ view i hv hi, add_feature_kings_pos]
      split
      · rename_i hall
        have hz : (rest.map (cellWeight net view (s.kings_pos view) position.board i)).sum
            = 0 := by
          apply List.sum_eq_zero
          intro x hx
          obtain ⟨q, hq, rfl⟩ := List.mem_map.mp hx
          simp [cellWeight, hall q hq]
        rw [hz]
        simp [cellWeight, hb]
      · rw [wrap16_add_left]
        simp [cellWeight, hb, add_assoc]

theorem list_range_map_sum (f : Nat → Int) (n : Nat) :
    ((List.range n).map f).sum = ∑ x ∈ Finset.range n, f x := by
  induction n with
  | zero => simp
  | succ n ih => simp [List.range_succ, Finset.sum_range_succ, ih]

theorem reset_nnue_kings_pos (net : NNUE_Params) (get_king_pos : Position → Nat → Nat)
    (s : NNUE_State) (position : Position) (view : Nat) (hv : view ≤ 1) :
    (s.reset_nnue net get_king_pos position).kings_pos view = get_king_pos position view := by
  simp [NNUE_State.reset_nnue, reset_loop_kings_pos, Colors.Black, hv]

theorem reset_nnue_m_curr_loop (net : NNUE_Params) (position : Position) (l : List Nat) :
    ∀ s : NNUE_State, (reset_loop net position l s).m_curr = s.m_curr := by
  induction l with
  | nil => intro s; rfl
  | cons sq rest ih =>
    intro s
    unfold reset_loop
    split
    · rw [ih]; rfl
    · exact ih s

theorem reset_nnue_m_curr (net : NNUE_Params) (get_king_pos : Position → Nat → Nat)
    (s : NNUE_State) (position : Position) :
    (s.reset_nnue net get_king_pos position).m_curr = 0 := by
  simp [NNUE_State.reset_nnue, reset_nnue_m_curr_loop]

/-- What `reset_nnue` leaves at the cursor: the bias when the board is empty,
and otherwise the bias plus the weights of the occupied squares, as an
`int16_t`. -/
theorem reset_nnue_curr (net : NNUE_Params) (get_king_pos : Position → Nat → Nat)
    (s : NNUE_State) (position : Position) (view i : Nat) (hv : view ≤ 1) (hi : i < 768) :
    (s.reset_nnue net get_king_pos position).curr view i =
      if ∀ sq < 64, position.board sq = Pieces.Blank then net.feature_bias i
      else wrap16 (net.feature_bias i +
        scratchSum net view (get_king_pos position view) position.board i) := by
  have hinit : ∀ st : NNUE_State, st.m_curr = 0 →
      st.m_accumulator_stack 0 view i = net.feature_bias i →
      st.kings_pos view = get_king_pos position view →
      (reset_loop net position (List.range' a1 (SqNone - a1)) st).curr view i =
        if ∀ sq < 64, position.board sq = Pieces.Blank then net.feature_bias i
        else wrap16 (net.feature_bias i +
          scratchSum net view (get_king_pos position view) position.board i) := by
    intro st h0 hb hk
    rw [reset_loop_curr net position view i hv hi]
    have hr : List.range' a1 (SqNone - a1) = List.range 64 := by
      simp [a1, SqNone, List.range_eq_range']
    rw [hr, list_range_map_sum, hk]
    simp only [List.mem_range, NNUE_State.curr, h0, hb, scratchSum]
  apply hinit
  · rfl
  · have h1 : view = 1 ∨ view = 0 := by omega
    simp [setSlot, Accumulator.init, LAYER1_SIZE, hi, h1]
  · simp [Colors.Black, hv]

theorem feature_index_king_half (view k k' piece sq : Nat) (h : k' &&& 4 = k &&& 4) :
    feature_index view k' piece sq = feature_index view k piece sq := by
  simp [feature_index, h]

theorem cellWeight_king_half (net : NNUE_Params) (view k k' : Nat) (board : Nat → Nat)
    (i sq : Nat) (h : k' &&& 4 = k &&& 4) :
    cellWeight net view k' board i sq = cellWeight net view k board i sq := by
  simp [cellWeight, feature_index_king_half view k k' _ sq h]

theorem scratchSum_king_half (net : NNUE_Params) (view k k' : Nat) (board : Nat → Nat)
    (i : Nat) (h : k' &&& 4 = k &&& 4) :
    scratchSum net view k' board i = scratchSum net view k board i := by
  unfold scratchSum
  exact Finset.sum_congr rfl (fun sq _ => cellWeight_king_half net view k k' board i sq h)

/-- The sum over the squares of a function that differs from `f` by `d`. -/
theorem sum_range_add_diff (f g d : Nat → Int) (n : Nat)
    (h : ∀ sq, g sq = f sq + d sq) :
    ∑ sq ∈ Finset.range n, g sq = ∑ sq ∈ Finset.range n, f sq + ∑ sq ∈ Finset.range n, d sq := by
  rw [← Finset.sum_add_distrib]
  exact Finset.sum_congr rfl (fun sq _ => h sq)

theorem sum_range_single (n a : Nat) (w : Int) (ha : a < n) :
    ∑ sq ∈ Finset.range n, (if sq = a then w else 0) = w := by
  simp [Finset.sum_ite_eq', ha]

/-! ## The pushes against `reset_nnue` -/

theorem add_sub_curr (net : NNUE_Params) (s : NNUE_State)
    (from_piece from_sq to_piece to_sq view i : Nat) (hv : view ≤ 1) (hi : i < 768) :
    (s.add_sub net from_piece from_sq to_piece to_sq).curr view i =
      wrap16 (s.curr view i +
        feature_weight net (feature_index view (s.kings_pos view) to_piece to_sq) i -
        feature_weight net (feature_index view (s.kings_pos view) from_piece from_sq) i) := by
  simp [NNUE_State.add_sub, NNUE_State.curr, setSlot, Colors.Black, LAYER1_SIZE, hv, hi]

theorem add_sub_sub_curr (net : NNUE_Params) (s : NNUE_State)
    (from_piece from_sq to_piece to_sq captured captured_sq view i : Nat)
    (hv : view ≤ 1) (hi : i < 768) :
    (s.add_sub_sub net from_piece from_sq to_piece to_sq captured captured_sq).curr view i =
      wrap16 (s.curr view i +
        feature_weight net (feature_index view (s.kings_pos view) to_piece to_sq) i -
        feature_weight net (feature_index view (s.kings_pos view) from_piece from_sq) i -
        feature_weight net (feature_index view (s.kings_pos view) captured captured_sq) i) := by
  simp [NNUE_State.add_sub_sub, NNUE_State.curr, setSlot, Colors.Black, LAYER1_SIZE, hv, hi]

theorem add_add_sub_sub_curr (net : NNUE_Params) (s : NNUE_State)
    (piece1 from1 to1 piece2 from2 to2 view i : Nat) (hv : view ≤ 1) (hi : i < 768) :
    (s.add_add_sub_sub net piece1 from1 to1 piece2 from2 to2).curr view i =
      wrap16 (s.curr view i +
        feature_weight net (feature_index view (s.kings_pos view) piece1 to1) i -
        feature_weight net (feature_index view (s.kings_pos view) piece1 from1) i +
        feature_weight net (feature_index view (s.kings_pos view) piece2 to2) i -
        feature_weight net (feature_index view (s.kings_pos view) piece2 from2) i) := by
  simp [NNUE_State.add_add_sub_sub, NNUE_State.curr, setSlot, Colors.Black, LAYER1_SIZE,
    hv, hi]

theorem reset_nnue_curr_of_occupied (net : NNUE_Params)
    (get_king_pos : Position → Nat → Nat) (s : NNUE_State) (position : Position)
    (view i : Nat) (hv : view ≤ 1) (hi : i < 768) (sq : Nat) (hsq : sq < 64)
    (hocc : position.board sq ≠ Pieces.Blank) :
    (s.reset_nnue net get_king_pos position).curr view i =
      wrap16 (net.feature_bias i +
        scratchSum net view (get_king_pos position view) position.board i) := by
  rw [reset_nnue_curr net get_king_pos s position view i hv hi, if_neg]
  intro hall
  exact hocc (hall sq hsq)

/-- A quiet move or promotion changes the sum of the occupied squares by the
weight of the arriving piece minus the weight of the leaving one. -/
theorem scratchSum_quiet (net : NNUE_Params) (view k : Nat) (b b' : Nat → Nat) (i : Nat)
    (from_piece from_sq to_piece to_sq : Nat)
    (hf : from_sq < 64) (ht : to_sq < 64) (hne : from_sq ≠ to_sq)
    (hfp : b from_sq = from_piece) (hfn : from_piece ≠ Pieces.Blank)
    (htb : b to_sq = Pieces.Blank) (htp : to_piece ≠ Pieces.Blank)
    (hb' : ∀ sq, b' sq = if sq = to_sq then to_piece
      else if sq = from_sq then Pieces.Blank else b sq) :
    scratchSum net view k b' i = scratchSum net view k b i +
      feature_weight net (feature_index view k to_piece to_sq) i -
      feature_weight net (feature_index view k from_piece from_sq) i := by
  unfold scratchSum
  rw [sum_range_add_diff (cellWeight net view k b i) (cellWeight net view k b' i)
    (fun sq => (if sq = to_sq then
        feature_weight net (feature_index view k to_piece to_sq) i else 0) +
      (if sq = from_sq then
        -feature_weight net (feature_index view k from_piece from_sq) i else 0)) 64]
  · rw [Finset.sum_add_distrib, sum_range_single 64 to_sq _ ht,
      sum_range_single 64 from_sq _ hf]
    ring
  · intro sq
    simp only [cellWeight, hb']
    by_cases h1 : sq = to_sq
    · subst h1
      have : sq ≠ from_sq := fun h => hne h.symm
      simp [htb, htp, this]
    · by_cases h2 : sq = from_sq
      · subst h2
        simp [h1, hfp, hfn]
      · simp [h1, h2]

theorem add_sub_eq_reset (net : NNUE_Params) (get_king_pos : Position → Nat → Nat)
    (s0 s1 : NNUE_State) (P P' : Position) (from_piece from_sq to_piece to_sq : Nat)
    (hk : ∀ view ≤ 1, get_king_pos P' view &&& 4 = get_king_pos P view &&& 4)
    (hf : from_sq < 64) (ht : to_sq < 64) (hne : from_sq ≠ to_sq)
    (hfp : P.board from_sq = from_piece) (hfn : from_piece ≠ Pieces.Blank)
    (htb : P.board to_sq = Pieces.Blank) (htp : to_piece ≠ Pieces.Blank)
    (hb' : ∀ sq, P'.board sq = if sq = to_sq then to_piece
      else if sq = from_sq then Pieces.Blank else P.board sq)
    (view i : Nat) (hv : view ≤ 1) (hi : i < 768) :
    ((s0.reset_nnue net get_king_pos P).add_sub net from_piece from_sq to_piece to_sq).curr
        view i = (s1.reset_nnue net get_king_pos P').curr view i := by
  rw [add_sub_curr net _ _ _ _ _ view i hv hi, reset_nnue_kings_pos net _ _ _ view hv,
    reset_nnue_curr_of_occupied net get_king_pos s0 P view i hv hi from_sq hf
      (by rw [hfp]; exact hfn),
    reset_nnue_curr_of_occupied net get_king_pos s1 P' view i hv hi to_sq ht
      (by rw [hb']; simpa using htp),
    scratchSum_king_half net view _ _ P'.board i (hk view hv),
    scratchSum_quiet net view _ P.board P'.board i from_piece from_sq to_piece to_sq
      hf ht hne hfp hfn htb htp hb']
  unfold wrap16
  omega

/-- A capture (the captured piece may stand on the arrival square or, en
passant, elsewhere) changes the sum of the occupied squares by the weight of the
arriving piece minus those of the leaving and of the captured piece. -/
theorem scratchSum_capture (net : NNUE_Params) (view k : Nat) (b b' : Nat → Nat) (i : Nat)
    (from_piece from_sq to_piece to_sq captured captured_sq : Nat)
    (hf : from_sq < 64) (ht : to_sq < 64) (hc : captured_sq < 64)
    (hne : from_sq ≠ to_sq) (hcf : captured_sq ≠ from_sq)
    (hfp : b from_sq = from_piece) (hfn : from_piece ≠ Pieces.Blank)
    (hcp : b captured_sq = captured) (hcn : captured ≠ Pieces.Blank)
    (hto : to_sq = captured_sq ∨ b to_sq = Pieces.Blank) (htp : to_piece ≠ Pieces.Blank)
    (hb' : ∀ sq, b' sq = if sq = to_sq then to_piece
      else if sq = from_sq ∨ sq = captured_sq then Pieces.Blank else b sq) :
    scratchSum net view k b' i = scratchSum net view k b i +
      feature_weight net (feature_index view k to_piece to_sq) i -
      feature_weight net (feature_index view k from_piece from_sq) i -
      feature_weight net (feature_index view k captured captured_sq) i := by
  unfold scratchSum
  rw [sum_range_add_diff (cellWeight net view k b i) (cellWeight net view k b' i)
    (fun sq => (if sq = to_sq then
        feature_weight net (feature_index view k to_piece to_sq) i else 0) +
      ((if sq = from_sq then
        -feature_weight net (feature_index view k from_piece from_sq) i else 0) +
      (if sq = captured_sq then
        -feature_weight net (feature_index view k captured captured_sq) i else 0))) 64]
  · rw [Finset.sum_add_distrib, Finset.sum_add_distrib, sum_range_single 64 to_sq _ ht,
      sum_range_single 64 from_sq _ hf, sum_range_single 64 captured_sq _ hc]
    ring
  · intro sq
    simp only [cellWeight, hb']
    by_cases h1 : sq = to_sq
    · subst h1
      have h2 : sq ≠ from_sq := fun h => hne h.symm
      rcases hto with h3 | h3
      · subst h3
        simp [htp, h2, hcp, hcn]
      · have h4 : sq ≠ captured_sq := by
          intro h; rw [h, hcp] at h3; exact hcn h3
        simp [htp, h2, h3, h4]
    · by_cases h2 : sq = from_sq
      · subst h2
        have h3 : sq ≠ captured_sq := fun h => hcf h.symm
        simp [h1, h3, hfp, hfn]
      · by_cases h3 : sq = captured_sq
        · subst h3
          simp [h1, h2, hcp, hcn]
        · simp [h1, h2, h3]

theorem add_sub_sub_eq_reset (net : NNUE_Params) (get_king_pos : Position → Nat → Nat)
    (s0 s1 : NNUE_State) (P P' : Position)
    (from_piece from_sq to_piece to_sq captured captured_sq : Nat)
    (hk : ∀ view ≤ 1, get_king_pos P' view &&& 4 = get_king_pos P view &&& 4)
    (hf : from_sq < 64) (ht : to_sq < 64) (hc : captured_sq < 64)
    (hne : from_sq ≠ to_sq) (hcf : captured_sq ≠ from_sq)
    (hfp : P.board from_sq = from_piece) (hfn : from_piece ≠ Pieces.Blank)
    (hcp : P.board captured_sq = captured) (hcn : captured ≠ Pieces.Blank)
    (hto : to_sq = captured_sq ∨ P.board to_sq = Pieces.Blank)
    (htp : to_piece ≠ Pieces.Blank)
    (hb' : ∀ sq, P'.board sq = if sq = to_sq then to_piece
      else if sq = from_sq ∨ sq = captured_sq then Pieces.Blank else P.board sq)
    (view i : Nat) (hv : view ≤ 1) (hi : i < 768) :
    ((s0.reset_nnue net get_king_pos P).add_sub_sub net from_piece from_sq to_piece to_sq
        captured captured_sq).curr view i =
      (s1.reset_nnue net get_king_pos P').curr view i := by
  rw [add_sub_sub_curr net _ _ _ _ _ _ _ view i hv hi,
    reset_nnue_kings_pos net _ _ _ view hv,
    reset_nnue_curr_of_occupied net get_king_pos s0 P view i hv hi from_sq hf
      (by rw [hfp]; exact hfn),
    reset_nnue_curr_of_occupied net get_king_pos s1 P' view i hv hi to_sq ht
      (by rw [hb']; simpa using htp),
    scratchSum_king_half net view _ _ P'.board i (hk view hv),
    scratchSum_capture net view _ P.board P'.board i from_piece from_sq to_piece to_sq
      captured captured_sq hf ht hc hne hcf hfp hfn hcp hcn hto htp hb']
  unfold wrap16
  omega

/-- A double move of two pieces onto two blank squares changes the sum of the
occupied squares by the two arrival weights minus the two departure weights. -/
theorem scratchSum_double (net : NNUE_Params) (view k : Nat) (b b' : Nat → Nat) (i : Nat)
    (piece1 from1 to1 piece2 from2 to2 : Nat)
    (hf1 : from1 < 64) (ht1 : to1 < 64) (hf2 : from2 < 64) (ht2 : to2 < 64)
    (hff : from1 ≠ from2) (htt : to1 ≠ to2)
    (hp1 : b from1 = piece1) (hn1 : piece1 ≠ Pieces.Blank)
    (hp2 : b from2 = piece2) (hn2 : piece2 ≠ Pieces.Blank)
    (hb1 : b to1 = Pieces.Blank) (hb2 : b to2 = Pieces.Blank)
    (hb' : ∀ sq, b' sq = if sq = to1 then piece1 else if sq = to2 then piece2
      else if sq = from1 ∨ sq = from2 then Pieces.Blank else b sq) :
    scratchSum net view k b' i = scratchSum net view k b i +
      feature_weight net (feature_index view k piece1 to1) i -
      feature_weight net (feature_index view k piece1 from1) i +
      feature_weight net (feature_index view k piece2 to2) i -
      feature_weight net (feature_index view k piece2 from2) i := by
  have e1 : to1 ≠ from1 := by intro h; rw [h, hp1] at hb1; exact hn1 hb1
  have e2 : to1 ≠ from2 := by intro h; rw [h, hp2] at hb1; exact hn2 hb1
  have e3 : to2 ≠ from1 := by intro h; rw [h, hp1] at hb2; exact hn1 hb2
  have e4 : to2 ≠ from2 := by intro h; rw [h, hp2] at hb2; exact hn2 hb2
  unfold scratchSum
  rw [sum_range_add_diff (cellWeight net view k b i) (cellWeight net view k b' i)
    (fun sq => ((if sq = to1 then
        feature_weight net (feature_index view k piece1 to1) i else 0) +
      (if sq = from1 then
        -feature_weight net (feature_index view k piece1 from1) i else 0)) +
      ((if sq = to2 then
        feature_weight net (feature_index view k piece2 to2) i else 0) +
      (if sq = from2 then
        -feature_weight net (feature_index view k piece2 from2) i else 0))) 64]
  · rw [Finset.sum_add_distrib, Finset.sum_add_distrib, Finset.sum_add_distrib,
      sum_range_single 64 to1 _ ht1, sum_range_single 64 from1 _ hf1,
      sum_range_single 64 to2 _ ht2, sum_range_single 64 from2 _ hf2]
    ring
  · intro sq
    simp only [cellWeight, hb']
    by_cases h1 : sq = to1
    · subst h1
      simp [hn1, hb1, htt, e1, e2]
    · by_cases h2 : sq = to2
      · subst h2
        simp [h1, hn2, hb2, e3, e4]
      · by_cases h3 : sq = from1
        · subst h3
          simp [h1, h2, hff, hp1, hn1]
        · by_cases h4 : sq = from2
          · subst h4
            simp [h1, h2, h3, hp2, hn2]
          · simp [h1, h2, h3, h4]

theorem add_add_sub_sub_eq_reset (net : NNUE_Params)
    (get_king_pos : Position → Nat → Nat) (s0 s1 : NNUE_State) (P P' : Position)
    (piece1 from1 to1 piece2 from2 to2 : Nat)
    (hk : ∀ view ≤ 1, get_king_pos P' view &&& 4 = get_king_pos P view &&& 4)
    (hf1 : from1 < 64) (ht1 : to1 < 64) (hf2 : from2 < 64) (ht2 : to2 < 64)
    (hff : from1 ≠ from2) (htt : to1 ≠ to2)
    (hp1 : P.board from1 = piece1) (hn1 : piece1 ≠ Pieces.Blank)
    (hp2 : P.board from2 = piece2) (hn2 : piece2 ≠ Pieces.Blank)
    (hb1 : P.board to1 = Pieces.Blank) (hb2 : P.board to2 = Pieces.Blank)
    (hb' : ∀ sq, P'.board sq = if sq = to1 then piece1 else if sq = to2 then piece2
      else if sq = from1 ∨ sq = from2 then Pieces.Blank else P.board sq)
    (view i : Nat) (hv : view ≤ 1) (hi : i < 768) :
    ((s0.reset_nnue net get_king_pos P).add_add_sub_sub net piece1 from1 to1
        piece2 from2 to2).curr view i =
      (s1.reset_nnue net get_king_pos P').curr view i := by
  rw [add_add_sub_sub_curr net _ _ _ _ _ _ _ view i hv hi,
    reset_nnue_kings_pos net _ _ _ view hv,
    reset_nnue_curr_of_occupied net get_king_pos s0 P view i hv hi from1 hf1
      (by rw [hp1]; exact hn1),
    reset_nnue_curr_of_occupied net get_king_pos s1 P' view i hv hi to1 ht1
      (by rw [hb']; simpa using hn1),
    scratchSum_king_half net view _ _ P'.board i (hk view hv),
    scratchSum_double net view _ P.board P'.board i piece1 from1 to1 piece2 from2 to2
      hf1 ht1 hf2 ht2 hff htt hp1 hn1 hp2 hn2 hb1 hb2 hb']
  unfold wrap16
  omega

/-! ## C1: incremental update against recomputation -/

/-- C1, as stated, fails for a king move: with kings on e1 and e8, after the
white king steps from e1 to d1 the accumulator pushed by `add_sub` differs, in
entry 0 of White's view, from the one `reset_nnue` computes for the resulting
position. -/
theorem add_sub_king_move_ne_reset :
    ((zeroState.reset_nnue netKingD1 kingposOf kingsE1E8).add_sub netKingD1
        Pieces.WKing 4 Pieces.WKing 3).curr 0 0 ≠
      (zeroState.reset_nnue netKingD1 kingposOf kingsD1E8).curr 0 0 := by
  decide

/-- C1 (amended): for every position `P` and every move after which each
colour's king square agrees with its square in `P` on bit 2, `reset_nnue(P)`
followed by the matching push (`add_sub` for a quiet move or promotion,
`add_sub_sub` for a capture, en passant included, `add_add_sub_sub` for a double
move onto blank squares) leaves at the cursor, for both views and all 768
entries, the accumulator `reset_nnue` computes for the resulting position
`P'`. -/
theorem push_eq_reset_of_king_half (net : NNUE_Params)
    (get_king_pos : Position → Nat → Nat) (s0 s1 : NNUE_State) (P P' : Position)
    (hk : ∀ view ≤ 1, get_king_pos P' view &&& 4 = get_king_pos P view &&& 4) :
    (∀ from_piece from_sq to_piece to_sq : Nat,
      from_sq < 64 → to_sq < 64 → from_sq ≠ to_sq →
      P.board from_sq = from_piece → from_piece ≠ Pieces.Blank →
      P.board to_sq = Pieces.Blank → to_piece ≠ Pieces.Blank →
      (∀ sq, P'.board sq = if sq = to_sq then to_piece
        else if sq = from_sq then Pieces.Blank else P.board sq) →
      ∀ view ≤ 1, ∀ i < 768,
        ((s0.reset_nnue net get_king_pos P).add_sub net from_piece from_sq
          to_piece to_sq).curr view i =
        (s1.reset_nnue net get_king_pos P').curr view i) ∧
    (∀ from_piece from_sq to_piece to_sq captured captured_sq : Nat,
      from_sq < 64 → to_sq < 64 → captured_sq < 64 →
      from_sq ≠ to_sq → captured_sq ≠ from_sq →
      P.board from_sq = from_piece → from_piece ≠ Pieces.Blank →
      P.board captured_sq = captured → captured ≠ Pieces.Blank →
      (to_sq = captured_sq ∨ P.board to_sq = Pieces.Blank) →
      to_piece ≠ Pieces.Blank →
      (∀ sq, P'.board sq = if sq = to_sq then to_piece
        else if sq = from_sq ∨ sq = captured_sq then Pieces.Blank else P.board sq) →
      ∀ view ≤ 1, ∀ i < 768,
        ((s0.reset_nnue net get_king_pos P).add_sub_sub net from_piece from_sq
          to_piece to_sq captured captured_sq).curr view i =
        (s1.reset_nnue net get_king_pos P').curr view i) ∧
    (∀ piece1 from1 to1 piece2 from2 to2 : Nat,
      from1 < 64 → to1 < 64 → from2 < 64 → to2 < 64 →
      from1 ≠ from2 → to1 ≠ to2 →
      P.board from1 = piece1 → piece1 ≠ Pieces.Blank →
      P.board from2 = piece2 → piece2 ≠ Pieces.Blank →
      P.board to1 = Pieces.Blank → P.board to2 = Pieces.Blank →
      (∀ sq, P'.board sq = if sq = to1 then piece1 else if sq = to2 then piece2
        else if sq = from1 ∨ sq = from2 then Pieces.Blank else P.board sq) →
      ∀ view ≤ 1, ∀ i < 768,
        ((s0.reset_nnue net get_king_pos P).add_add_sub_sub net piece1 from1 to1
          piece2 from2 to2).curr view i =
        (s1.reset_nnue net get_king_pos P').curr view i) := by
  refine ⟨?_, ?_, ?_⟩
  · intro from_piece from_sq to_piece to_sq hf ht hne hfp hfn htb htp hb' view hv i hi
    exact add_sub_eq_reset net get_king_pos s0 s1 P P' from_piece from_sq to_piece to_sq
      hk hf ht hne hfp hfn htb htp hb' view i hv hi
  · intro from_piece from_sq to_piece to_sq captured captured_sq hf ht hc hne hcf hfp hfn
      hcp hcn hto htp hb' view hv i hi
    exact add_sub_sub_eq_reset net get_king_pos s0 s1 P P' from_piece from_sq to_piece
      to_sq captured captured_sq hk hf ht hc hne hcf hfp hfn hcp hcn hto htp hb'
      view i hv hi
  · intro piece1 from1 to1 piece2 from2 to2 hf1 ht1 hf2 ht2 hff htt hp1 hn1 hp2 hn2
      hb1 hb2 hb' view hv i hi
    exact add_add_sub_sub_eq_reset net get_king_pos s0 s1 P P' piece1 from1 to1 piece2
      from2 to2 hk hf1 ht1 hf2 ht2 hff htt hp1 hn1 hp2 hn2 hb1 hb2 hb' view i hv hi

/-- The amended C1 at the pawn move e2-e4 with kings on e1 and e8: the king
squares are unchanged, and entry 0 of White's view after `add_sub` is the one
`reset_nnue` computes for the position after the move. -/
theorem push_eq_reset_of_king_half_witness :
    kingposOf pawnE4 0 &&& 4 = kingposOf pawnE2 0 &&& 4 ∧
    kingposOf pawnE4 1 &&& 4 = kingposOf pawnE2 1 &&& 4 ∧
    ((zeroState.reset_nnue netKingD1 kingposOf pawnE2).add_sub netKingD1
        Pieces.WPawn 12 Pieces.WPawn 28).curr 0 0 =
      (zeroState.reset_nnue netKingD1 kingposOf pawnE4).curr 0 0 :=
  ⟨by decide, by decide,
   (push_eq_reset_of_king_half netKingD1 kingposOf zeroState zeroState pawnE2 pawnE4
      (by decide)).1 Pieces.WPawn 12 Pieces.WPawn 28 (by decide) (by decide) (by decide)
      (by decide) (by decide) (by decide) (by decide) (fun _ => rfl) 0 (by decide) 0
      (by decide)⟩

/-! ## C2: push then pop -/

/-- C2: for each of the three pushes, with any arguments and with the cursor
below the last stack slot, a push followed by `pop` leaves the cursor where it
was, leaves the accumulator at the cursor unchanged, and leaves every stack
entry other than the one at `cursor + 1` (so every entry at or below the cursor)
unchanged; the king squares are untouched as well. -/
theorem push_pop_restores (net : NNUE_Params) (s : NNUE_State) (MaxSearchDepth : Nat)
    (hcap : s.m_curr + 1 < MaxSearchDepth) (a b c d e f : Nat) :
    ∀ t ∈ [(s.add_sub net a b c d).pop, (s.add_sub_sub net a b c d e f).pop,
        (s.add_add_sub_sub net a b c d e f).pop],
      t.m_curr = s.m_curr ∧ t.m_curr < MaxSearchDepth ∧ t.curr = s.curr ∧
      (∀ j, j ≠ s.m_curr + 1 → t.m_accumulator_stack j = s.m_accumulator_stack j) ∧
      (∀ j ≤ s.m_curr, t.m_accumulator_stack j = s.m_accumulator_stack j) ∧
      t.kings_pos = s.kings_pos := by
  have key : ∀ t : NNUE_State, t.m_curr = s.m_curr → t.kings_pos = s.kings_pos →
      (∀ j, j ≠ s.m_curr + 1 → t.m_accumulator_stack j = s.m_accumulator_stack j) →
      t.m_curr = s.m_curr ∧ t.m_curr < MaxSearchDepth ∧ t.curr = s.curr ∧
      (∀ j, j ≠ s.m_curr + 1 → t.m_accumulator_stack j = s.m_accumulator_stack j) ∧
      (∀ j ≤ s.m_curr, t.m_accumulator_stack j = s.m_accumulator_stack j) ∧
      t.kings_pos = s.kings_pos := by
    intro t h1 h2 h3
    refine ⟨h1, by omega, ?_, h3, fun j hj => h3 j (by omega), h2⟩
    unfold NNUE_State.curr
    rw [h1]
    exact h3 _ (by omega)
  intro t ht
  simp only [List.mem_cons, List.mem_singleton, List.not_mem_nil, or_false] at ht
  rcases ht with rfl | rfl | rfl
  · apply key
    · simp [NNUE_State.pop, NNUE_State.add_sub]
    · rfl
    · intro j hj
      simp [NNUE_State.pop, NNUE_State.add_sub, setSlot, hj]
  · apply key
    · simp [NNUE_State.pop, NNUE_State.add_sub_sub]
    · rfl
    · intro j hj
      simp [NNUE_State.pop, NNUE_State.add_sub_sub, setSlot, hj]
  · apply key
    · simp [NNUE_State.pop, NNUE_State.add_add_sub_sub]
    · rfl
    · intro j hj
      simp [NNUE_State.pop, NNUE_State.add_add_sub_sub, setSlot, hj]

/-- C2 at the zeroed state with a stack of 128 slots and the move e2-e4. -/
theorem push_pop_restores_witness :
    (zeroState.add_sub netKingD1 2 12 2 28).pop.m_curr = zeroState.m_curr ∧
    (zeroState.add_sub netKingD1 2 12 2 28).pop.curr = zeroState.curr :=
  have h := push_pop_restores netKingD1 zeroState 128 (by decide) 2 12 2 28 0 0
    (zeroState.add_sub netKingD1 2 12 2 28).pop (by simp)
  ⟨h.1, h.2.2.1⟩

/-! ## C3: the colour-and-square mirror -/

theorem xor56_and4 (k : Nat) : (k ^^^ 56) &&& 4 = k &&& 4 := by
  apply Nat.eq_of_testBit_eq
  intro i
  simp only [Nat.testBit_and, Nat.testBit_xor]
  by_cases h : i = 2
  · subst h
    have : Nat.testBit 56 2 = false := by decide
    simp [this]
  · have : (4 : Nat).testBit i = false := by
      rw [show (4 : Nat) = 2 ^ 2 from rfl, Nat.testBit_two_pow]
      simp
      omega
    simp [this]

theorem mirror_square_facts : ∀ v < 2, ∀ sq < 64,
    ((sq ^^^ 56) ^^^ 7) ^^^ (56 * (v ^^^ 1)) = (sq ^^^ 7) ^^^ (56 * v) ∧
    (sq ^^^ 56) ^^^ (56 * (v ^^^ 1)) = sq ^^^ (56 * v) ∧
    sq ^^^ 56 < 64 ∧ (sq ^^^ 56) ^^^ 56 = sq := by
  decide

theorem mirror_piece_facts : ∀ v < 2, ∀ p < 14, 2 ≤ p →
    ((p ^^^ 1) / 2 = p / 2 ∧ p ^^^ 1 ≠ 0 ∧
      ((if v ^^^ 1 ≠ (p ^^^ 1) &&& 1 then (1 : Int) else 0) =
        if v ≠ p &&& 1 then 1 else 0)) := by
  decide

/-- The feature of a piece is the feature of the mirrored piece seen from the
other view with the mirrored king square. -/
theorem feature_index_mirror (view kingSq piece sq : Nat) (hv : view ≤ 1)
    (hp : 2 ≤ piece ∧ piece ≤ 13) (hsq : sq < 64) :
    feature_index (view ^^^ 1) (kingSq ^^^ 56) (piece ^^^ 1) (sq ^^^ 56) =
      feature_index view kingSq piece sq := by
  obtain ⟨s1, s2, -, -⟩ := mirror_square_facts view (by omega) sq hsq
  obtain ⟨p1, -, p3⟩ := mirror_piece_facts view (by omega) piece (by omega) hp.1
  simp only [feature_index, xor56_and4, p1, p3]
  by_cases hk : kingSq &&& 4 ≠ 0
  · rw [if_pos hk, if_pos hk, s1]
  · rw [if_neg hk, if_neg hk, s2]

theorem cellWeight_mirror (net : NNUE_Params) (view kingSq : Nat) (b b' : Nat → Nat)
    (i sq : Nat) (hv : view ≤ 1) (hsq : sq < 64)
    (hvalid : ∀ sq < 64, b sq = Pieces.Blank ∨ (2 ≤ b sq ∧ b sq ≤ 13))
    (hboard : ∀ sq < 64, b' (sq ^^^ 56) =
      if b sq = Pieces.Blank then Pieces.Blank else b sq ^^^ 1) :
    cellWeight net (view ^^^ 1) (kingSq ^^^ 56) b' i (sq ^^^ 56) =
      cellWeight net view kingSq b i sq := by
  unfold cellWeight
  rw [hboard sq hsq]
  rcases hvalid sq hsq with h0 | hp
  · simp [h0]
  · have hne : b sq ≠ Pieces.Blank := by
      unfold Pieces.Blank
      omega
    have hne' : b sq ^^^ 1 ≠ Pieces.Blank :=
      (mirror_piece_facts 0 (by omega) (b sq) (by omega) hp.1).2.1
    rw [if_neg hne, if_pos hne', if_pos hne, feature_index_mirror view kingSq (b sq) sq hv hp hsq]

theorem scratchSum_mirror (net : NNUE_Params) (view kingSq : Nat) (b b' : Nat → Nat)
    (i : Nat) (hv : view ≤ 1)
    (hvalid : ∀ sq < 64, b sq = Pieces.Blank ∨ (2 ≤ b sq ∧ b sq ≤ 13))
    (hboard : ∀ sq < 64, b' (sq ^^^ 56) =
      if b sq = Pieces.Blank then Pieces.Blank else b sq ^^^ 1) :
    scratchSum net (view ^^^ 1) (kingSq ^^^ 56) b' i = scratchSum net view kingSq b i := by
  unfold scratchSum
  symm
  refine Finset.sum_nbij' (fun sq => sq ^^^ 56) (fun sq => sq ^^^ 56) ?_ ?_ ?_ ?_ ?_
  · intro sq hsq
    rw [Finset.mem_range] at hsq ⊢
    exact (mirror_square_facts 0 (by omega) sq hsq).2.2.1
  · intro sq hsq
    rw [Finset.mem_range] at hsq ⊢
    exact (mirror_square_facts 0 (by omega) sq hsq).2.2.1
  · intro sq hsq
    rw [Finset.mem_range] at hsq
    exact (mirror_square_facts 0 (by omega) sq hsq).2.2.2
  · intro sq hsq
    rw [Finset.mem_range] at hsq
    exact (mirror_square_facts 0 (by omega) sq hsq).2.2.2
  · intro sq hsq
    rw [Finset.mem_range] at hsq
    exact (cellWeight_mirror net view kingSq b b' i sq hv hsq hvalid hboard).symm

theorem blank_mirror (b b' : Nat → Nat)
    (hvalid : ∀ sq < 64, b sq = Pieces.Blank ∨ (2 ≤ b sq ∧ b sq ≤ 13))
    (hboard : ∀ sq < 64, b' (sq ^^^ 56) =
      if b sq = Pieces.Blank then Pieces.Blank else b sq ^^^ 1) :
    (∀ sq < 64, b' sq = Pieces.Blank) ↔ (∀ sq < 64, b sq = Pieces.Blank) := by
  constructor
  · intro h sq hsq
    have h1 := h (sq ^^^ 56) (mirror_square_facts 0 (by omega) sq hsq).2.2.1
    rw [hboard sq hsq] at h1
    rcases hvalid sq hsq with h0 | hp
    · exact h0
    · have hne : b sq ≠ Pieces.Blank := by
        unfold Pieces.Blank
        omega
      rw [if_neg hne] at h1
      exact absurd h1 (mirror_piece_facts 0 (by omega) (b sq) (by omega) hp.1).2.1
  · intro h sq hsq
    have hm := mirror_square_facts 0 (by omega) sq hsq
    have h1 := hboard (sq ^^^ 56) hm.2.2.1
    rw [hm.2.2.2, h _ hm.2.2.1] at h1
    simpa using h1

/-- The accumulator of a view after `reset_nnue` on a position is the
accumulator of the other view after `reset_nnue` on the mirrored position. -/
theorem reset_nnue_mirror (net : NNUE_Params) (get_king_pos : Position → Nat → Nat)
    (s0 s1 : NNUE_State) (P P' : Position)
    (hvalid : ∀ sq < 64, P.board sq = Pieces.Blank ∨ (2 ≤ P.board sq ∧ P.board sq ≤ 13))
    (hboard : ∀ sq < 64, P'.board (sq ^^^ 56) =
      if P.board sq = Pieces.Blank then Pieces.Blank else P.board sq ^^^ 1)
    (hking : ∀ view ≤ 1, get_king_pos P' (view ^^^ 1) = get_king_pos P view ^^^ 56)
    (view i : Nat) (hv : view ≤ 1) (hi : i < 768) :
    (s1.reset_nnue net get_king_pos P').curr (view ^^^ 1) i =
      (s0.reset_nnue net get_king_pos P).curr view i := by
  have hv' : view ^^^ 1 ≤ 1 := by
    have : view = 0 ∨ view = 1 := by omega
    rcases this with rfl | rfl <;> decide
  rw [reset_nnue_curr net get_king_pos s1 P' (view ^^^ 1) i hv' hi,
    reset_nnue_curr net get_king_pos s0 P view i hv hi, hking view hv,
    scratchSum_mirror net view _ P.board P'.board i hv hvalid hboard]
  by_cases hall : ∀ sq < 64, P.board sq = Pieces.Blank
  · rw [if_pos hall, if_pos ((blank_mirror P.board P'.board hvalid hboard).mpr hall)]
  · rw [if_neg hall, if_neg (fun h => hall ((blank_mirror P.board P'.board hvalid hboard).mp h))]

theorem screlu_flatten_loop_congr (us them us' them' weights : Nat → Int) (n : Nat)
    (h1 : ∀ i < n, us i = us' i) (h2 : ∀ i < n, them i = them' i) :
    screlu_flatten_loop us them weights n = screlu_flatten_loop us' them' weights n := by
  induction n with
  | zero => rfl
  | succ n ih =>
    simp only [screlu_flatten_loop]
    rw [ih (fun i hi => h1 i (by omega)) (fun i hi => h2 i (by omega)),
      h1 n (by omega), h2 n (by omega)]

/-- The score `evaluate` returns depends only on the 768 entries of the two
views of the accumulator at the cursor. -/
theorem evaluate_congr (net : NNUE_Params) (s t : NNUE_State) (c d : Nat)
    (h1 : ∀ i < 768, s.curr c i = t.curr d i)
    (h2 : ∀ i < 768, s.curr (c ^^^ 1) i = t.curr (d ^^^ 1) i) :
    s.evaluate net c = t.evaluate net d := by
  unfold NNUE_State.evaluate screlu_flatten
  rw [screlu_flatten_loop_congr (s.curr c) (s.curr (c ^^^ 1)) (t.curr d) (t.curr (d ^^^ 1))
    net.output_v LAYER1_SIZE h1 h2]

/-- C3: for every position `P` whose cells hold piece codes (blank or `2..13`)
and its colour-and-square-mirrored counterpart `P'` (the cell at `s ^ 56` holds
the piece of `s` with the colour bit toggled, the king square of colour `c ^ 1`
is the king square of `c` xor 56) and every colour `c`, `reset_nnue(P)` followed
by `evaluate(c)` returns the same score as `reset_nnue(P')` followed by
`evaluate(c ^ 1)`. -/
theorem evaluate_mirror (net : NNUE_Params) (get_king_pos : Position → Nat → Nat)
    (s0 s1 : NNUE_State) (P P' : Position) (c : Nat) (hc : c ≤ 1)
    (hvalid : ∀ sq < 64, P.board sq = Pieces.Blank ∨ (2 ≤ P.board sq ∧ P.board sq ≤ 13))
    (hboard : ∀ sq < 64, P'.board (sq ^^^ 56) =
      if P.board sq = Pieces.Blank then Pieces.Blank else P.board sq ^^^ 1)
    (hking : ∀ view ≤ 1, get_king_pos P' (view ^^^ 1) = get_king_pos P view ^^^ 56) :
    (s0.reset_nnue net get_king_pos P).evaluate net c =
      (s1.reset_nnue net get_king_pos P').evaluate net (c ^^^ 1) := by
  have hc' : c ^^^ 1 ≤ 1 := by
    have : c = 0 ∨ c = 1 := by omega
    rcases this with rfl | rfl <;> decide
  have hcc : (c ^^^ 1) ^^^ 1 = c := by
    have : c = 0 ∨ c = 1 := by omega
    rcases this with rfl | rfl <;> decide
  apply evaluate_congr
  · intro i hi
    exact (reset_nnue_mirror net get_king_pos s0 s1 P P' hvalid hboard hking c i hc hi).symm
  · intro i hi
    have h := reset_nnue_mirror net get_king_pos s0 s1 P P' hvalid hboard hking
      (c ^^^ 1) i hc' hi
    exact h.symm

/-- C3 at the position with kings on e1, e8 and a white pawn on e2, White's
view against Black's view of the mirror image. -/
theorem evaluate_mirror_witness :
    (zeroState.reset_nnue netKingD1 kingposOf pawnE2).evaluate netKingD1 0 =
      (zeroState.reset_nnue netKingD1 kingposOf pawnE2Mirror).evaluate netKingD1 (0 ^^^ 1) :=
  evaluate_mirror netKingD1 kingposOf zeroState zeroState pawnE2 pawnE2Mirror 0
    (by decide) (by decide) (by decide) (by decide)

/-! ## C4: the forward pass -/

theorem wrap32_of_InInt32 (x : Int) (h : InInt32 x) : wrap32 x = x := by
  unfold InInt32 at h
  unfold wrap32
  omega

theorem screlu_flatten_loop_exact (net : NNUE_Params) (acc : Accumulator) (c : Nat)
    (h : NoOverflow32 net acc c) (n : Nat) (hn : n ≤ 768) :
    screlu_flatten_loop (acc c) (acc (c ^^^ 1)) net.output_v n = evalSum net acc c n := by
  induction n with
  | zero => simp [screlu_flatten_loop, evalSum]
  | succ n ih =>
    obtain ⟨h1, h2, h3, h4⟩ := h.1 n (by omega)
    have e1 : screlu (acc c n) * net.output_v n = evalTermUs net acc c n := by
      simp [screlu, evalTermUs, SCRELU_MIN, SCRELU_MAX, pow_two]
    have e2 : screlu (acc (c ^^^ 1) n) * net.output_v (LAYER1_SIZE + n) =
        evalTermThem net acc c n := by
      simp [screlu, evalTermThem, SCRELU_MIN, SCRELU_MAX, LAYER1_SIZE, pow_two]
    have e3 : evalSum net acc c (n + 1) =
        evalSum net acc c n + evalTermUs net acc c n + evalTermThem net acc c n := by
      simp [evalSum, Finset.sum_range_succ, add_assoc]
    simp only [screlu_flatten_loop]
    rw [ih (by omega), e1, e2, wrap32_of_InInt32 _ h1, wrap32_of_InInt32 _ h2,
      wrap32_of_InInt32 _ h3, ← e3, wrap32_of_InInt32 _ h4]

/-- C4: for every accumulator and colour `c`, as long as no 32-bit
intermediate overflows, `evaluate(c)` equals
`((S / 255) + output_bias) * 400 / 16320` with truncating division, where `S`
is the sum over `i` in `0..767` of
`clamp(acc[c][i], 0, 255)^2 * output_v[i] +
 clamp(acc[c ^ 1][i], 0, 255)^2 * output_v[768 + i]`. -/
theorem evaluate_eq_formula (net : NNUE_Params) (s : NNUE_State) (c : Nat)
    (h : NoOverflow32 net s.curr c) :
    s.evaluate net c = evaluate_formula net s.curr c := by
  unfold NNUE_State.evaluate screlu_flatten evaluate_formula
  simp only [LAYER1_SIZE]
  rw [screlu_flatten_loop_exact net s.curr c h 768 (by omega)]
  simp only [QA, QAB, QB, SCALE]
  rw [wrap32_of_InInt32 _ h.2.1, wrap32_of_InInt32 _ h.2.2]
  rfl

theorem evalSum_stateOut (n : Nat) :
    evalSum netOut stateOut.curr 0 n = if n = 0 then 0 else 4155200 := by
  induction n with
  | zero => rfl
  | succ n ih =>
    rw [evalSum, Finset.sum_range_succ, ← evalSum, ih]
    by_cases h : n = 0
    · subst h; decide
    · simp [evalTermUs, evalTermThem, netOut, stateOut, NNUE_State.curr, h, clamp]

theorem noOverflow32_stateOut : NoOverflow32 netOut stateOut.curr 0 := by
  refine ⟨fun n _ => ?_, ?_, ?_⟩
  · rw [evalSum_stateOut, evalSum_stateOut]
    by_cases h : n = 0
    · subst h; decide
    · simp [evalTermUs, evalTermThem, netOut, stateOut, NNUE_State.curr, h, clamp, InInt32]
  · rw [evalSum_stateOut]; decide
  · rw [evalSum_stateOut]; decide

/-- C4 at an accumulator holding 300 and 10 in entry 0 of the two views, with
output weights 64 and -64 there and bias 5: the score is 399. -/
theorem evaluate_eq_formula_witness :
    NoOverflow32 netOut stateOut.curr 0 ∧ stateOut.evaluate netOut 0 = 399 :=
  ⟨noOverflow32_stateOut,
   (evaluate_eq_formula netOut stateOut 0 noOverflow32_stateOut).trans
     (by unfold evaluate_formula; rw [evalSum_stateOut]; decide)⟩

/-! ## C9, C10: draw detection -/

theorem is_draw_scan_iff (game_hist : Int → GameHistory) (hash : Nat) (end_indx : Int) :
    ∀ (rounds : Nat) (i : Int), i - end_indx < 2 * rounds →
      (is_draw_scan game_hist hash end_indx rounds i = true ↔
        ∃ k : Nat, end_indx ≤ i - 2 * k ∧ hash = (game_hist (i - 2 * k)).position_key) := by
  intro rounds
  induction rounds with
  | zero =>
    intro i hi
    simp only [is_draw_scan, Bool.false_eq_true, false_iff, not_exists, not_and]
    intro k hk
    omega
  | succ rounds ih =>
    intro i hi
    unfold is_draw_scan
    by_cases hge : i ≥ end_indx
    · rw [if_pos hge]
      by_cases hh : hash = (game_hist i).position_key
      · rw [if_pos hh]
        simp only [true_iff]
        exact ⟨0, by simpa using hge, by simpa using hh⟩
      · rw [if_neg hh, ih (i - 2) (by push_cast at hi; omega)]
        constructor
        · rintro ⟨k, hk1, hk2⟩
          refine ⟨k + 1, ?_, ?_⟩
          · push_cast; omega
          · have e : i - 2 * ((k + 1 : Nat) : Int) = i - 2 - 2 * (k : Int) := by
              push_cast; ring
            rw [e]; exact hk2
        · rintro ⟨k, hk1, hk2⟩
          cases k with
          | zero => exact absurd (by simpa using hk2) hh
          | succ k =>
            have e : i - 2 * ((k + 1 : Nat) : Int) = i - 2 - 2 * (k : Int) := by
              push_cast; ring
            rw [e] at hk1 hk2
            exact ⟨k, hk1, hk2⟩
    · rw [if_neg hge]
      simp only [Bool.false_eq_true, false_iff, not_exists, not_and]
      intro k hk
      omega

/-- When `is_draw` returns true. -/
theorem is_draw_eq_true_iff (position : Position) (thread_info : ThreadInfo) (hash : Nat) :
    is_draw position thread_info hash = true ↔
      (position.halfmoves ≥ 100 ∨ material_draw position = true ∨
        ∃ k : Nat,
          max (thread_info.game_ply - (position.halfmoves : Int)) 0 ≤
            thread_info.game_ply - 4 - 2 * (k : Int) ∧
          hash = (thread_info.game_hist (thread_info.game_ply - 4 - 2 * (k : Int))).position_key) := by
  unfold is_draw
  by_cases h100 : position.halfmoves ≥ 100
  · have : (position.halfmoves : Int) ≥ 100 := by exact_mod_cast h100
    simp [this, h100]
  · have h100' : ¬ (position.halfmoves : Int) ≥ 100 := by
      intro h; exact h100 (by exact_mod_cast h)
    by_cases hm : material_draw position = true
    · simp [hm]
    · simp only [h100', if_false, hm, h100, false_or, Bool.false_eq_true]
      apply is_draw_scan_iff
      omega

/-- C9: `is_draw(position, thread_info, hash)` returns true exactly when
`halfmoves >= 100`, or `material_draw(position)` holds, or `hash` equals
`game_hist[i].position_key` for some index `i` among `game_ply - 4`,
`game_ply - 6`, ... with `i >= max(game_ply - halfmoves, 0)`. -/
theorem is_draw_iff (position : Position) (thread_info : ThreadInfo) (hash : Nat) :
    is_draw position thread_info hash = true ↔
      (position.halfmoves ≥ 100 ∨ material_draw position = true ∨
        ∃ k : Nat,
          max (thread_info.game_ply - (position.halfmoves : Int)) 0 ≤
            thread_info.game_ply - 4 - 2 * (k : Int) ∧
          hash = (thread_info.game_hist (thread_info.game_ply - 4 - 2 * (k : Int))).position_key) :=
  is_draw_eq_true_iff position thread_info hash

theorem material_draw_of_zero (position : Position)
    (h : ∀ i < 10, position.material_count i = 0) : material_draw position = true := by
  simp [material_draw, h 0, h 1, h 2, h 3, h 4, h 5, h 6, h 7, h 8, h 9]

theorem material_draw_of_pawn (position : Position)
    (h : position.material_count 0 ≠ 0 ∨ position.material_count 1 ≠ 0) :
    material_draw position = false := by
  rcases h with h | h <;> simp [material_draw, h]

/-- C10: `is_draw` returns true for every position whose ten material counts
are all zero, whatever the half-move clock, hash and history; and it returns
false for every position whose only non-king piece is a single pawn of either
colour, provided `halfmoves < 100` and the hash equals no history entry in the
scanned repetition window. -/
theorem is_draw_bare_kings_single_pawn (position : Position) (thread_info : ThreadInfo)
    (hash : Nat) :
    ((∀ i < 10, position.material_count i = 0) →
      is_draw position thread_info hash = true) ∧
    (((position.material_count 0 = 1 ∧ position.material_count 1 = 0) ∨
        (position.material_count 0 = 0 ∧ position.material_count 1 = 1)) →
      (∀ i < 10, 2 ≤ i → position.material_count i = 0) →
      position.halfmoves < 100 →
      (∀ k : Nat,
        max (thread_info.game_ply - (position.halfmoves : Int)) 0 ≤
          thread_info.game_ply - 4 - 2 * (k : Int) →
        hash ≠ (thread_info.game_hist (thread_info.game_ply - 4 - 2 * (k : Int))).position_key) →
      is_draw position thread_info hash = false) := by
  constructor
  · intro h
    rw [is_draw_eq_true_iff]
    exact Or.inr (Or.inl (material_draw_of_zero position h))
  · intro hp _ hh hrep
    rw [← Bool.not_eq_true, is_draw_eq_true_iff]
    rintro (h | h | ⟨k, hk1, hk2⟩)
    · omega
    · rw [material_draw_of_pawn position (by omega)] at h
      exact Bool.false_ne_true h
    · exact hrep k hk1 hk2

/-- C10 at bare kings with the clock at 250, and at a single white pawn after
ten quiet half-moves at game ply 12 with an empty history and hash 1. -/
theorem is_draw_bare_kings_single_pawn_witness :
    is_draw (materialPosition (fun _ => 0) 250) (threadAt 12) 1 = true ∧
    is_draw (materialPosition (fun i => if i = 0 then 1 else 0) 10) (threadAt 12) 1 = false :=
  ⟨(is_draw_bare_kings_single_pawn (materialPosition (fun _ => 0) 250) (threadAt 12) 1).1
      (by decide),
   (is_draw_bare_kings_single_pawn (materialPosition (fun i => if i = 0 then 1 else 0) 10)
      (threadAt 12) 1).2 (by decide) (by decide) (by decide)
      (fun k _ => by simp [threadAt])⟩

/-! ## C5: the table cutoff -/

theorem search_of_pos (E : Engine) (alpha beta depth : Int) (position : Position)
    (st : SearchState) (hdepth : 1 ≤ depth) :
    search E alpha beta depth position st =
      search_aux E ((depth - 1).toNat + 1) alpha beta position st := by
  unfold search
  congr 1
  omega

theorem search_child_eq (E : Engine) (depth : Int) :
    search_aux E (depth - 1).toNat = fun a b p s => search E a b (depth - 1) p s := rfl

theorem is_draw_counted (position : Position) (st : SearchState) (hash : Nat) :
    is_draw position (counted st).thread_info hash = is_draw position st.thread_info hash :=
  rfl

/-- One step of `search` at `depth >= 1`, with the early returns in the order
of the source. -/
theorem search_step (E : Engine) (alpha beta depth : Int) (position : Position)
    (st : SearchState) (hdepth : 1 ≤ depth) :
    search E alpha beta depth position st =
      if st.thread_info.search_ply ≠ 0 ∧
          is_draw position st.thread_info (E.calculate position) = true then
        (2 - (((counted st).thread_info.nodes &&& 3 : Nat) : Int), counted st)
      else if (st.TT (E.calculate position &&& E.TT_mask)).position_key =
            E.get_hash_upper_bits (E.calculate position) ∧
          st.thread_info.search_ply ≠ 0 ∧
          tt_cutoff E alpha beta depth (st.TT (E.calculate position &&& E.TT_mask))
            st.thread_info.search_ply then
        (probe_score E (st.TT (E.calculate position &&& E.TT_mask))
          st.thread_info.search_ply, counted st)
      else
        search_moves E (fun a b p s => search E a b (depth - 1) p s) alpha beta depth
          position (E.calculate position) (counted st) := by
  rw [search_of_pos E alpha beta depth position st hdepth, ← search_child_eq]
  have hd : (((depth - 1).toNat + 1 : Nat) : Int) = depth := by omega
  simp only [search_aux, hd]
  by_cases hroot : st.thread_info.search_ply = 0
  · simp [hroot, counted]
  · by_cases hdraw : is_draw position st.thread_info (E.calculate position) = true
    · have hdraw' : is_draw position
          { st.thread_info with nodes := st.thread_info.nodes + 1 }
          (E.calculate position) = true := hdraw
      simp [hroot, hdraw, hdraw', counted]
    · have hdraw' : ¬ is_draw position
          { st.thread_info with nodes := st.thread_info.nodes + 1 }
          (E.calculate position) = true := hdraw
      by_cases hkey : (st.TT (E.calculate position &&& E.TT_mask)).position_key =
          E.get_hash_upper_bits (E.calculate position)
      · by_cases hcut : tt_cutoff E alpha beta depth
            (st.TT (E.calculate position &&& E.TT_mask)) st.thread_info.search_ply
        · have hcut' := hcut
          unfold tt_cutoff at hcut'
          simp [hroot, hdraw, hdraw', hkey, hcut, hcut'.1, hcut'.2, counted]
        · unfold tt_cutoff at hcut
          by_cases hdp : (st.TT (E.calculate position &&& E.TT_mask)).depth ≥ depth
          · have hty := fun h => hcut ⟨hdp, h⟩
            simp [hroot, hdraw, hdraw', hkey, hdp, hty, tt_cutoff, counted]
          · simp [hroot, hdraw, hdraw', hkey, hdp, tt_cutoff, counted]
      · simp [hroot, hdraw, hdraw', hkey, counted]

theorem search_of_reaches (E : Engine) (alpha beta depth : Int) (position : Position)
    (st : SearchState) (h : reaches_moves E alpha beta depth position st) :
    search E alpha beta depth position st =
      search_moves E (fun a b p s => search E a b (depth - 1) p s) alpha beta depth
        position (E.calculate position) (counted st) := by
  rw [search_step E alpha beta depth position st h.1]
  rcases h.2 with hroot | ⟨hdraw, hkey | hcut⟩
  · simp [hroot]
  · simp [hdraw, hkey]
  · simp [hdraw, hcut]

theorem move_loop_all_rejected (E : Engine)
    (child : Int → Int → Position → SearchState → Int × SearchState) (beta : Int)
    (position : Position) (hash : Nat) (moves : List Move)
    (h : ∀ m ∈ moves, (E.make_move position m).2 = true) (ls : LoopState) :
    move_loop E child beta position hash moves ls = ls := by
  induction moves with
  | nil => rfl
  | cons m rest ih =>
    unfold move_loop
    simp only [h m (List.mem_cons_self m rest), if_true]
    exact ih (fun x hx => h x (List.mem_cons_of_mem m hx))

theorem search_moves_all_rejected (E : Engine)
    (child : Int → Int → Position → SearchState → Int × SearchState)
    (alpha beta depth : Int) (position : Position) (hash : Nat) (st : SearchState)
    (h : ∀ m ∈ E.movegen position, (E.make_move position m).2 = true) :
    search_moves E child alpha beta depth position hash st =
      (if E.attacks_square position (position.kingpos (colorIndex position.color))
          (colorIndex position.color ^^^ 1)
        then E.Mate + st.thread_info.search_ply else 0, st) := by
  unfold search_moves
  simp only [move_loop_all_rejected E child beta position hash _ h, if_true]

theorem colorIndex_king (color : Bool) :
    colorIndex color = (if color then 1 else 0) ∧
    colorIndex color ^^^ 1 = (if color then 0 else 1) := by
  cases color <;> exact ⟨rfl, rfl⟩

/-- C8: when a call reaches the move generation and none of the generated
moves is legal (`make_move` rejects every one, or the list is empty), `search`
returns `Mate + search_ply` if the king square of the side to move
(`kingpos[1]` with Black to move, `kingpos[0]` with White to move) is attacked
by the opponent (colour 0 with Black to move, colour 1 with White to move) and
0 otherwise, and changes nothing but the node counter (the table is not
written); and of two such calls on a position whose king is attacked, the one
at the smaller `search_ply` returns the strictly smaller score. -/
theorem search_no_legal_move (E : Engine) (alpha beta depth : Int) (position : Position)
    (st : SearchState) (hreach : reaches_moves E alpha beta depth position st)
    (hnone : ∀ m ∈ E.movegen position, (E.make_move position m).2 = true) :
    search E alpha beta depth position st =
      (if E.attacks_square position (position.kingpos (if position.color then 1 else 0))
          (if position.color then 0 else 1)
        then E.Mate + st.thread_info.search_ply else 0, counted st) ∧
    (search E alpha beta depth position st).2.TT = st.TT ∧
    ∀ st' : SearchState, reaches_moves E alpha beta depth position st' →
      E.attacks_square position (position.kingpos (if position.color then 1 else 0))
        (if position.color then 0 else 1) = true →
      st.thread_info.search_ply < st'.thread_info.search_ply →
      (search E alpha beta depth position st).1 <
        (search E alpha beta depth position st').1 := by
  have key : ∀ s : SearchState, reaches_moves E alpha beta depth position s →
      search E alpha beta depth position s =
        (if E.attacks_square position (position.kingpos (if position.color then 1 else 0))
            (if position.color then 0 else 1)
          then E.Mate + s.thread_info.search_ply else 0, counted s) := by
    intro s hs
    rw [search_of_reaches E alpha beta depth position s hs,
      search_moves_all_rejected E _ alpha beta depth position _ _ hnone,
      (colorIndex_king position.color).2, (colorIndex_king position.color).1]
    rfl
  refine ⟨key st hreach, ?_, ?_⟩
  · rw [key st hreach]
    rfl
  · intro st' hreach' hatt hlt
    rw [key st hreach, key st' hreach']
    simp only [hatt, if_true]
    omega

/-- C8 at an engine without moves in which only the square 60 is attacked, and
only by White, one ply below the root: with Black to move (king on 60) the score
is `Mate + 1`, with White to move (king on 4) it is 0. -/
theorem search_no_legal_move_witness :
    (search checkEngine (-100001) 100001 1 { toyPosition with color := true } toyState).1 =
      -99999 ∧
    (search checkEngine (-100001) 100001 1 toyPosition toyState).1 = 0 :=
  have h1 := (search_no_legal_move checkEngine (-100001) 100001 1
    { toyPosition with color := true } toyState
    ⟨by decide, Or.inr ⟨by decide, Or.inl (by decide)⟩⟩
    (fun m hm => by simp [checkEngine] at hm)).1
  have h2 := (search_no_legal_move checkEngine (-100001) 100001 1 toyPosition toyState
    ⟨by decide, Or.inr ⟨by decide, Or.inl (by decide)⟩⟩
    (fun m hm => by simp [checkEngine] at hm)).1
  ⟨by rw [h1]; decide, by rw [h2]; decide⟩

/-! ## C6: mate scores through the table -/

/-- C6 evaluated on the code: at the small engine, one ply below the root, a
search of depth 2 finds the mate score 99998 and stores exactly that value;
a second search of the same position at the same ply, with the table the first
one left, returns 99997. -/
theorem search_mate_score_not_recovered :
    (search toyEngine (-100001) 100001 2 toyPosition toyState).1 = 99998 ∧
    ((search toyEngine (-100001) 100001 2 toyPosition toyState).2.TT 1).score = 99998 ∧
    (search toyEngine (-100001) 100001 2 toyPosition
      { toyState with
        TT := (search toyEngine (-100001) 100001 2 toyPosition toyState).2.TT }).1 =
      99997 := by
  decide

/-! ## C7: classification and store -/

theorem move_loop_cons_rejected (E : Engine)
    (child : Int → Int → Position → SearchState → Int × SearchState) (beta : Int)
    (position : Position) (hash : Nat) (m : Move) (rest : List Move) (ls : LoopState)
    (h : (E.make_move position m).2 = true) :
    move_loop E child beta position hash (m :: rest) ls =
      move_loop E child beta position hash rest ls := by
  rw [move_loop]
  simp only [h, if_true]

theorem move_loop_cons_legal (E : Engine)
    (child : Int → Int → Position → SearchState → Int × SearchState) (beta : Int)
    (position : Position) (hash : Nat) (m : Move) (rest : List Move) (ls : LoopState)
    (h : (E.make_move position m).2 = false) :
    move_loop E child beta position hash (m :: rest) ls =
      if step_score E child beta position hash m ls > ls.best_score then
        if step_score E child beta position hash m ls ≥ beta then
          improved ls m (step_score E child beta position hash m ls)
            (step_state E child beta position hash m ls)
        else
          move_loop E child beta position hash rest
            (improved ls m (step_score E child beta position hash m ls)
              (step_state E child beta position hash m ls))
      else
        move_loop E child beta position hash rest
          { ls with
            st := step_state E child beta position hash m ls
            searched := ls.searched ++ [(m, step_score E child beta position hash m ls)] } := by
  rw [move_loop]
  simp only [h, Bool.false_eq_true, if_false]
  rfl

/-- The trace only grows along the loop. -/
theorem move_loop_searched_prefix (E : Engine)
    (child : Int → Int → Position → SearchState → Int × SearchState) (beta : Int)
    (position : Position) (hash : Nat) (moves : List Move) :
    ∀ ls : LoopState, ∃ t,
      (move_loop E child beta position hash moves ls).searched = ls.searched ++ t := by
  induction moves with
  | nil => intro ls; exact ⟨[], by simp [move_loop]⟩
  | cons m rest ih =>
    intro ls
    by_cases h : (E.make_move position m).2 = true
    · rw [move_loop_cons_rejected E child beta position hash m rest ls h]
      exact ih ls
    · rw [move_loop_cons_legal E child beta position hash m rest ls (by simpa using h)]
      split
      · split
        · exact ⟨_, rfl⟩
        · obtain ⟨t, ht⟩ := ih (improved ls m (step_score E child beta position hash m ls)
            (step_state E child beta position hash m ls))
          exact ⟨(m, step_score E child beta position hash m ls) :: t, by
            rw [ht]; simp [improved]⟩
      · obtain ⟨t, ht⟩ := ih { ls with
            st := step_state E child beta position hash m ls
            searched := ls.searched ++ [(m, step_score E child beta position hash m ls)] }
        exact ⟨(m, step_score E child beta position hash m ls) :: t, by rw [ht]; simp⟩

theorem BestOf.le_best {ls : LoopState} (h : BestOf ls) :
    ∀ x ∈ ls.searched, x.2 ≤ ls.best_score := by
  obtain ⟨pre, post, hs, hpre, hpost⟩ := h
  intro x hx
  rw [hs] at hx
  simp only [List.mem_append, List.mem_cons] at hx
  rcases hx with hx | rfl | hx
  · exact le_of_lt (hpre x hx)
  · exact le_refl _
  · exact hpost x hx

theorem BestOf.mem {ls : LoopState} (h : BestOf ls) :
    (ls.best_move, ls.best_score) ∈ ls.searched := by
  obtain ⟨pre, post, hs, -, -⟩ := h
  rw [hs]
  simp

/-- Every searched score so far is below a score that beats `best_score`. -/
theorem LoopInv.lt_of_improves {E : Engine} {alpha0 beta : Int} {ls : LoopState}
    (hinv : LoopInv E alpha0 beta ls) {score : Int} (hgt : score > ls.best_score) :
    ∀ x ∈ ls.searched, x.2 < score := by
  intro x hx
  rcases hinv.best with ⟨hnil, -, -⟩ | hb
  · rw [hnil] at hx
    exact absurd hx (List.not_mem_nil x)
  · exact lt_of_le_of_lt (hb.le_best x hx) hgt

/-- The flag `raised_alpha` after a move that beats `best_score`. -/
theorem LoopInv.raised_improved {E : Engine} {alpha0 beta : Int} {ls : LoopState}
    (hinv : LoopInv E alpha0 beta ls) (m : Move) (score : Int) (st : SearchState) :
    (Patricia.improved ls m score st).raised_alpha = true ↔
      ∃ x ∈ (Patricia.improved ls m score st).searched, alpha0 < x.2 := by
  simp only [Patricia.improved, List.mem_append, List.mem_singleton]
  constructor
  · intro h
    by_cases hs : score > ls.alpha
    · exact ⟨(m, score), Or.inr rfl, lt_of_le_of_lt hinv.alpha_ge hs⟩
    · rw [if_neg hs] at h
      obtain ⟨x, hx, hx2⟩ := hinv.raised.mp h
      exact ⟨x, Or.inl hx, hx2⟩
  · rintro ⟨x, hx | rfl, hx2⟩
    · have := hinv.raised.mpr ⟨x, hx, hx2⟩
      split <;> simp [this]
    · simp only at hx2
      by_cases hs : score > ls.alpha
      · simp only [hs, if_true]
      · rw [if_neg hs]
        rcases hinv.alpha_eq with he | ⟨y, hy, hy2⟩
        · omega
        · exact hinv.raised.mpr ⟨y, hy, by omega⟩

theorem LoopInv.step_improved {E : Engine} {alpha0 beta : Int} {ls : LoopState}
    (hinv : LoopInv E alpha0 beta ls) (m : Move) (score : Int) (st : SearchState)
    (hgt : score > ls.best_score) (hlt : score < beta) (hab : E.ScoreNone < score) :
    LoopInv E alpha0 beta (Patricia.improved ls m score st) where
  below := by
    intro x hx
    simp only [Patricia.improved, List.mem_append, List.mem_singleton] at hx
    rcases hx with hx | rfl
    · exact hinv.below x hx
    · exact hlt
  above := by
    intro x hx
    simp only [Patricia.improved, List.mem_append, List.mem_singleton] at hx
    rcases hx with hx | rfl
    · exact hinv.above x hx
    · exact hab
  best := Or.inr ⟨ls.searched, [], rfl, hinv.lt_of_improves hgt, by simp⟩
  raised := hinv.raised_improved m score st
  alpha_ge := by
    have := hinv.alpha_ge
    simp only [Patricia.improved]
    split <;> omega
  alpha_ub := by
    intro x hx
    simp only [Patricia.improved, List.mem_append, List.mem_singleton] at hx ⊢
    rcases hx with hx | rfl
    · have := hinv.alpha_ub x hx
      split <;> omega
    · split <;> omega
  alpha_eq := by
    simp only [Patricia.improved, List.mem_append, List.mem_singleton]
    by_cases hs : score > ls.alpha
    · simp only [hs, if_true]
      exact Or.inr ⟨(m, score), Or.inr rfl, rfl⟩
    · rw [if_neg hs]
      rcases hinv.alpha_eq with he | ⟨y, hy, hy2⟩
      · exact Or.inl he
      · exact Or.inr ⟨y, Or.inl hy, hy2⟩

theorem LoopInv.cutoff {E : Engine} {alpha0 beta : Int} {ls : LoopState}
    (hinv : LoopInv E alpha0 beta ls) (m : Move) (score : Int) (st : SearchState)
    (hgt : score > ls.best_score) (hge : score ≥ beta) :
    LoopPost E alpha0 beta (Patricia.improved ls m score st) where
  stop := Or.inr ⟨ls.searched, rfl, hge, hinv.below⟩
  best := Or.inr ⟨ls.searched, [], rfl, hinv.lt_of_improves hgt, by simp⟩
  raised := hinv.raised_improved m score st

theorem LoopInv.not_improved {E : Engine} {alpha0 beta : Int} {ls : LoopState}
    (hinv : LoopInv E alpha0 beta ls) (m : Move) (score : Int) (st : SearchState)
    (hle : ¬ score > ls.best_score) (hab : E.ScoreNone < score) :
    LoopInv E alpha0 beta { ls with st := st, searched := ls.searched ++ [(m, score)] } := by
  have hb : BestOf ls := by
    rcases hinv.best with ⟨-, hn, -⟩ | hb
    · omega
    · exact hb
  have hbest_lt : ls.best_score < beta := hinv.below _ hb.mem
  have hbest_le : ls.best_score ≤ ls.alpha := hinv.alpha_ub _ hb.mem
  exact
    { below := by
        intro x hx
        simp only [List.mem_append, List.mem_singleton] at hx
        rcases hx with hx | rfl
        · exact hinv.below x hx
        · show score < beta
          omega
      above := by
        intro x hx
        simp only [List.mem_append, List.mem_singleton] at hx
        rcases hx with hx | rfl
        · exact hinv.above x hx
        · exact hab
      best := by
        obtain ⟨pre, post, hs, hpre, hpost⟩ := hb
        refine Or.inr ⟨pre, post ++ [(m, score)], ?_, hpre, ?_⟩
        · show ls.searched ++ [(m, score)] = _
          rw [hs]
          simp
        · intro x hx
          simp only [List.mem_append, List.mem_singleton] at hx
          rcases hx with hx | rfl
          · exact hpost x hx
          · show score ≤ ls.best_score
            omega
      raised := by
        show ls.raised_alpha = true ↔ ∃ x ∈ ls.searched ++ [(m, score)], alpha0 < x.2
        rw [hinv.raised]
        constructor
        · rintro ⟨x, hx, hx2⟩
          exact ⟨x, by simp [hx], hx2⟩
        · rintro ⟨x, hx, hx2⟩
          simp only [List.mem_append, List.mem_singleton] at hx
          rcases hx with hx | rfl
          · exact ⟨x, hx, hx2⟩
          · exact ⟨_, hb.mem, by show alpha0 < ls.best_score; simp only at hx2; omega⟩
      alpha_ge := hinv.alpha_ge
      alpha_ub := by
        intro x hx
        simp only [List.mem_append, List.mem_singleton] at hx
        rcases hx with hx | rfl
        · exact hinv.alpha_ub x hx
        · show score ≤ ls.alpha
          omega
      alpha_eq := by
        rcases hinv.alpha_eq with he | ⟨y, hy, hy2⟩
        · exact Or.inl he
        · exact Or.inr ⟨y, by simp [hy], hy2⟩ }

theorem LoopInv.post {E : Engine} {alpha0 beta : Int} {ls : LoopState}
    (hinv : LoopInv E alpha0 beta ls) : LoopPost E alpha0 beta ls where
  stop := Or.inl hinv.below
  best := hinv.best
  raised := hinv.raised

theorem initLoop_inv (E : Engine) (alpha beta : Int) (st : SearchState) :
    LoopInv E alpha beta (initLoop E alpha st) where
  below := by intro x hx; simp [initLoop] at hx
  above := by intro x hx; simp [initLoop] at hx
  best := Or.inl ⟨rfl, rfl, rfl⟩
  raised := by simp [initLoop]
  alpha_ge := le_refl _
  alpha_ub := by intro x hx; simp [initLoop] at hx
  alpha_eq := Or.inl rfl

/-- The move loop, entered in a state that satisfies the invariant, ends in a
state that satisfies the postcondition, provided every searched score exceeds
`ScoreNone`. -/
theorem move_loop_post (E : Engine)
    (child : Int → Int → Position → SearchState → Int × SearchState) (alpha0 beta : Int)
    (position : Position) (hash : Nat) (moves : List Move) :
    ∀ ls : LoopState, LoopInv E alpha0 beta ls →
      (∀ x ∈ (move_loop E child beta position hash moves ls).searched, E.ScoreNone < x.2) →
      LoopPost E alpha0 beta (move_loop E child beta position hash moves ls) := by
  induction moves with
  | nil => intro ls hinv _; exact hinv.post
  | cons m rest ih =>
    intro ls hinv hS
    by_cases h : (E.make_move position m).2 = true
    · rw [move_loop_cons_rejected E child beta position hash m rest ls h] at hS ⊢
      exact ih ls hinv hS
    · rw [move_loop_cons_legal E child beta position hash m rest ls (by simpa using h)] at hS ⊢
      by_cases hgt : step_score E child beta position hash m ls > ls.best_score
      · rw [if_pos hgt] at hS ⊢
        by_cases hge : step_score E child beta position hash m ls ≥ beta
        · rw [if_pos hge]
          exact hinv.cutoff m _ _ hgt hge
        · rw [if_neg hge] at hS ⊢
          have hab : E.ScoreNone < step_score E child beta position hash m ls := by
            obtain ⟨t, ht⟩ := move_loop_searched_prefix E child beta position hash rest
              (improved ls m (step_score E child beta position hash m ls)
                (step_state E child beta position hash m ls))
            exact hS (m, step_score E child beta position hash m ls)
              (by rw [ht]; simp [improved])
          exact ih _ (hinv.step_improved m _ _ hgt (by omega) hab) hS
      · rw [if_neg hgt] at hS ⊢
        have hab : E.ScoreNone < step_score E child beta position hash m ls := by
          obtain ⟨t, ht⟩ := move_loop_searched_prefix E child beta position hash rest
            { ls with
              st := step_state E child beta position hash m ls
              searched := ls.searched ++ [(m, step_score E child beta position hash m ls)] }
          exact hS (m, step_score E child beta position hash m ls) (by rw [ht]; simp)
        exact ih _ (hinv.not_improved m _ _ hgt hab) hS

theorem loop_result_post (E : Engine) (alpha beta depth : Int) (position : Position)
    (st : SearchState)
    (hscores : ∀ x ∈ (loop_result E alpha beta depth position st).searched,
      E.ScoreNone < x.2) :
    LoopPost E alpha beta (loop_result E alpha beta depth position st) :=
  move_loop_post E _ alpha beta position _ _ _ (initLoop_inv E alpha beta (counted st)) hscores

/-- The moves searched are an initial segment of the accepted moves, in
generation order, and all of them when no score reaches `beta`. -/
theorem move_loop_searched_legal (E : Engine)
    (child : Int → Int → Position → SearchState → Int × SearchState) (beta : Int)
    (position : Position) (hash : Nat) (moves : List Move) :
    ∀ ls : LoopState, ∃ t,
      (move_loop E child beta position hash moves ls).searched = ls.searched ++ t ∧
      t.map Prod.fst <+: legal_moves E position moves ∧
      ((∀ x ∈ t, x.2 < beta) → t.map Prod.fst = legal_moves E position moves) := by
  induction moves with
  | nil => intro ls; exact ⟨[], by simp [move_loop], by simp [legal_moves], by simp [legal_moves]⟩
  | cons m rest ih =>
    intro ls
    by_cases h : (E.make_move position m).2 = true
    · rw [move_loop_cons_rejected E child beta position hash m rest ls h]
      obtain ⟨t, h1, h2, h3⟩ := ih ls
      have hl : legal_moves E position (m :: rest) = legal_moves E position rest := by
        simp [legal_moves, h]
      rw [hl]
      exact ⟨t, h1, h2, h3⟩
    · have hl : legal_moves E position (m :: rest) = m :: legal_moves E position rest := by
        simp [legal_moves, h]
      rw [move_loop_cons_legal E child beta position hash m rest ls (by simpa using h), hl]
      by_cases hgt : step_score E child beta position hash m ls > ls.best_score
      · rw [if_pos hgt]
        by_cases hge : step_score E child beta position hash m ls ≥ beta
        · rw [if_pos hge]
          refine ⟨[(m, step_score E child beta position hash m ls)], rfl, ?_, ?_⟩
          · simp only [List.map_cons, List.map_nil]
            exact List.prefix_iff_eq_append.mpr (by simp)
          · intro hall
            have := hall (m, step_score E child beta position hash m ls) (by simp)
            simp only at this
            omega
        · rw [if_neg hge]
          obtain ⟨t, h1, h2, h3⟩ := ih (improved ls m (step_score E child beta position hash m ls)
            (step_state E child beta position hash m ls))
          refine ⟨(m, step_score E child beta position hash m ls) :: t, ?_, ?_, ?_⟩
          · rw [h1]; simp [improved]
          · simp only [List.map_cons]
            exact (List.cons_prefix_cons).mpr ⟨rfl, h2⟩
          · intro hall
            simp only [List.map_cons]
            rw [h3 (fun x hx => hall x (List.mem_cons_of_mem _ hx))]
      · rw [if_neg hgt]
        obtain ⟨t, h1, h2, h3⟩ := ih { ls with
            st := step_state E child beta position hash m ls
            searched := ls.searched ++ [(m, step_score E child beta position hash m ls)] }
        refine ⟨(m, step_score E child beta position hash m ls) :: t, ?_, ?_, ?_⟩
        · rw [h1]; simp
        · simp only [List.map_cons]
          exact (List.cons_prefix_cons).mpr ⟨rfl, h2⟩
        · intro hall
          simp only [List.map_cons]
          rw [h3 (fun x hx => hall x (List.mem_cons_of_mem _ hx))]

theorem search_moves_eq (E : Engine)
    (child : Int → Int → Position → SearchState → Int × SearchState)
    (alpha beta depth : Int) (position : Position) (hash : Nat) (st : SearchState) :
    search_moves E child alpha beta depth position hash st =
      if (move_loop E child beta position hash (E.movegen position)
          (initLoop E alpha st)).best_score = E.ScoreNone then
        (if E.attacks_square position (position.kingpos (colorIndex position.color))
            (colorIndex position.color ^^^ 1)
          then E.Mate + (move_loop E child beta position hash (E.movegen position)
            (initLoop E alpha st)).st.thread_info.search_ply else 0,
          (move_loop E child beta position hash (E.movegen position) (initLoop E alpha st)).st)
      else
        ((move_loop E child beta position hash (E.movegen position)
            (initLoop E alpha st)).best_score,
          { (move_loop E child beta position hash (E.movegen position)
              (initLoop E alpha st)).st with
            TT := E.insert_entry
              (move_loop E child beta position hash (E.movegen position)
                (initLoop E alpha st)).st.TT hash depth
              (move_loop E child beta position hash (E.movegen position)
                (initLoop E alpha st)).best_move
              (move_loop E child beta position hash (E.movegen position)
                (initLoop E alpha st)).best_score
              (entry_type_of beta
                (move_loop E child beta position hash (E.movegen position)
                  (initLoop E alpha st)).best_score
                (move_loop E child beta position hash (E.movegen position)
                  (initLoop E alpha st)).raised_alpha) }) :=
  rfl

/-- C7, as stated, fails when `alpha >= beta`: at the small engine the call
`search(200, 50, 1, ...)` searches one move, of score 100; no move raises alpha,
the loop stops on the beta cutoff, and the type stored is LBound, not
UBound. -/
theorem search_cutoff_without_raise :
    (loop_result toyEngine 200 50 1 toyPosition toyState).searched = [(7, 100)] ∧
    (loop_result toyEngine 200 50 1 toyPosition toyState).raised_alpha = false ∧
    ((search toyEngine 200 50 1 toyPosition toyState).2.TT 1).type = EntryTypes.LBound := by
  decide

/-- C7 (amended): whenever a call reaches the move loop, at least one legal
move was searched and the searched scores exceed `ScoreNone`, `search` makes
one store, `insert_entry(hash, depth, best_move, best_score, type)`, on the
table the child searches left, and returns `best_score`; `best_score` is the
maximum of the searched scores and `best_move` the first move attaining it; the
searched moves are an initial segment of the legal moves, all of them unless a
score reaches `beta`; the type is LBound iff some searched score is `>= beta`,
and then that move is the last one searched and the first to reach `beta`;
Exact iff some move raised alpha and none reached `beta`; UBound iff no move
raised alpha and none reached `beta`, which, when `alpha < beta`, is iff no move
raised alpha. -/
theorem search_store (E : Engine) (alpha beta depth : Int) (position : Position)
    (st : SearchState) (hreach : reaches_moves E alpha beta depth position st)
    (hsearched : (loop_result E alpha beta depth position st).searched ≠ [])
    (hscores : ∀ x ∈ (loop_result E alpha beta depth position st).searched,
      E.ScoreNone < x.2) :
    search E alpha beta depth position st =
      ((loop_result E alpha beta depth position st).best_score,
        { (loop_result E alpha beta depth position st).st with
          TT := E.insert_entry (loop_result E alpha beta depth position st).st.TT
            (E.calculate position) depth
            (loop_result E alpha beta depth position st).best_move
            (loop_result E alpha beta depth position st).best_score
            (entry_type_of beta (loop_result E alpha beta depth position st).best_score
              (loop_result E alpha beta depth position st).raised_alpha) }) ∧
    BestOf (loop_result E alpha beta depth position st) ∧
    ((loop_result E alpha beta depth position st).raised_alpha = true ↔
      ∃ x ∈ (loop_result E alpha beta depth position st).searched, alpha < x.2) ∧
    (loop_result E alpha beta depth position st).searched.map Prod.fst <+:
      legal_moves E position (E.movegen position) ∧
    ((∀ x ∈ (loop_result E alpha beta depth position st).searched, x.2 < beta) →
      (loop_result E alpha beta depth position st).searched.map Prod.fst =
        legal_moves E position (E.movegen position)) ∧
    (entry_type_of beta (loop_result E alpha beta depth position st).best_score
        (loop_result E alpha beta depth position st).raised_alpha = EntryTypes.LBound ↔
      ∃ x ∈ (loop_result E alpha beta depth position st).searched, beta ≤ x.2) ∧
    ((∃ x ∈ (loop_result E alpha beta depth position st).searched, beta ≤ x.2) →
      ∃ pre, (loop_result E alpha beta depth position st).searched =
          pre ++ [((loop_result E alpha beta depth position st).best_move,
            (loop_result E alpha beta depth position st).best_score)] ∧
        beta ≤ (loop_result E alpha beta depth position st).best_score ∧
        ∀ x ∈ pre, x.2 < beta) ∧
    (entry_type_of beta (loop_result E alpha beta depth position st).best_score
        (loop_result E alpha beta depth position st).raised_alpha = EntryTypes.Exact ↔
      (∃ x ∈ (loop_result E alpha beta depth position st).searched, alpha < x.2) ∧
        ∀ x ∈ (loop_result E alpha beta depth position st).searched, x.2 < beta) ∧
    (entry_type_of beta (loop_result E alpha beta depth position st).best_score
        (loop_result E alpha beta depth position st).raised_alpha = EntryTypes.UBound ↔
      (∀ x ∈ (loop_result E alpha beta depth position st).searched, x.2 ≤ alpha) ∧
        ∀ x ∈ (loop_result E alpha beta depth position st).searched, x.2 < beta) ∧
    (alpha < beta →
      (entry_type_of beta (loop_result E alpha beta depth position st).best_score
          (loop_result E alpha beta depth position st).raised_alpha = EntryTypes.UBound ↔
        ∀ x ∈ (loop_result E alpha beta depth position st).searched, x.2 ≤ alpha)) := by
  have hpost := loop_result_post E alpha beta depth position st hscores
  generalize hr : loop_result E alpha beta depth position st = r at *
  have hbest : BestOf r := by
    rcases hpost.best with ⟨hnil, -, -⟩ | hb
    · exact absurd hnil hsearched
    · exact hb
  have hne : r.best_score ≠ E.ScoreNone := by
    have := hscores _ hbest.mem
    simp only at this
    omega
  have hlb : r.best_score ≥ beta ↔ ∃ x ∈ r.searched, beta ≤ x.2 := by
    constructor
    · intro h
      exact ⟨_, hbest.mem, h⟩
    · rintro ⟨x, hx, hx2⟩
      have := hbest.le_best x hx
      omega
  have hnl : ¬ r.best_score ≥ beta ↔ ∀ x ∈ r.searched, x.2 < beta := by
    rw [hlb]
    constructor
    · intro h x hx
      by_contra hc
      exact h ⟨x, hx, by omega⟩
    · rintro h ⟨x, hx, hx2⟩
      have := h x hx
      omega
  have hnr : ¬ r.raised_alpha = true ↔ ∀ x ∈ r.searched, x.2 ≤ alpha := by
    rw [hpost.raised]
    constructor
    · intro h x hx
      by_contra hc
      exact h ⟨x, hx, by omega⟩
    · rintro h ⟨x, hx, hx2⟩
      have := h x hx
      omega
  have hub : entry_type_of beta r.best_score r.raised_alpha = EntryTypes.UBound ↔
      (∀ x ∈ r.searched, x.2 ≤ alpha) ∧ ∀ x ∈ r.searched, x.2 < beta := by
    rw [← hnl, ← hnr]
    unfold entry_type_of
    by_cases h1 : r.best_score ≥ beta <;> by_cases h2 : r.raised_alpha = true <;>
      simp [h1, h2]
  obtain ⟨t, ht1, ht2, ht3⟩ := move_loop_searched_legal E
    (fun a b p s => search E a b (depth - 1) p s) beta position (E.calculate position)
    (E.movegen position) (initLoop E alpha (counted st))
  have ht : r.searched = t := by
    rw [← hr]
    unfold loop_result
    rw [ht1]
    simp [initLoop]
  refine ⟨?_, hbest, hpost.raised, ?_, ?_, ?_, ?_, ?_, hub, ?_⟩
  · rw [search_of_reaches E alpha beta depth position st hreach, search_moves_eq]
    have hr' : move_loop E (fun a b p s => search E a b (depth - 1) p s) beta position
        (E.calculate position) (E.movegen position) (initLoop E alpha (counted st)) = r := hr
    rw [hr', if_neg hne]
  · rw [ht]; exact ht2
  · rw [ht]; exact ht3
  · rw [← hlb]
    unfold entry_type_of
    by_cases h1 : r.best_score ≥ beta <;> by_cases h2 : r.raised_alpha = true <;>
      simp [h1, h2]
  · intro hex
    rcases hpost.stop with hall | hcut
    · exact absurd (hlb.mpr hex) (hnl.mpr hall)
    · exact hcut
  · rw [← hnl, hpost.raised.symm]
    unfold entry_type_of
    by_cases h1 : r.best_score ≥ beta <;> by_cases h2 : r.raised_alpha = true <;>
      simp [h1, h2]
  · intro hab
    rw [hub]
    constructor
    · exact fun h => h.1
    · intro h
      exact ⟨h, fun x hx => lt_of_le_of_lt (h x hx) hab⟩

/-- The amended C7 at the small engine, one ply below the root: a search of
depth 1 with the window (-100001, 100001) returns 100 and stores it as an exact
score. -/
theorem search_store_witness :
    (search toyEngine (-100001) 100001 1 toyPosition toyState).1 = 100 ∧
    ((search toyEngine (-100001) 100001 1 toyPosition toyState).2.TT 1).type =
      EntryTypes.Exact :=
  have h := (search_store toyEngine (-100001) 100001 1 toyPosition toyState
    ⟨by decide, Or.inr ⟨by decide, Or.inl (by decide)⟩⟩ (by decide) (by decide)).1
  ⟨by rw [h]; decide, by rw [h]; decide⟩

/-! ## C11: the minor-piece thresholds of `material_draw` -/

/-- C11, as stated, fails: king and two knights against the bare king is
reported as a material draw, and king and two bishops against the bare king is
not. -/
theorem material_draw_two_knights_two_bishops :
    material_draw twoKnights = true ∧ material_draw twoBishops = false := by
  decide

theorem material_draw_eq_false_iff (position : Position)
    (h : ∀ i ∈ [0, 1, 6, 7, 8, 9], position.material_count i = 0) :
    material_draw position = false ↔
      (position.material_count 4 > 1 ∨ position.material_count 2 > 2 ∨
        (position.material_count 2 ≥ 1 ∧ position.material_count 4 ≥ 1)) ∨
      (position.material_count 5 > 1 ∨ position.material_count 3 > 2 ∨
        (position.material_count 3 ≥ 1 ∧ position.material_count 5 ≥ 1)) := by
  have h0 := h 0 (by simp)
  have h1 := h 1 (by simp)
  have h6 := h 6 (by simp)
  have h7 := h 7 (by simp)
  have h8 := h 8 (by simp)
  have h9 := h 9 (by simp)
  simp only [material_draw, List.any_cons, List.any_nil, h0, h1, h6, h7, h8, h9, ne_eq,
    not_true_eq_false, decide_False, Bool.or_self, Bool.false_eq_true, if_false]
  by_cases hw : position.material_count 4 > 1 ∨ position.material_count 2 > 2 ∨
      (position.material_count 2 ≠ 0 ∧ position.material_count 4 ≠ 0)
  · rw [if_pos hw]
    simp only [true_iff]
    left
    rcases hw with hw | hw | hw
    · exact Or.inl hw
    · exact Or.inr (Or.inl hw)
    · exact Or.inr (Or.inr (by omega))
  · rw [if_neg hw]
    by_cases hb : position.material_count 5 > 1 ∨ position.material_count 3 > 2 ∨
        (position.material_count 3 ≠ 0 ∧ position.material_count 5 ≠ 0)
    · rw [if_pos hb]
      simp only [true_iff]
      right
      rcases hb with hb | hb | hb
      · exact Or.inl hb
      · exact Or.inr (Or.inl hb)
      · exact Or.inr (Or.inr (by omega))
    · rw [if_neg hb]
      simp only [Bool.true_eq_false, false_iff]
      omega

/-- C11 (amended): for every position with no pawns, rooks or queens
(`material_count` indexed by piece code minus two: 2, 3 the knights, 4, 5 the
bishops), `material_draw` returns false exactly when some side has more than
one bishop, or more than two knights, or at least one bishop together with at
least one knight, and returns true otherwise. -/
theorem material_draw_minor_pieces (position : Position)
    (h : ∀ i ∈ [0, 1, 6, 7, 8, 9], position.material_count i = 0) :
    (material_draw position = false ↔
      (position.material_count 4 > 1 ∨ position.material_count 2 > 2 ∨
        (position.material_count 2 ≥ 1 ∧ position.material_count 4 ≥ 1)) ∨
      (position.material_count 5 > 1 ∨ position.material_count 3 > 2 ∨
        (position.material_count 3 ≥ 1 ∧ position.material_count 5 ≥ 1))) ∧
    (material_draw position = true ↔
      (position.material_count 4 ≤ 1 ∧ position.material_count 2 ≤ 2 ∧
        (position.material_count 2 = 0 ∨ position.material_count 4 = 0)) ∧
      (position.material_count 5 ≤ 1 ∧ position.material_count 3 ≤ 2 ∧
        (position.material_count 3 = 0 ∨ position.material_count 5 = 0))) := by
  refine ⟨material_draw_eq_false_iff position h, ?_⟩
  rw [← Bool.not_eq_false, material_draw_eq_false_iff position h]
  omega

/-- The amended C11 at king and two bishops against the bare king: not a
material draw. -/
theorem material_draw_minor_pieces_witness : material_draw twoBishops = false :=
  (material_draw_minor_pieces twoBishops (by decide)).1.mpr (by decide)

/-! ## C14: the leaf -/

/-- C14: for every call with `depth <= 0`, `search` returns `eval(position)`
and changes nothing but the node counter (the table and the history are as they
were); `eval` is the material balance `100 * pawns + 300 * knights +
300 * bishops + 500 * rooks + 900 * queens`, each term White's count minus
Black's, as is with White to move and negated with Black to move; so toggling
only the side to move negates the value. -/
theorem search_leaf (E : Engine) (alpha beta depth : Int) (position : Position)
    (st : SearchState) (hdepth : depth ≤ 0) :
    search E alpha beta depth position st = (eval position, counted st) ∧
    (search E alpha beta depth position st).2.TT = st.TT ∧
    (search E alpha beta depth position st).2.thread_info.game_hist =
      st.thread_info.game_hist ∧
    eval position =
      (if position.color then -1 else 1) *
        (100 * ((position.material_count 0 : Int) - position.material_count 1) +
         300 * ((position.material_count 2 : Int) - position.material_count 3) +
         300 * ((position.material_count 4 : Int) - position.material_count 5) +
         500 * ((position.material_count 6 : Int) - position.material_count 7) +
         900 * ((position.material_count 8 : Int) - position.material_count 9)) ∧
    eval { position with color := !position.color } = -eval position := by
  have h0 : depth.toNat = 0 := by omega
  have hs : search E alpha beta depth position st = (eval position, counted st) := by
    unfold search
    rw [h0]
    rfl
  refine ⟨hs, by rw [hs]; rfl, by rw [hs]; rfl, ?_, ?_⟩
  · unfold eval
    cases position.color <;> simp <;> ring
  · unfold eval
    cases position.color <;> simp

/-- C14 at the small engine: a call of depth 0 on the position with one white
pawn, White to move, returns 100. -/
theorem search_leaf_witness :
    (search toyEngine (-100001) 100001 0 toyPosition toyState).1 = 100 :=
  have h := (search_leaf toyEngine (-100001) 100001 0 toyPosition toyState (by decide)).1
  by rw [h]; decide

/-! ## C16: the padded board -/

set_option maxRecDepth 100000 in
theorem on_board_iff : ∀ x < 256,
    (out_of_board x = 0 ↔ ∃ r < 8, ∃ f < 8, x = 16 * r + f) := by
  decide

theorem on_board_rank_file : ∀ r < 8, ∀ f < 8,
    out_of_board (16 * r + f) = 0 ∧ get_rank (16 * r + f) = r ∧
    get_file (16 * r + f) = f ∧ StandardToMailbox (8 * r + f) = 16 * r + f := by
  decide

set_option maxRecDepth 100000 in
theorem standardToMailbox_injective : ∀ i < 64, ∀ j < 64,
    StandardToMailbox i = StandardToMailbox j → i = j := by
  decide

set_option maxRecDepth 100000 in
theorem standardToMailbox_onto : ∀ x < 256, out_of_board x = 0 →
    ∃ i < 64, StandardToMailbox i = x := by
  decide

/-- C16: for every 8-bit index `x`, `out_of_board(x)` is zero exactly when
`x = 16 * r + f` with rank `r` and file `f` both in `0..7`, and then
`get_rank(x) = r` and `get_file(x) = f`; these are 64 of the 128 board cells;
and `StandardToMailbox` maps `0..63` one-to-one onto those indices, with
`StandardToMailbox[8 * r + f] = 16 * r + f`. -/
theorem mailbox_layout :
    (∀ x < 256, (out_of_board x = 0 ↔ ∃ r < 8, ∃ f < 8, x = 16 * r + f)) ∧
    (∀ r < 8, ∀ f < 8,
      out_of_board (16 * r + f) = 0 ∧ get_rank (16 * r + f) = r ∧
      get_file (16 * r + f) = f ∧ StandardToMailbox (8 * r + f) = 16 * r + f) ∧
    ((List.range 128).filter (fun x => out_of_board x = 0)).length = 64 ∧
    (∀ i < 64, out_of_board (StandardToMailbox i) = 0 ∧ StandardToMailbox i < 128) ∧
    (∀ i < 64, ∀ j < 64, StandardToMailbox i = StandardToMailbox j → i = j) ∧
    (∀ x < 256, out_of_board x = 0 → ∃ i < 64, StandardToMailbox i = x) :=
  ⟨on_board_iff, on_board_rank_file, by decide, by decide, standardToMailbox_injective,
    standardToMailbox_onto⟩

/-- C16 at the index 0x34: rank 3, file 4, on the board, the image of 28. -/
theorem mailbox_layout_witness :
    out_of_board 0x34 = 0 ∧ get_rank 0x34 = 3 ∧ get_file 0x34 = 4 ∧
    StandardToMailbox 28 = 0x34 :=
  mailbox_layout.2.1 3 (by decide) 4 (by decide)

/-! ## C17: the range of `feature_index` -/

set_option maxRecDepth 100000 in
theorem feature_index_facts_k0 : ∀ view < 2, ∀ piece < 14, ∀ sq < 64,
    FeatureFacts view 0 piece sq := by
  decide

set_option maxRecDepth 100000 in
theorem feature_index_facts_k4 : ∀ view < 2, ∀ piece < 14, ∀ sq < 64,
    FeatureFacts view 4 piece sq := by
  decide

theorem and4_cases : ∀ k < 64, k &&& 4 = 0 ∨ k &&& 4 = 4 := by
  decide

theorem feature_decode_king_half (view k k' ft : Nat) (h : k' &&& 4 = k &&& 4) :
    feature_decode view k' ft = feature_decode view k ft := by
  simp [feature_decode, h]

theorem feature_index_facts (view kingSq piece sq : Nat) (hv : view ≤ 1)
    (hk : kingSq < 64) (hp : 2 ≤ piece ∧ piece ≤ 13) (hsq : sq < 64) :
    feature_index view kingSq piece sq < 768 ∧
    (piece &&& 1 = view → feature_index view kingSq piece sq < 384) ∧
    (piece &&& 1 ≠ view → 384 ≤ feature_index view kingSq piece sq) ∧
    feature_decode view kingSq (feature_index view kingSq piece sq) = (piece, sq) := by
  have key : ∀ k0, k0 &&& 4 = kingSq &&& 4 →
      (feature_index view k0 piece sq < 768 ∧
        feature_index view k0 piece sq / 384 = (if piece &&& 1 = view then 0 else 1) ∧
        feature_decode view k0 (feature_index view k0 piece sq) = (piece, sq)) →
      feature_index view kingSq piece sq < 768 ∧
      (piece &&& 1 = view → feature_index view kingSq piece sq < 384) ∧
      (piece &&& 1 ≠ view → 384 ≤ feature_index view kingSq piece sq) ∧
      feature_decode view kingSq (feature_index view kingSq piece sq) = (piece, sq) := by
    intro k0 e h
    rw [feature_index_king_half view kingSq k0 piece sq e,
      feature_decode_king_half view kingSq k0 _ e] at h
    obtain ⟨h1, h2, h3⟩ := h
    refine ⟨h1, ?_, ?_, h3⟩
    · intro hc
      rw [if_pos hc] at h2
      omega
    · intro hc
      rw [if_neg hc] at h2
      omega
  rcases and4_cases kingSq hk with h | h
  · exact key 0 (by rw [h]; rfl)
      (feature_index_facts_k0 view (by omega) piece (by omega) sq hsq hp.1)
  · exact key 4 (by rw [h]; rfl)
      (feature_index_facts_k4 view (by omega) piece (by omega) sq hsq hp.1)

/-- C17: for every view in `{0, 1}`, king square and piece square in `0..63`
and piece code in `2..13`, `feature_index` returns a value below 768, so every
weight read `feature_v[ft * 768 + i]` with `i < 768` lies inside the `768 * 768`
table (and is the cell `feature_weight` reads); pieces of the view's own colour
go to `0..383`, pieces of the other colour to `384..767`; and for a fixed view
and king square `feature_index` is injective in (piece code, square). -/
theorem feature_index_range (view kingSq : Nat) (hv : view ≤ 1) (hk : kingSq < 64) :
    (∀ piece sq, 2 ≤ piece → piece ≤ 13 → sq < 64 →
      feature_index view kingSq piece sq < 768 ∧
      (∀ i < 768, feature_index view kingSq piece sq * 768 + i < 768 * 768 ∧
        ∀ net : NNUE_Params,
          feature_weight net (feature_index view kingSq piece sq) i =
            net.feature_v (feature_index view kingSq piece sq * 768 + i)) ∧
      (piece &&& 1 = view → feature_index view kingSq piece sq < 384) ∧
      (piece &&& 1 ≠ view → 384 ≤ feature_index view kingSq piece sq)) ∧
    (∀ p1 s1 p2 s2, 2 ≤ p1 → p1 ≤ 13 → s1 < 64 → 2 ≤ p2 → p2 ≤ 13 → s2 < 64 →
      feature_index view kingSq p1 s1 = feature_index view kingSq p2 s2 →
      p1 = p2 ∧ s1 = s2) := by
  constructor
  · intro piece sq hp1 hp2 hsq
    obtain ⟨h1, h2, h3, -⟩ := feature_index_facts view kingSq piece sq hv hk ⟨hp1, hp2⟩ hsq
    refine ⟨h1, ?_, h2, h3⟩
    intro i hi
    have hb : feature_index view kingSq piece sq * 768 + i < 768 * 768 := by omega
    refine ⟨hb, fun net => ?_⟩
    unfold feature_weight
    rw [LAYER1_SIZE, Nat.mod_eq_of_lt (by omega)]
  · intro p1 s1 p2 s2 h1 h1' hs1 h2 h2' hs2 heq
    have d1 := (feature_index_facts view kingSq p1 s1 hv hk ⟨h1, h1'⟩ hs1).2.2.2
    have d2 := (feature_index_facts view kingSq p2 s2 hv hk ⟨h2, h2'⟩ hs2).2.2.2
    rw [heq, d2] at d1
    exact ⟨(Prod.mk.inj d1).1.symm, (Prod.mk.inj d1).2.symm⟩

/-- C17 at White's view with the king on e1: the white pawn on e2 is feature 11,
below 384. -/
theorem feature_index_range_witness :
    feature_index 0 4 Pieces.WPawn 12 < 384 :=
  ((feature_index_range 0 4 (by decide) (by decide)).1 Pieces.WPawn 12 (by decide)
    (by decide) (by decide)).2.2.1 (by decide)

/-! ## C18: the pushes against `reset_nnue`, in any order of the squares -/

theorem reset_nnue_order_std (net : NNUE_Params) (get_king_pos : Position → Nat → Nat)
    (s : NNUE_State) (position : Position) :
    s.reset_nnue_order net get_king_pos position (List.range' a1 (SqNone - a1)) =
      s.reset_nnue net get_king_pos position := rfl

theorem reset_nnue_order_kings_pos (net : NNUE_Params)
    (get_king_pos : Position → Nat → Nat) (s : NNUE_State) (position : Position)
    (order : List Nat) (view : Nat) (hv : view ≤ 1) :
    (s.reset_nnue_order net get_king_pos position order).kings_pos view =
      get_king_pos position view := by
  simp [NNUE_State.reset_nnue_order, reset_loop_kings_pos, Colors.Black, hv]

theorem reset_nnue_order_m_curr (net : NNUE_Params)
    (get_king_pos : Position → Nat → Nat) (s : NNUE_State) (position : Position)
    (order : List Nat) :
    (s.reset_nnue_order net get_king_pos position order).m_curr = 0 := by
  simp [NNUE_State.reset_nnue_order, reset_nnue_m_curr_loop]

/-- The accumulator `reset_nnue` builds does not depend on the order in which the
squares are visited. -/
theorem reset_nnue_order_curr (net : NNUE_Params) (get_king_pos : Position → Nat → Nat)
    (s : NNUE_State) (position : Position) (order : List Nat)
    (horder : order.Perm (List.range' a1 (SqNone - a1)))
    (view i : Nat) (hv : view ≤ 1) (hi : i < 768) :
    (s.reset_nnue_order net get_king_pos position order).curr view i =
      (s.reset_nnue net get_king_pos position).curr view i := by
  rw [← reset_nnue_order_std]
  unfold NNUE_State.reset_nnue_order
  rw [reset_loop_curr net position view i hv hi, reset_loop_curr net position view i hv hi]
  have hmem : (∀ sq ∈ order, position.board sq = Pieces.Blank) ↔
      (∀ sq ∈ List.range' a1 (SqNone - a1), position.board sq = Pieces.Blank) := by
    constructor
    · intro h sq hsq
      exact h sq (horder.mem_iff.mpr hsq)
    · intro h sq hsq
      exact h sq (horder.mem_iff.mp hsq)
  have hsum := (horder.map (cellWeight net view
    (if view ≤ Colors.Black then get_king_pos position view else s.kings_pos view)
    position.board i)).sum_eq
  simp only [hmem, hsum]

theorem add_sub_order_eq_reset (net : NNUE_Params) (get_king_pos : Position → Nat → Nat)
    (s0 s1 : NNUE_State) (P P' : Position) (order order' : List Nat)
    (horder : order.Perm (List.range' a1 (SqNone - a1)))
    (horder' : order'.Perm (List.range' a1 (SqNone - a1)))
    (from_piece from_sq to_piece to_sq : Nat)
    (hk : ∀ view ≤ 1, get_king_pos P' view &&& 4 = get_king_pos P view &&& 4)
    (hf : from_sq < 64) (ht : to_sq < 64) (hne : from_sq ≠ to_sq)
    (hfp : P.board from_sq = from_piece) (hfn : from_piece ≠ Pieces.Blank)
    (htb : P.board to_sq = Pieces.Blank) (htp : to_piece ≠ Pieces.Blank)
    (hb' : ∀ sq, P'.board sq = if sq = to_sq then to_piece
      else if sq = from_sq then Pieces.Blank else P.board sq)
    (view i : Nat) (hv : view ≤ 1) (hi : i < 768) :
    ((s0.reset_nnue_order net get_king_pos P order).add_sub net from_piece from_sq
        to_piece to_sq).curr view i =
      (s1.reset_nnue_order net get_king_pos P' order').curr view i := by
  rw [reset_nnue_order_curr net get_king_pos s1 P' order' horder' view i hv hi,
    ← add_sub_eq_reset net get_king_pos s0 s1 P P' from_piece from_sq to_piece to_sq
      hk hf ht hne hfp hfn htb htp hb' view i hv hi,
    add_sub_curr net _ _ _ _ _ view i hv hi, add_sub_curr net _ _ _ _ _ view i hv hi,
    reset_nnue_order_curr net get_king_pos s0 P order horder view i hv hi,
    reset_nnue_order_kings_pos net get_king_pos s0 P order view hv,
    reset_nnue_kings_pos net get_king_pos s0 P view hv]

theorem add_sub_sub_order_eq_reset (net : NNUE_Params)
    (get_king_pos : Position → Nat → Nat)
    (s0 s1 : NNUE_State) (P P' : Position) (order order' : List Nat)
    (horder : order.Perm (List.range' a1 (SqNone - a1)))
    (horder' : order'.Perm (List.range' a1 (SqNone - a1)))
    (from_piece from_sq to_piece to_sq captured captured_sq : Nat)
    (hk : ∀ view ≤ 1, get_king_pos P' view &&& 4 = get_king_pos P view &&& 4)
    (hf : from_sq < 64) (ht : to_sq < 64) (hc : captured_sq < 64)
    (hne : from_sq ≠ to_sq) (hcf : captured_sq ≠ from_sq)
    (hfp : P.board from_sq = from_piece) (hfn : from_piece ≠ Pieces.Blank)
    (hcp : P.board captured_sq = captured) (hcn : captured ≠ Pieces.Blank)
    (hto : to_sq = captured_sq ∨ P.board to_sq = Pieces.Blank)
    (htp : to_piece ≠ Pieces.Blank)
    (hb' : ∀ sq, P'.board sq = if sq = to_sq then to_piece
      else if sq = from_sq ∨ sq = captured_sq then Pieces.Blank else P.board sq)
    (view i : Nat) (hv : view ≤ 1) (hi : i < 768) :
    ((s0.reset_nnue_order net get_king_pos P order).add_sub_sub net from_piece from_sq
        to_piece to_sq captured captured_sq).curr view i =
      (s1.reset_nnue_order net get_king_pos P' order').curr view i := by
  rw [reset_nnue_order_curr net get_king_pos s1 P' order' horder' view i hv hi,
    ← add_sub_sub_eq_reset net get_king_pos s0 s1 P P' from_piece from_sq to_piece to_sq
      captured captured_sq hk hf ht hc hne hcf hfp hfn hcp hcn hto htp hb' view i hv hi,
    add_sub_sub_curr net _ _ _ _ _ _ _ view i hv hi,
    add_sub_sub_curr net _ _ _ _ _ _ _ view i hv hi,
    reset_nnue_order_curr net get_king_pos s0 P order horder view i hv hi,
    reset_nnue_order_kings_pos net get_king_pos s0 P order view hv,
    reset_nnue_kings_pos net get_king_pos s0 P view hv]

theorem add_add_sub_sub_order_eq_reset (net : NNUE_Params)
    (get_king_pos : Position → Nat → Nat)
    (s0 s1 : NNUE_State) (P P' : Position) (order order' : List Nat)
    (horder : order.Perm (List.range' a1 (SqNone - a1)))
    (horder' : order'.Perm (List.range' a1 (SqNone - a1)))
    (piece1 from1 to1 piece2 from2 to2 : Nat)
    (hk : ∀ view ≤ 1, get_king_pos P' view &&& 4 = get_king_pos P view &&& 4)
    (hf1 : from1 < 64) (ht1 : to1 < 64) (hf2 : from2 < 64) (ht2 : to2 < 64)
    (hff : from1 ≠ from2) (htt : to1 ≠ to2)
    (hp1 : P.board from1 = piece1) (hn1 : piece1 ≠ Pieces.Blank)
    (hp2 : P.board from2 = piece2) (hn2 : piece2 ≠ Pieces.Blank)
    (hb1 : P.board to1 = Pieces.Blank) (hb2 : P.board to2 = Pieces.Blank)
    (hb' : ∀ sq, P'.board sq = if sq = to1 then piece1 else if sq = to2 then piece2
      else if sq = from1 ∨ sq = from2 then Pieces.Blank else P.board sq)
    (view i : Nat) (hv : view ≤ 1) (hi : i < 768) :
    ((s0.reset_nnue_order net get_king_pos P order).add_add_sub_sub net piece1 from1 to1
        piece2 from2 to2).curr view i =
      (s1.reset_nnue_order net get_king_pos P' order').curr view i := by
  rw [reset_nnue_order_curr net get_king_pos s1 P' order' horder' view i hv hi,
    ← add_add_sub_sub_eq_reset net get_king_pos s0 s1 P P' piece1 from1 to1 piece2 from2
      to2 hk hf1 ht1 hf2 ht2 hff htt hp1 hn1 hp2 hn2 hb1 hb2 hb' view i hv hi,
    add_add_sub_sub_curr net _ _ _ _ _ _ _ view i hv hi,
    add_add_sub_sub_curr net _ _ _ _ _ _ _ view i hv hi,
    reset_nnue_order_curr net get_king_pos s0 P order horder view i hv hi,
    reset_nnue_order_kings_pos net get_king_pos s0 P order view hv,
    reset_nnue_kings_pos net get_king_pos s0 P view hv]

/-- C18: for every position `P` and every move after which each colour's king
square agrees with its square in `P` on bit 2, the matching push applied after
`reset_nnue(P)` (`add_sub` onto a blank square, `add_sub_sub` with the captured
piece and its square, `add_add_sub_sub` for two simultaneous piece moves)
moves the cursor to slot 1 and leaves there, for both views and all 768 entries,
exactly the accumulator `reset_nnue` computes for the resulting position `P'`,
in 16-bit wrap-around arithmetic and whatever the order in which either reset
visits the squares. -/
theorem push_eq_reset_any_order (net : NNUE_Params)
    (get_king_pos : Position → Nat → Nat) (s0 s1 : NNUE_State) (P P' : Position)
    (order order' : List Nat)
    (horder : order.Perm (List.range' a1 (SqNone - a1)))
    (horder' : order'.Perm (List.range' a1 (SqNone - a1)))
    (hk : ∀ view ≤ 1, get_king_pos P' view &&& 4 = get_king_pos P view &&& 4) :
    (∀ from_piece from_sq to_piece to_sq : Nat,
      from_sq < 64 → to_sq < 64 → from_sq ≠ to_sq →
      P.board from_sq = from_piece → from_piece ≠ Pieces.Blank →
      P.board to_sq = Pieces.Blank → to_piece ≠ Pieces.Blank →
      (∀ sq, P'.board sq = if sq = to_sq then to_piece
        else if sq = from_sq then Pieces.Blank else P.board sq) →
      ((s0.reset_nnue_order net get_king_pos P order).add_sub net from_piece from_sq
          to_piece to_sq).m_curr = 1 ∧
      ∀ view ≤ 1, ∀ i < 768,
        ((s0.reset_nnue_order net get_king_pos P order).add_sub net from_piece from_sq
          to_piece to_sq).m_accumulator_stack 1 view i =
        (s1.reset_nnue_order net get_king_pos P' order').curr view i) ∧
    (∀ from_piece from_sq to_piece to_sq captured captured_sq : Nat,
      from_sq < 64 → to_sq < 64 → captured_sq < 64 →
      from_sq ≠ to_sq → captured_sq ≠ from_sq →
      P.board from_sq = from_piece → from_piece ≠ Pieces.Blank →
      P.board captured_sq = captured → captured ≠ Pieces.Blank →
      (to_sq = captured_sq ∨ P.board to_sq = Pieces.Blank) →
      to_piece ≠ Pieces.Blank →
      (∀ sq, P'.board sq = if sq = to_sq then to_piece
        else if sq = from_sq ∨ sq = captured_sq then Pieces.Blank else P.board sq) →
      ((s0.reset_nnue_order net get_king_pos P order).add_sub_sub net from_piece from_sq
          to_piece to_sq captured captured_sq).m_curr = 1 ∧
      ∀ view ≤ 1, ∀ i < 768,
        ((s0.reset_nnue_order net get_king_pos P order).add_sub_sub net from_piece from_sq
          to_piece to_sq captured captured_sq).m_accumulator_stack 1 view i =
        (s1.reset_nnue_order net get_king_pos P' order').curr view i) ∧
    (∀ piece1 from1 to1 piece2 from2 to2 : Nat,
      from1 < 64 → to1 < 64 → from2 < 64 → to2 < 64 →
      from1 ≠ from2 → to1 ≠ to2 →
      P.board from1 = piece1 → piece1 ≠ Pieces.Blank →
      P.board from2 = piece2 → piece2 ≠ Pieces.Blank →
      P.board to1 = Pieces.Blank → P.board to2 = Pieces.Blank →
      (∀ sq, P'.board sq = if sq = to1 then piece1 else if sq = to2 then piece2
        else if sq = from1 ∨ sq = from2 then Pieces.Blank else P.board sq) →
      ((s0.reset_nnue_order net get_king_pos P order).add_add_sub_sub net piece1 from1 to1
          piece2 from2 to2).m_curr = 1 ∧
      ∀ view ≤ 1, ∀ i < 768,
        ((s0.reset_nnue_order net get_king_pos P order).add_add_sub_sub net piece1 from1
          to1 piece2 from2 to2).m_accumulator_stack 1 view i =
        (s1.reset_nnue_order net get_king_pos P' order').curr view i) := by
  have hc1 : ∀ t : NNUE_State, t.m_curr = 1 → t.m_accumulator_stack 1 = t.curr := by
    intro t ht
    unfold NNUE_State.curr
    rw [ht]
  refine ⟨?_, ?_, ?_⟩
  · intro from_piece from_sq to_piece to_sq hf ht hne hfp hfn htb htp hb'
    have hm : ((s0.reset_nnue_order net get_king_pos P order).add_sub net from_piece
        from_sq to_piece to_sq).m_curr = 1 := by
      simp [NNUE_State.add_sub, reset_nnue_order_m_curr]
    refine ⟨hm, fun view hv i hi => ?_⟩
    rw [hc1 _ hm]
    exact add_sub_order_eq_reset net get_king_pos s0 s1 P P' order order' horder horder'
      from_piece from_sq to_piece to_sq hk hf ht hne hfp hfn htb htp hb' view i hv hi
  · intro from_piece from_sq to_piece to_sq captured captured_sq hf ht hc hne hcf hfp hfn
      hcp hcn hto htp hb'
    have hm : ((s0.reset_nnue_order net get_king_pos P order).add_sub_sub net from_piece
        from_sq to_piece to_sq captured captured_sq).m_curr = 1 := by
      simp [NNUE_State.add_sub_sub, reset_nnue_order_m_curr]
    refine ⟨hm, fun view hv i hi => ?_⟩
    rw [hc1 _ hm]
    exact add_sub_sub_order_eq_reset net get_king_pos s0 s1 P P' order order' horder
      horder' from_piece from_sq to_piece to_sq captured captured_sq hk hf ht hc hne hcf
      hfp hfn hcp hcn hto htp hb' view i hv hi
  · intro piece1 from1 to1 piece2 from2 to2 hf1 ht1 hf2 ht2 hff htt hp1 hn1 hp2 hn2
      hb1 hb2 hb'
    have hm : ((s0.reset_nnue_order net get_king_pos P order).add_add_sub_sub net piece1
        from1 to1 piece2 from2 to2).m_curr = 1 := by
      simp [NNUE_State.add_add_sub_sub, reset_nnue_order_m_curr]
    refine ⟨hm, fun view hv i hi => ?_⟩
    rw [hc1 _ hm]
    exact add_add_sub_sub_order_eq_reset net get_king_pos s0 s1 P P' order order' horder
      horder' piece1 from1 to1 piece2 from2 to2 hk hf1 ht1 hf2 ht2 hff htt hp1 hn1 hp2
      hn2 hb1 hb2 hb' view i hv hi

/-- C18 at the pawn move e2-e4 with kings on e1 and e8, the first reset
visiting the squares from 63 down to 0: entry 0 of Black's view in slot 1 after
`add_sub` is the one `reset_nnue` computes for the position after the move. -/
theorem push_eq_reset_any_order_witness :
    ((zeroState.reset_nnue_order netKingD1 kingposOf pawnE2
        (List.range' a1 (SqNone - a1)).reverse).add_sub netKingD1
        Pieces.WPawn 12 Pieces.WPawn 28).m_accumulator_stack 1 1 0 =
      (zeroState.reset_nnue_order netKingD1 kingposOf pawnE4
        (List.range' a1 (SqNone - a1))).curr 1 0 :=
  ((push_eq_reset_any_order netKingD1 kingposOf zeroState zeroState pawnE2 pawnE4
      (List.range' a1 (SqNone - a1)).reverse (List.range' a1 (SqNone - a1))
      (List.reverse_perm _) (List.Perm.refl _) (by decide)).1
      Pieces.WPawn 12 Pieces.WPawn 28 (by decide) (by decide) (by decide)
      (by decide) (by decide) (by decide) (by decide) (fun _ => rfl)).2 1 (by decide) 0
      (by decide)

/-! ## C12: the plies and the history across a call -/

theorem step_state_plies (E : Engine)
    (child : Int → Int → Position → SearchState → Int × SearchState) (hc : KeepsPlies child)
    (beta : Int) (position : Position) (hash : Nat) (m : Move) (ls : LoopState) :
    (step_state E child beta position hash m ls).thread_info.search_ply =
      ls.st.thread_info.search_ply ∧
    (step_state E child beta position hash m ls).thread_info.game_ply =
      ls.st.thread_info.game_ply ∧
    ∀ j < ls.st.thread_info.game_ply,
      (step_state E child beta position hash m ls).thread_info.game_hist j =
        ls.st.thread_info.game_hist j := by
  obtain ⟨h1, h2, h3⟩ := hc (neg32 beta) (neg32 ls.alpha) (E.make_move position m).1
    { ls.st with thread_info := ss_push E position ls.st.thread_info m hash }
  refine ⟨?_, ?_, ?_⟩
  · have e : (step_state E child beta position hash m ls).thread_info.search_ply =
        (child (neg32 beta) (neg32 ls.alpha) (E.make_move position m).1
          { ls.st with thread_info := ss_push E position ls.st.thread_info m hash
            }).2.thread_info.search_ply - 1 := rfl
    rw [e, h1]
    simp only [ss_push]
    omega
  · have e : (step_state E child beta position hash m ls).thread_info.game_ply =
        (child (neg32 beta) (neg32 ls.alpha) (E.make_move position m).1
          { ls.st with thread_info := ss_push E position ls.st.thread_info m hash
            }).2.thread_info.game_ply - 1 := rfl
    rw [e, h2]
    simp only [ss_push]
    omega
  · intro j hj
    have e : (step_state E child beta position hash m ls).thread_info.game_hist j =
        (child (neg32 beta) (neg32 ls.alpha) (E.make_move position m).1
          { ls.st with thread_info := ss_push E position ls.st.thread_info m hash
            }).2.thread_info.game_hist j := rfl
    rw [e, h3 j (by simp only [ss_push]; omega)]
    simp only [ss_push]
    rw [if_neg (by omega)]

theorem move_loop_plies (E : Engine)
    (child : Int → Int → Position → SearchState → Int × SearchState) (hc : KeepsPlies child)
    (beta : Int) (position : Position) (hash : Nat) (moves : List Move) :
    ∀ ls : LoopState,
      (move_loop E child beta position hash moves ls).st.thread_info.search_ply =
        ls.st.thread_info.search_ply ∧
      (move_loop E child beta position hash moves ls).st.thread_info.game_ply =
        ls.st.thread_info.game_ply ∧
      ∀ j < ls.st.thread_info.game_ply,
        (move_loop E child beta position hash moves ls).st.thread_info.game_hist j =
          ls.st.thread_info.game_hist j := by
  induction moves with
  | nil => intro ls; exact ⟨rfl, rfl, fun _ _ => rfl⟩
  | cons m rest ih =>
    intro ls
    by_cases h : (E.make_move position m).2 = true
    · rw [move_loop_cons_rejected E child beta position hash m rest ls h]
      exact ih ls
    · rw [move_loop_cons_legal E child beta position hash m rest ls (by simpa using h)]
      obtain ⟨s1, s2, s3⟩ := step_state_plies E child hc beta position hash m ls
      by_cases hgt : step_score E child beta position hash m ls > ls.best_score
      · rw [if_pos hgt]
        by_cases hge : step_score E child beta position hash m ls ≥ beta
        · rw [if_pos hge]
          exact ⟨s1, s2, s3⟩
        · rw [if_neg hge]
          obtain ⟨i1, i2, i3⟩ := ih (improved ls m (step_score E child beta position hash m ls)
            (step_state E child beta position hash m ls))
          refine ⟨i1.trans s1, i2.trans s2, fun j hj => ?_⟩
          rw [i3 j (by simp only [improved]; omega)]
          exact s3 j hj
      · rw [if_neg hgt]
        obtain ⟨i1, i2, i3⟩ := ih { ls with
          st := step_state E child beta position hash m ls
          searched := ls.searched ++ [(m, step_score E child beta position hash m ls)] }
        refine ⟨i1.trans s1, i2.trans s2, fun j hj => ?_⟩
        rw [i3 j (by simp only; omega)]
        exact s3 j hj

theorem search_moves_plies (E : Engine)
    (child : Int → Int → Position → SearchState → Int × SearchState) (hc : KeepsPlies child)
    (alpha beta depth : Int) (position : Position) (hash : Nat) (st : SearchState) :
    (search_moves E child alpha beta depth position hash st).2.thread_info.search_ply =
      st.thread_info.search_ply ∧
    (search_moves E child alpha beta depth position hash st).2.thread_info.game_ply =
      st.thread_info.game_ply ∧
    ∀ j < st.thread_info.game_ply,
      (search_moves E child alpha beta depth position hash st).2.thread_info.game_hist j =
        st.thread_info.game_hist j := by
  have h := move_loop_plies E child hc beta position hash (E.movegen position)
    (initLoop E alpha st)
  rw [search_moves_eq]
  split
  · exact h
  · exact h

theorem search_aux_plies (E : Engine) : ∀ d : Nat, KeepsPlies (search_aux E d) := by
  intro d
  induction d with
  | zero => intro a b p s; exact ⟨rfl, rfl, fun _ _ => rfl⟩
  | succ d ih =>
    intro a b p s
    have hm := fun depth hash =>
      search_moves_plies E (search_aux E d) ih a b depth p hash (counted s)
    simp only [search_aux]
    split
    · exact ⟨rfl, rfl, fun _ _ => rfl⟩
    · split
      · split
        · split
          · exact ⟨rfl, rfl, fun _ _ => rfl⟩
          · exact hm _ _
        · exact hm _ _
      · exact hm _ _

/-- C12: for every call to `search`, whichever way it returns, `search_ply` and
`game_ply` have on return the values they had on entry, and the history entries
at indices below the entry-time `game_ply` are unchanged; `ss_push` increments
both plies by one and writes `game_hist` at the old `game_ply`, and `ss_pop`
after it gives both plies their old values. -/
theorem search_restores_plies (E : Engine) (alpha beta depth : Int) (position : Position)
    (st : SearchState) :
    (search E alpha beta depth position st).2.thread_info.search_ply =
      st.thread_info.search_ply ∧
    (search E alpha beta depth position st).2.thread_info.game_ply =
      st.thread_info.game_ply ∧
    (∀ j < st.thread_info.game_ply,
      (search E alpha beta depth position st).2.thread_info.game_hist j =
        st.thread_info.game_hist j) ∧
    (∀ (move : Move) (hash : Nat),
      (ss_push E position st.thread_info move hash).search_ply =
        st.thread_info.search_ply + 1 ∧
      (ss_push E position st.thread_info move hash).game_ply =
        st.thread_info.game_ply + 1 ∧
      (ss_push E position st.thread_info move hash).game_hist st.thread_info.game_ply =
        { position_key := hash, played_move := move,
          piece_moved := position.board (E.extract_from move) } ∧
      (ss_pop (ss_push E position st.thread_info move hash)).search_ply =
        st.thread_info.search_ply ∧
      (ss_pop (ss_push E position st.thread_info move hash)).game_ply =
        st.thread_info.game_ply) := by
  obtain ⟨h1, h2, h3⟩ := search_aux_plies E depth.toNat alpha beta position st
  refine ⟨h1, h2, h3, fun move hash => ⟨rfl, rfl, ?_, ?_, ?_⟩⟩
  · simp [ss_push]
  · simp [ss_pop, ss_push]
  · simp [ss_pop, ss_push]

/-- C12 at the small engine: a search of depth 2 started at ply 1 ends at
ply 1. -/
theorem search_restores_plies_witness :
    (search toyEngine (-100001) 100001 2 toyPosition toyState).2.thread_info.search_ply = 1 ∧
    (search toyEngine (-100001) 100001 2 toyPosition toyState).2.thread_info.game_ply = 1 :=
  ⟨(search_restores_plies toyEngine (-100001) 100001 2 toyPosition toyState).1,
   (search_restores_plies toyEngine (-100001) 100001 2 toyPosition toyState).2.1⟩

/-! ## C13: the node counter -/

theorem loop_events_cons_rejected (E : Engine)
    (child : Int → Int → Position → SearchState → Int × SearchState)
    (child_events : Int → Int → Position → SearchState → List Event) (beta : Int)
    (position : Position) (hash : Nat) (m : Move) (rest : List Move) (ls : LoopState)
    (h : (E.make_move position m).2 = true) :
    loop_events E child child_events beta position hash (m :: rest) ls =
      loop_events E child child_events beta position hash rest ls := by
  rw [loop_events]
  simp only [h, if_true]

theorem loop_events_cons_legal (E : Engine)
    (child : Int → Int → Position → SearchState → Int × SearchState)
    (child_events : Int → Int → Position → SearchState → List Event) (beta : Int)
    (position : Position) (hash : Nat) (m : Move) (rest : List Move) (ls : LoopState)
    (h : (E.make_move position m).2 = false) :
    loop_events E child child_events beta position hash (m :: rest) ls =
      Event.write ls.st.thread_info.game_ply ::
        (child_events (neg32 beta) (neg32 ls.alpha) (E.make_move position m).1
            { ls.st with thread_info := ss_push E position ls.st.thread_info m hash } ++
          if step_score E child beta position hash m ls > ls.best_score then
            if step_score E child beta position hash m ls ≥ beta then []
            else
              loop_events E child child_events beta position hash rest
                (improved ls m (step_score E child beta position hash m ls)
                  (step_state E child beta position hash m ls))
          else
            loop_events E child child_events beta position hash rest
              { ls with
                st := step_state E child beta position hash m ls
                searched := ls.searched ++
                  [(m, step_score E child beta position hash m ls)] }) := by
  rw [loop_events]
  simp only [h, Bool.false_eq_true, if_false]

theorem step_state_nodes (E : Engine)
    (child : Int → Int → Position → SearchState → Int × SearchState)
    (child_events : Int → Int → Position → SearchState → List Event)
    (hc : CountsNodes child child_events)
    (beta : Int) (position : Position) (hash : Nat) (m : Move) (ls : LoopState) :
    (step_state E child beta position hash m ls).thread_info.nodes =
      ls.st.thread_info.nodes +
        (child_events (neg32 beta) (neg32 ls.alpha) (E.make_move position m).1
          { ls.st with thread_info := ss_push E position ls.st.thread_info m hash }).count
          Event.call := by
  have e : (step_state E child beta position hash m ls).thread_info.nodes =
      (child (neg32 beta) (neg32 ls.alpha) (E.make_move position m).1
        { ls.st with thread_info := ss_push E position ls.st.thread_info m hash
          }).2.thread_info.nodes := rfl
  rw [e, hc]
  rfl

theorem move_loop_nodes (E : Engine)
    (child : Int → Int → Position → SearchState → Int × SearchState)
    (child_events : Int → Int → Position → SearchState → List Event)
    (hc : CountsNodes child child_events)
    (beta : Int) (position : Position) (hash : Nat) (moves : List Move) :
    ∀ ls : LoopState,
      (move_loop E child beta position hash moves ls).st.thread_info.nodes =
        ls.st.thread_info.nodes +
          (loop_events E child child_events beta position hash moves ls).count Event.call := by
  induction moves with
  | nil => intro ls; simp [move_loop, loop_events]
  | cons m rest ih =>
    intro ls
    by_cases h : (E.make_move position m).2 = true
    · rw [move_loop_cons_rejected E child beta position hash m rest ls h,
        loop_events_cons_rejected E child child_events beta position hash m rest ls h]
      exact ih ls
    · rw [move_loop_cons_legal E child beta position hash m rest ls (by simpa using h),
        loop_events_cons_legal E child child_events beta position hash m rest ls
          (by simpa using h)]
      have hs := step_state_nodes E child child_events hc beta position hash m ls
      have hw : ∀ l : List Event, (Event.write ls.st.thread_info.game_ply :: l).count
          Event.call = l.count Event.call := by
        intro l
        rw [List.count_cons_of_ne (by simp)]
      rw [hw, List.count_append]
      by_cases hgt : step_score E child beta position hash m ls > ls.best_score
      · rw [if_pos hgt, if_pos hgt]
        by_cases hge : step_score E child beta position hash m ls ≥ beta
        · rw [if_pos hge, if_pos hge, List.count_nil, Nat.add_zero]
          exact hs
        · rw [if_neg hge, if_neg hge, ih]
          have e : (improved ls m (step_score E child beta position hash m ls)
              (step_state E child beta position hash m ls)).st =
              step_state E child beta position hash m ls := rfl
          rw [e, hs, Nat.add_assoc]
      · rw [if_neg hgt, if_neg hgt, ih]
        have e : ({ ls with
            st := step_state E child beta position hash m ls
            searched := ls.searched ++ [(m, step_score E child beta position hash m ls)] } :
              LoopState).st = step_state E child beta position hash m ls := rfl
        rw [e, hs, Nat.add_assoc]

theorem count_call_map_read (l : List Int) : (l.map Event.read).count Event.call = 0 := by
  induction l with
  | nil => rfl
  | cons x rest ih =>
    rw [List.map_cons, List.count_cons_of_ne (by simp), ih]

theorem search_moves_nodes (E : Engine)
    (child : Int → Int → Position → SearchState → Int × SearchState)
    (child_events : Int → Int → Position → SearchState → List Event)
    (hc : CountsNodes child child_events)
    (alpha beta depth : Int) (position : Position) (hash : Nat) (st : SearchState) :
    (search_moves E child alpha beta depth position hash st).2.thread_info.nodes =
      st.thread_info.nodes +
        (loop_events E child child_events beta position hash (E.movegen position)
          (initLoop E alpha st)).count Event.call := by
  have h := move_loop_nodes E child child_events hc beta position hash (E.movegen position)
    (initLoop E alpha st)
  rw [search_moves_eq]
  split
  · exact h
  · exact h

/-- One step of `search_aux` at `d + 1`, with the early returns in the order of
the source. -/
theorem search_aux_step (E : Engine) (d : Nat) (alpha beta : Int) (position : Position)
    (st : SearchState) :
    search_aux E (d + 1) alpha beta position st =
      if st.thread_info.search_ply ≠ 0 ∧
          is_draw position st.thread_info (E.calculate position) = true then
        (2 - (((counted st).thread_info.nodes &&& 3 : Nat) : Int), counted st)
      else if (st.TT (E.calculate position &&& E.TT_mask)).position_key =
            E.get_hash_upper_bits (E.calculate position) ∧
          st.thread_info.search_ply ≠ 0 ∧
          tt_cutoff E alpha beta ((d + 1 : Nat) : Int)
            (st.TT (E.calculate position &&& E.TT_mask)) st.thread_info.search_ply then
        (probe_score E (st.TT (E.calculate position &&& E.TT_mask))
          st.thread_info.search_ply, counted st)
      else
        search_moves E (search_aux E d) alpha beta ((d + 1 : Nat) : Int)
          position (E.calculate position) (counted st) := by
  have h := search_step E alpha beta ((d + 1 : Nat) : Int) position st (by omega)
  have e1 : search E alpha beta ((d + 1 : Nat) : Int) position st =
      search_aux E (d + 1) alpha beta position st := by
    unfold search
    congr 1
  have e2 : (fun a b p s => search E a b (((d + 1 : Nat) : Int) - 1) p s) =
      search_aux E d := by
    rw [← search_child_eq]
    have e3 : (((d + 1 : Nat) : Int) - 1).toNat = d := by omega
    rw [e3]
  rw [e1, e2] at h
  exact h

/-- One step of `search_events` at `d + 1`, branch by branch as
`search_aux_step`. -/
theorem search_events_step (E : Engine) (d : Nat) (alpha beta : Int) (position : Position)
    (st : SearchState) :
    search_events E (d + 1) alpha beta position st =
      Event.call ::
        ((if st.thread_info.search_ply ≠ 0 then
            (is_draw_reads position st.thread_info (E.calculate position)).map Event.read
          else []) ++
        if st.thread_info.search_ply ≠ 0 ∧
            is_draw position st.thread_info (E.calculate position) = true then []
        else if (st.TT (E.calculate position &&& E.TT_mask)).position_key =
              E.get_hash_upper_bits (E.calculate position) ∧
            st.thread_info.search_ply ≠ 0 ∧
            tt_cutoff E alpha beta ((d + 1 : Nat) : Int)
              (st.TT (E.calculate position &&& E.TT_mask)) st.thread_info.search_ply then []
        else
          loop_events E (search_aux E d) (search_events E d) beta position
            (E.calculate position) (E.movegen position) (initLoop E alpha (counted st))) := by
  simp only [search_events]
  have hr : is_draw_reads position (counted st).thread_info (E.calculate position) =
      is_draw_reads position st.thread_info (E.calculate position) := rfl
  have hd : is_draw position (counted st).thread_info (E.calculate position) =
      is_draw position st.thread_info (E.calculate position) := rfl
  have hp : (counted st).thread_info.search_ply = st.thread_info.search_ply := rfl
  have ht : (counted st).TT = st.TT := rfl
  rw [hr, hd, hp, ht]
  generalize ((d + 1 : Nat) : Int) = depth
  congr 1
  by_cases hroot : st.thread_info.search_ply = 0
  · simp [hroot]
  · by_cases hdraw : is_draw position st.thread_info (E.calculate position) = true
    · simp [hroot, hdraw]
    · by_cases hkey : (st.TT (E.calculate position &&& E.TT_mask)).position_key =
          E.get_hash_upper_bits (E.calculate position)
      · by_cases hcut : tt_cutoff E alpha beta depth
            (st.TT (E.calculate position &&& E.TT_mask)) st.thread_info.search_ply
        · have hcut' := hcut
          unfold tt_cutoff at hcut'
          simp [hroot, hdraw, hkey, hcut, hcut'.1, hcut'.2]
        · unfold tt_cutoff at hcut
          by_cases hdp : (st.TT (E.calculate position &&& E.TT_mask)).depth ≥ depth
          · have hty := fun h => hcut ⟨hdp, h⟩
            simp [hroot, hdraw, hkey, hdp, hty, tt_cutoff]
          · simp [hroot, hdraw, hkey, hdp, tt_cutoff]
      · simp [hroot, hdraw, hkey]

theorem count_call_reads (c : Prop) [Decidable c] (l : List Int) :
    (if c then l.map Event.read else []).count Event.call = 0 := by
  split
  · exact count_call_map_read l
  · rfl

theorem search_aux_nodes (E : Engine) :
    ∀ d : Nat, CountsNodes (search_aux E d) (search_events E d) := by
  intro d
  induction d with
  | zero => intro a b p s; rfl
  | succ d ih =>
    intro a b p s
    have hm := search_moves_nodes E (search_aux E d) (search_events E d) ih a b
      ((d + 1 : Nat) : Int) p (E.calculate p) (counted s)
    have hc : (counted s).thread_info.nodes = s.thread_info.nodes + 1 := rfl
    rw [search_aux_step, search_events_step, List.count_cons_self, List.count_append,
      count_call_reads, Nat.zero_add]
    by_cases h1 : s.thread_info.search_ply ≠ 0 ∧
        is_draw p s.thread_info (E.calculate p) = true
    · rw [if_pos h1, if_pos h1, List.count_nil]
      rfl
    · rw [if_neg h1, if_neg h1]
      by_cases h2 : (s.TT (E.calculate p &&& E.TT_mask)).position_key =
            E.get_hash_upper_bits (E.calculate p) ∧
          s.thread_info.search_ply ≠ 0 ∧
          tt_cutoff E a b ((d + 1 : Nat) : Int)
            (s.TT (E.calculate p &&& E.TT_mask)) s.thread_info.search_ply
      · rw [if_pos h2, if_pos h2, List.count_nil]
        rfl
      · rw [if_neg h2, if_neg h2, hm, hc]
        omega

theorem search_events_head (E : Engine) (d : Nat) (alpha beta : Int) (position : Position)
    (st : SearchState) :
    ∃ t, search_events E d alpha beta position st = Event.call :: t := by
  cases d with
  | zero => exact ⟨[], rfl⟩
  | succ d => exact ⟨_, search_events_step E d alpha beta position st⟩

/-- C13: every call to `search` leaves the node counter strictly greater than
it found it: the counter goes up by the number of invocations of `search` the
call comprises, the call itself being the first of them (counted before any
return); and `iterative_deepen` sets `nodes` and `search_ply` to zero before its
first call of `search`. -/
theorem search_counts_nodes (E : Engine) (alpha beta depth : Int) (position : Position)
    (st : SearchState) :
    (search E alpha beta depth position st).2.thread_info.nodes =
      st.thread_info.nodes +
        (search_events E depth.toNat alpha beta position st).count Event.call ∧
    (∃ t, search_events E depth.toNat alpha beta position st = Event.call :: t) ∧
    st.thread_info.nodes < (search E alpha beta depth position st).2.thread_info.nodes ∧
    (deepen_start st).thread_info.nodes = 0 ∧
    (deepen_start st).thread_info.search_ply = 0 ∧
    ∀ MaxSearchDepth : Nat,
      iterative_deepen E (MaxSearchDepth + 1) position st =
        (List.range' 2 MaxSearchDepth).foldl (deepen_step E position)
          (deepen_step E position (deepen_start st, []) 1) ∧
      (deepen_step E position (deepen_start st, []) 1).1 =
        (search E INT32_MIN INT32_MAX 1 position (deepen_start st)).2 := by
  have hn := search_aux_nodes E depth.toNat alpha beta position st
  obtain ⟨t, ht⟩ := search_events_head E depth.toNat alpha beta position st
  refine ⟨hn, ⟨t, ht⟩, ?_, rfl, rfl, fun M => ⟨?_, rfl⟩⟩
  · unfold search
    rw [hn, ht, List.count_cons_self]
    omega
  · unfold iterative_deepen
    rw [List.range'_succ, List.foldl_cons]

/-- C13 at the small engine: a search of depth 2 on a position with one move,
after which the opponent has none, is two invocations and raises `nodes` from
0 to 2. -/
theorem search_counts_nodes_witness :
    (search toyEngine (-100001) 100001 2 toyPosition toyState).2.thread_info.nodes = 2 :=
  (search_counts_nodes toyEngine (-100001) 100001 2 toyPosition toyState).1.trans
    (by decide)

/-! ## C20: the indices into `game_hist` -/

theorem is_draw_scan_reads_bounds (game_hist : Int → GameHistory) (hash : Nat)
    (end_indx : Int) :
    ∀ (rounds : Nat) (i : Int),
      ∀ j ∈ is_draw_scan_reads game_hist hash end_indx rounds i, end_indx ≤ j ∧ j ≤ i := by
  intro rounds
  induction rounds with
  | zero => intro i j hj; simp [is_draw_scan_reads] at hj
  | succ rounds ih =>
    intro i j hj
    unfold is_draw_scan_reads at hj
    by_cases hge : i ≥ end_indx
    · rw [if_pos hge] at hj
      rcases List.mem_cons.mp hj with rfl | hj
      · exact ⟨hge, le_refl _⟩
      · by_cases hh : hash = (game_hist i).position_key
        · rw [if_pos hh] at hj
          exact absurd hj (List.not_mem_nil j)
        · rw [if_neg hh] at hj
          have := ih (i - 2) j hj
          omega
    · rw [if_neg hge] at hj
      exact absurd hj (List.not_mem_nil j)

/-- The result of the repetition loop is decided by the entries it reads. -/
theorem is_draw_scan_eq_any (game_hist : Int → GameHistory) (hash : Nat) (end_indx : Int) :
    ∀ (rounds : Nat) (i : Int),
      is_draw_scan game_hist hash end_indx rounds i =
        (is_draw_scan_reads game_hist hash end_indx rounds i).any
          (fun j => decide (hash = (game_hist j).position_key)) := by
  intro rounds
  induction rounds with
  | zero => intro i; rfl
  | succ rounds ih =>
    intro i
    unfold is_draw_scan is_draw_scan_reads
    by_cases hge : i ≥ end_indx
    · rw [if_pos hge, if_pos hge]
      by_cases hh : hash = (game_hist i).position_key
      · simp [hh]
      · rw [if_neg hh, if_neg hh, ih (i - 2)]
        simp [hh]
    · rw [if_neg hge, if_neg hge]
      rfl

theorem is_draw_reads_bounds (position : Position) (thread_info : ThreadInfo) (hash : Nat) :
    ∀ j ∈ is_draw_reads position thread_info hash,
      0 ≤ j ∧ thread_info.game_ply - (position.halfmoves : Int) ≤ j ∧
        j ≤ thread_info.game_ply - 4 := by
  intro j hj
  unfold is_draw_reads at hj
  simp only at hj
  split at hj
  · exact absurd hj (List.not_mem_nil j)
  · split at hj
    · exact absurd hj (List.not_mem_nil j)
    · have := is_draw_scan_reads_bounds _ _ _ _ _ j hj
      omega

theorem loop_events_bounds (E : Engine)
    (child : Int → Int → Position → SearchState → Int × SearchState)
    (child_events : Int → Int → Position → SearchState → List Event)
    (hc : KeepsPlies child) (d : Nat) (hb : EventsInBounds child_events d)
    (beta : Int) (position : Position) (hash : Nat) (moves : List Move) :
    ∀ ls : LoopState, 0 ≤ ls.st.thread_info.game_ply →
      ls.st.thread_info.game_ply + ((d + 1 : Nat) : Int) ≤ 1000 →
      ∀ e ∈ loop_events E child child_events beta position hash moves ls, e.InBounds := by
  induction moves with
  | nil => intro ls _ _ e he; simp [loop_events] at he
  | cons m rest ih =>
    intro ls h0 h1 e he
    by_cases h : (E.make_move position m).2 = true
    · rw [loop_events_cons_rejected E child child_events beta position hash m rest ls h] at he
      exact ih ls h0 h1 e he
    · rw [loop_events_cons_legal E child child_events beta position hash m rest ls
        (by simpa using h)] at he
      obtain ⟨-, s2, -⟩ := step_state_plies E child hc beta position hash m ls
      rcases List.mem_cons.mp he with rfl | he
      · show 0 ≤ ls.st.thread_info.game_ply ∧ ls.st.thread_info.game_ply < 1000
        push_cast at h1
        omega
      · rcases List.mem_append.mp he with he | he
        · refine hb _ _ _ _ ?_ ?_ e he
          · show 0 ≤ ls.st.thread_info.game_ply + 1
            omega
          · show ls.st.thread_info.game_ply + 1 + (d : Int) ≤ 1000
            push_cast at h1
            omega
        · by_cases hgt : step_score E child beta position hash m ls > ls.best_score
          · rw [if_pos hgt] at he
            by_cases hge : step_score E child beta position hash m ls ≥ beta
            · rw [if_pos hge] at he
              exact absurd he (List.not_mem_nil e)
            · rw [if_neg hge] at he
              refine ih _ ?_ ?_ e he
              · show 0 ≤ (step_state E child beta position hash m ls).thread_info.game_ply
                rw [s2]; exact h0
              · show (step_state E child beta position hash m ls).thread_info.game_ply + _ ≤ _
                rw [s2]; exact h1
          · rw [if_neg hgt] at he
            refine ih _ ?_ ?_ e he
            · show 0 ≤ (step_state E child beta position hash m ls).thread_info.game_ply
              rw [s2]; exact h0
            · show (step_state E child beta position hash m ls).thread_info.game_ply + _ ≤ _
              rw [s2]; exact h1

theorem search_events_bounds (E : Engine) :
    ∀ d : Nat, EventsInBounds (search_events E d) d := by
  intro d
  induction d with
  | zero =>
    intro a b p s _ _ e he
    simp only [search_events, List.mem_singleton] at he
    rw [he]
    trivial
  | succ d ih =>
    intro a b p s h0 h1 e he
    rw [search_events_step] at he
    rcases List.mem_cons.mp he with rfl | he
    · trivial
    · rcases List.mem_append.mp he with he | he
      · split at he
        · obtain ⟨j, hj, rfl⟩ := List.mem_map.mp he
          have := is_draw_reads_bounds p s.thread_info (E.calculate p) j hj
          show 0 ≤ j ∧ j < 1000
          push_cast at h1
          omega
        · exact absurd he (List.not_mem_nil e)
      · split at he
        · exact absurd he (List.not_mem_nil e)
        · split at he
          · exact absurd he (List.not_mem_nil e)
          · exact loop_events_bounds E (search_aux E d) (search_events E d)
              (search_aux_plies E d) d ih b p (E.calculate p) (E.movegen p)
              (initLoop E a (counted s)) h0 h1 e he

/-- The function `ss_push` writes `game_hist` at the old `game_ply` and nowhere
else. -/
theorem ss_push_frame (E : Engine) (position : Position) (thread_info : ThreadInfo)
    (move : Move) (hash : Nat) :
    (ss_push E position thread_info move hash).game_hist thread_info.game_ply =
      { position_key := hash, played_move := move,
        piece_moved := position.board (E.extract_from move) } ∧
    ∀ j, j ≠ thread_info.game_ply →
      (ss_push E position thread_info move hash).game_hist j = thread_info.game_hist j := by
  constructor
  · simp [ss_push]
  · intro j hj
    simp [ss_push, hj]

theorem ss_pop_hist (thread_info : ThreadInfo) :
    (ss_pop thread_info).game_hist = thread_info.game_hist := rfl

theorem step_state_hist (E : Engine)
    (child : Int → Int → Position → SearchState → Int × SearchState)
    (child_events : Int → Int → Position → SearchState → List Event)
    (hc : WritesListed child child_events)
    (beta : Int) (position : Position) (hash : Nat) (m : Move) (ls : LoopState) (j : Int)
    (hj : j ≠ ls.st.thread_info.game_ply)
    (hw : Event.write j ∉ child_events (neg32 beta) (neg32 ls.alpha)
      (E.make_move position m).1
      { ls.st with thread_info := ss_push E position ls.st.thread_info m hash }) :
    (step_state E child beta position hash m ls).thread_info.game_hist j =
      ls.st.thread_info.game_hist j := by
  have e : (step_state E child beta position hash m ls).thread_info.game_hist j =
      (child (neg32 beta) (neg32 ls.alpha) (E.make_move position m).1
        { ls.st with thread_info := ss_push E position ls.st.thread_info m hash
          }).2.thread_info.game_hist j := rfl
  rw [e, hc _ _ _ _ j hw]
  exact (ss_push_frame E position ls.st.thread_info m hash).2 j hj

theorem move_loop_hist (E : Engine)
    (child : Int → Int → Position → SearchState → Int × SearchState)
    (child_events : Int → Int → Position → SearchState → List Event)
    (hc : WritesListed child child_events)
    (beta : Int) (position : Position) (hash : Nat) (moves : List Move) :
    ∀ (ls : LoopState) (j : Int),
      Event.write j ∉ loop_events E child child_events beta position hash moves ls →
      (move_loop E child beta position hash moves ls).st.thread_info.game_hist j =
        ls.st.thread_info.game_hist j := by
  induction moves with
  | nil => intro ls j _; rfl
  | cons m rest ih =>
    intro ls j hw
    by_cases h : (E.make_move position m).2 = true
    · rw [loop_events_cons_rejected E child child_events beta position hash m rest ls h] at hw
      rw [move_loop_cons_rejected E child beta position hash m rest ls h]
      exact ih ls j hw
    · rw [loop_events_cons_legal E child child_events beta position hash m rest ls
        (by simpa using h)] at hw
      rw [move_loop_cons_legal E child beta position hash m rest ls (by simpa using h)]
      have hne : j ≠ ls.st.thread_info.game_ply := by
        intro hjg
        exact hw (by rw [hjg]; exact List.mem_cons_self _ _)
      have hce : Event.write j ∉ child_events (neg32 beta) (neg32 ls.alpha)
          (E.make_move position m).1
          { ls.st with thread_info := ss_push E position ls.st.thread_info m hash } :=
        fun hmem => hw (List.mem_cons_of_mem _ (List.mem_append_left _ hmem))
      have hs := step_state_hist E child child_events hc beta position hash m ls j hne hce
      by_cases hgt : step_score E child beta position hash m ls > ls.best_score
      · rw [if_pos hgt] at hw ⊢
        by_cases hge : step_score E child beta position hash m ls ≥ beta
        · rw [if_pos hge]
          exact hs
        · rw [if_neg hge] at hw ⊢
          rw [ih _ j (fun hmem => hw (List.mem_cons_of_mem _ (List.mem_append_right _ hmem)))]
          exact hs
      · rw [if_neg hgt] at hw ⊢
        rw [ih _ j (fun hmem => hw (List.mem_cons_of_mem _ (List.mem_append_right _ hmem)))]
        exact hs

theorem search_moves_hist (E : Engine)
    (child : Int → Int → Position → SearchState → Int × SearchState)
    (child_events : Int → Int → Position → SearchState → List Event)
    (hc : WritesListed child child_events)
    (alpha beta depth : Int) (position : Position) (hash : Nat) (st : SearchState) (j : Int)
    (hw : Event.write j ∉ loop_events E child child_events beta position hash
      (E.movegen position) (initLoop E alpha st)) :
    (search_moves E child alpha beta depth position hash st).2.thread_info.game_hist j =
      st.thread_info.game_hist j := by
  have h := move_loop_hist E child child_events hc beta position hash (E.movegen position)
    (initLoop E alpha st) j hw
  rw [search_moves_eq]
  split
  · exact h
  · exact h

/-- A call of `search` changes `game_hist` only at indices that its events list
as written. -/
theorem search_aux_hist (E : Engine) :
    ∀ d : Nat, WritesListed (search_aux E d) (search_events E d) := by
  intro d
  induction d with
  | zero => intro a b p s j _; rfl
  | succ d ih =>
    intro a b p s j hw
    rw [search_events_step] at hw
    rw [search_aux_step]
    by_cases h1 : s.thread_info.search_ply ≠ 0 ∧
        is_draw p s.thread_info (E.calculate p) = true
    · rw [if_pos h1]
      rfl
    · rw [if_neg h1] at hw ⊢
      by_cases h2 : (s.TT (E.calculate p &&& E.TT_mask)).position_key =
            E.get_hash_upper_bits (E.calculate p) ∧
          s.thread_info.search_ply ≠ 0 ∧
          tt_cutoff E a b ((d + 1 : Nat) : Int)
            (s.TT (E.calculate p &&& E.TT_mask)) s.thread_info.search_ply
      · rw [if_pos h2]
        rfl
      · rw [if_neg h2] at hw ⊢
        exact search_moves_hist E (search_aux E d) (search_events E d) ih a b _ p _
          (counted s) j
          (fun hmem => hw (List.mem_cons_of_mem _ (List.mem_append_right _ hmem)))

/-- C20: during any call `search(..., depth, ...)` entered with `game_ply >= 0`
and `game_ply + max(depth, 0) <= 1000`, every index used to write `game_hist`
(in `ss_push`) or to read it (in the repetition scan of `is_draw`) lies in
`[0, 1000)`. The writes are those of `ss_push`: every index at which the call
leaves `game_hist` changed is a listed write and lies in `[0, 1000)`, `ss_push`
stores its record at the old `game_ply` and changes no other index, and `ss_pop`
changes none. In any state `is_draw` reads only indices `i` with `0 <= i`,
`game_ply - halfmoves <= i <= game_ply - 4`, so none at all when `game_ply < 4`
and none that is negative when `halfmoves` exceeds `game_ply`. -/
theorem search_hist_indices (E : Engine) (alpha beta depth : Int) (position : Position)
    (st : SearchState) (h0 : 0 ≤ st.thread_info.game_ply)
    (h1 : st.thread_info.game_ply + max depth 0 ≤ 1000) :
    (∀ i, (Event.write i ∈ search_events E depth.toNat alpha beta position st ∨
        Event.read i ∈ search_events E depth.toNat alpha beta position st) →
      0 ≤ i ∧ i < 1000) ∧
    (∀ j, (search E alpha beta depth position st).2.thread_info.game_hist j ≠
        st.thread_info.game_hist j →
      Event.write j ∈ search_events E depth.toNat alpha beta position st ∧
        0 ≤ j ∧ j < 1000) ∧
    (∀ (p : Position) (ti : ThreadInfo) (m : Move) (hash : Nat),
      (ss_push E p ti m hash).game_hist ti.game_ply =
        { position_key := hash, played_move := m,
          piece_moved := p.board (E.extract_from m) } ∧
      (∀ j, j ≠ ti.game_ply → (ss_push E p ti m hash).game_hist j = ti.game_hist j) ∧
      (ss_pop ti).game_hist = ti.game_hist) ∧
    (∀ (p : Position) (ti : ThreadInfo) (hash : Nat),
      (∀ j ∈ is_draw_reads p ti hash,
        0 ≤ j ∧ ti.game_ply - (p.halfmoves : Int) ≤ j ∧ j ≤ ti.game_ply - 4) ∧
      (ti.game_ply < 4 → is_draw_reads p ti hash = []) ∧
      is_draw p ti hash =
        (decide ((p.halfmoves : Int) ≥ 100) || material_draw p ||
          (is_draw_reads p ti hash).any
            (fun j => decide (hash = (ti.game_hist j).position_key)))) := by
  have hb := search_events_bounds E depth.toNat alpha beta position st h0 (by omega)
  refine ⟨?_, ?_, fun p ti m hash => ⟨(ss_push_frame E p ti m hash).1,
    (ss_push_frame E p ti m hash).2, ss_pop_hist ti⟩,
    fun p ti hash => ⟨is_draw_reads_bounds p ti hash, ?_, ?_⟩⟩
  · rintro i (hi | hi)
    · exact hb _ hi
    · exact hb _ hi
  · intro j hj
    have hmem : Event.write j ∈ search_events E depth.toNat alpha beta position st := by
      by_contra hn
      exact hj (search_aux_hist E depth.toNat alpha beta position st j hn)
    exact ⟨hmem, hb _ hmem⟩
  · intro hlt
    apply List.eq_nil_iff_forall_not_mem.mpr
    intro j hj
    have := is_draw_reads_bounds p ti hash j hj
    omega
  · unfold is_draw is_draw_reads
    by_cases h100 : (p.halfmoves : Int) ≥ 100
    · simp [h100]
    · by_cases hm : material_draw p = true
      · simp [h100, hm]
      · simp only [h100, hm, if_false, decide_False, Bool.false_or, Bool.false_eq_true]
        exact is_draw_scan_eq_any _ _ _ _ _

/-- C20 at the small engine: a search of depth 2 entered at game ply 1 changes
`game_hist` at index 1, which is the listed write and lies in `[0, 1000)`. -/
theorem search_hist_indices_witness :
    (search toyEngine (-100001) 100001 2 toyPosition toyState).2.thread_info.game_hist 1 ≠
      toyState.thread_info.game_hist 1 ∧
    Event.write 1 ∈ search_events toyEngine 2 (-100001) 100001 toyPosition toyState ∧
    (0 : Int) ≤ 1 ∧ (1 : Int) < 1000 :=
  ⟨by decide,
    (search_hist_indices toyEngine (-100001) 100001 2 toyPosition toyState
      (by decide) (by decide)).2.1 1 (by decide)⟩

/-! ## C19: the window of the child -/

/-- For a window inside the 32-bit range whose lower end is not `INT32_MIN`,
the window of the child is computed without overflow and is well-formed. -/
theorem child_window_ok (alpha beta : Int) (hab : alpha < beta)
    (ha : INT32_MIN < alpha) (hb : beta ≤ INT32_MAX) :
    InInt32 (-beta) ∧ InInt32 (-alpha) ∧ neg32 beta = -beta ∧ neg32 alpha = -alpha ∧
    neg32 beta < neg32 alpha := by
  unfold INT32_MIN at ha
  unfold INT32_MAX at hb
  unfold InInt32 neg32 wrap32
  omega

/-- C19 evaluated on the code: the root call `search(INT32_MIN, INT32_MAX, ...)`
of `iterative_deepen` has `alpha < beta`, but `-alpha` does not fit 32 bits; in
two's complement the first child is searched with the window
`(-2147483647, -2147483648)`, its alpha above its beta. On a game tree with two
moves per position whose value at depth 2 is 400, the second line
`iterative_deepen` prints has score 500, while the search of depth 2 with the
window `(-INT32_MAX, INT32_MAX)` returns 400. -/
theorem root_child_window_overflows :
    INT32_MIN < INT32_MAX ∧ ¬ InInt32 (-INT32_MIN) ∧
    neg32 INT32_MAX = -2147483647 ∧ neg32 INT32_MIN = -2147483648 ∧
    ¬ (neg32 INT32_MAX < neg32 INT32_MIN) ∧
    ((iterative_deepen treeEngine 2 toyPosition toyState).2.map
      (fun line => (line.1, line.2.1))) = [(1, 300), (2, 500)] ∧
    (search treeEngine (-INT32_MAX) INT32_MAX 2 toyPosition (deepen_start toyState)).1 =
      400 := by
  decide

/-! ## C15: the vectorised branch against the scalar branch -/

theorem wrap32_add_left (a b : Int) : wrap32 (wrap32 a + b) = wrap32 (a + b) := by
  unfold wrap32; omega

theorem wrap32_add_right (a b : Int) : wrap32 (a + wrap32 b) = wrap32 (a + b) := by
  unfold wrap32; omega

theorem wrap16_of_InInt16 (x : Int) (h : InInt16 x) : wrap16 x = x := by
  unfold InInt16 at h
  unfold wrap16
  omega

/-- The scalar loop holds the 32-bit wrap of the exact sum of its terms. -/
theorem screlu_flatten_loop_eq_wrap (us them weights : Nat → Int) (n : Nat) :
    screlu_flatten_loop us them weights n =
      wrap32 (∑ i ∈ Finset.range n, scalarTerm us them weights i) := by
  induction n with
  | zero => simp [screlu_flatten_loop, wrap32]
  | succ n ih =>
    simp only [screlu_flatten_loop, Finset.sum_range_succ, ih, scalarTerm, LAYER1_SIZE]
    generalize (∑ i ∈ Finset.range n, (screlu (us i) * weights i +
      screlu (them i) * weights (768 + i))) = S
    generalize screlu (us n) * weights n = A
    generalize screlu (them n) * weights (768 + n) = B
    unfold wrap32
    omega

/-- The 32-bit wrap of a sum of wrapped summands is the wrap of the sum. -/
theorem wrap32_sum_wrap32 (f : Nat → Int) (n : Nat) :
    wrap32 (∑ k ∈ Finset.range n, wrap32 (f k)) = wrap32 (∑ k ∈ Finset.range n, f k) := by
  induction n with
  | zero => rfl
  | succ n ih =>
    rw [Finset.sum_range_succ, Finset.sum_range_succ, wrap32_add_right,
      ← wrap32_add_left, ih, wrap32_add_left]

theorem sum_pairs (f : Nat → Int) (h : Nat) :
    ∑ k ∈ Finset.range h, (f (2 * k) + f (2 * k + 1)) = ∑ j ∈ Finset.range (2 * h), f j := by
  induction h with
  | zero => rfl
  | succ h ih =>
    rw [Finset.sum_range_succ, ih, show 2 * (h + 1) = 2 * h + 1 + 1 from by ring,
      Finset.sum_range_succ, Finset.sum_range_succ]
    ring

theorem sum_blocks (g : Nat → Int) (R n : Nat) :
    ∑ c ∈ Finset.range n, ∑ j ∈ Finset.range R, g (c * R + j) =
      ∑ i ∈ Finset.range (n * R), g i := by
  induction n with
  | zero => simp
  | succ n ih =>
    rw [Finset.sum_range_succ, ih, show (n + 1) * R = n * R + R from by ring,
      Finset.sum_range_add]

/-- Lane `k` of the register after `n` rounds. -/
theorem screlu_flatten_vec_loop_lane (R : Nat) (us them weights : Nat → Int) (n k : Nat) :
    screlu_flatten_vec_loop R us them weights n k =
      wrap32 (∑ c ∈ Finset.range n,
        (vecTerm us them weights (c * R + 2 * k) +
          vecTerm us them weights (c * R + (2 * k + 1)))) := by
  induction n with
  | zero => simp [screlu_flatten_vec_loop, vec_int32_zero, wrap32]
  | succ n ih =>
    have hc : ∀ x : Int, min (max x 0) 255 = clamp x 0 255 := by
      intro x
      unfold clamp
      split
      · omega
      · split <;> omega
    simp only [screlu_flatten_vec_loop, vec_int32_add, vec_int16_madd_int32,
      vec_int16_multiply, vec_int16_clamp, int16_load, SCRELU_MIN_VEC, QA_VEC, get_int16_vec,
      SCRELU_MIN, QA, LAYER1_SIZE, ih, Finset.sum_range_succ, vecTerm, hc, Nat.add_assoc]
    generalize (∑ c ∈ Finset.range n,
      (wrap16 (clamp (us (c * R + 2 * k)) 0 255 * weights (c * R + 2 * k)) *
            clamp (us (c * R + 2 * k)) 0 255 +
          wrap16 (clamp (them (c * R + 2 * k)) 0 255 * weights (768 + (c * R + 2 * k))) *
            clamp (them (c * R + 2 * k)) 0 255 +
        (wrap16 (clamp (us (c * R + (2 * k + 1))) 0 255 * weights (c * R + (2 * k + 1))) *
            clamp (us (c * R + (2 * k + 1))) 0 255 +
          wrap16 (clamp (them (c * R + (2 * k + 1))) 0 255 *
              weights (768 + (c * R + (2 * k + 1)))) *
            clamp (them (c * R + (2 * k + 1))) 0 255))) = S
    generalize wrap16 (clamp (us (n * R + 2 * k)) 0 255 * weights (n * R + 2 * k)) *
      clamp (us (n * R + 2 * k)) 0 255 = A0
    generalize wrap16 (clamp (us (n * R + (2 * k + 1))) 0 255 *
      weights (n * R + (2 * k + 1))) * clamp (us (n * R + (2 * k + 1))) 0 255 = A1
    generalize wrap16 (clamp (them (n * R + 2 * k)) 0 255 *
      weights (768 + (n * R + 2 * k))) * clamp (them (n * R + 2 * k)) 0 255 = B0
    generalize wrap16 (clamp (them (n * R + (2 * k + 1))) 0 255 *
      weights (768 + (n * R + (2 * k + 1)))) * clamp (them (n * R + (2 * k + 1))) 0 255 = B1
    unfold wrap32
    omega

/-- The horizontal sum of the register after `n` rounds is the 32-bit wrap of
the sum of the terms of all indices below `n * R`. -/
theorem vec_int32_hadd_loop (R h : Nat) (hR : R = 2 * h) (us them weights : Nat → Int)
    (n : Nat) :
    vec_int32_hadd R (screlu_flatten_vec_loop R us them weights n) =
      wrap32 (∑ i ∈ Finset.range (n * R), vecTerm us them weights i) := by
  have hh : R / 2 = h := by omega
  unfold vec_int32_hadd
  rw [hh]
  simp only [screlu_flatten_vec_loop_lane]
  rw [wrap32_sum_wrap32, Finset.sum_comm]
  congr 1
  rw [← sum_blocks (vecTerm us them weights) R n]
  refine Finset.sum_congr rfl (fun c _ => ?_)
  rw [hR]
  exact sum_pairs (fun j => vecTerm us them weights (c * (2 * h) + j)) h

theorem vec_rounds (R : Nat) (hpos : 0 < R) (hdiv : R ∣ 768) :
    (LAYER1_SIZE + R - 1) / R * R = 768 := by
  obtain ⟨q, hq⟩ := hdiv
  unfold LAYER1_SIZE
  have h1 : (768 + R - 1) / R = q := by
    rw [hq, show R * q + R - 1 = R - 1 + q * R from by
      have : 1 ≤ R := hpos
      rw [Nat.mul_comm]
      omega]
    rw [Nat.add_mul_div_right _ _ hpos, Nat.div_eq_of_lt (by omega)]
    omega
  rw [h1, hq, Nat.mul_comm]

theorem screlu_flatten_vec_eq_sum (R h : Nat) (hR : R = 2 * h) (hpos : 0 < R)
    (hdiv : R ∣ 768) (us them weights : Nat → Int) :
    screlu_flatten_vec R us them weights =
      Int.tdiv (wrap32 (∑ i ∈ Finset.range 768, vecTerm us them weights i)) QA := by
  unfold screlu_flatten_vec
  rw [vec_int32_hadd_loop R h hR, vec_rounds R hpos hdiv]

theorem screlu_flatten_eq_sum (us them weights : Nat → Int) :
    screlu_flatten us them weights =
      Int.tdiv (wrap32 (∑ i ∈ Finset.range 768, scalarTerm us them weights i)) QA := by
  unfold screlu_flatten
  rw [screlu_flatten_loop_eq_wrap]
  rfl

theorem vecTerm_eq_scalarTerm (us them weights : Nat → Int) (i : Nat)
    (h1 : InInt16 (clamp (us i) 0 255 * weights i))
    (h2 : InInt16 (clamp (them i) 0 255 * weights (768 + i))) :
    vecTerm us them weights i = scalarTerm us them weights i := by
  unfold vecTerm scalarTerm screlu
  rw [wrap16_of_InInt16 _ h1, wrap16_of_InInt16 _ h2]
  simp only [SCRELU_MIN, SCRELU_MAX]
  ring

/-- C15, as stated, fails: with registers of 16 lanes, the activation 255 and
the weight 1000 in entry 0 and zeros elsewhere, the 16-bit lane product
`255 * 1000` wraps to `-7144`; the vectorised branch returns `-7144`, the scalar
branch `255000`. -/
theorem screlu_flatten_vec_ne_scalar :
    screlu_flatten_vec 16 usOne (fun _ => 0) weightsOne = -7144 ∧
    screlu_flatten usOne (fun _ => 0) weightsOne = 255000 := by
  constructor
  · rw [screlu_flatten_vec_eq_sum 16 8 (by decide) (by decide) (by decide),
      Finset.sum_eq_single 0]
    · decide
    · intro i _ hi
      simp [vecTerm, usOne, weightsOne, hi, clamp, wrap16]
    · intro h
      simp at h
  · rw [screlu_flatten_eq_sum, Finset.sum_eq_single 0]
    · decide
    · intro i _ hi
      simp [scalarTerm, usOne, weightsOne, hi, screlu, clamp, SCRELU_MIN, SCRELU_MAX]
    · intro h
      simp at h

/-- C15 (amended): for a register of an even number of 16-bit lanes that
divides 768 (16 or 32 in the source), all activation vectors `us`, `them` and
all output weights such that every 16-bit lane product
`clamp(x, 0, 255) * w` fits 16 bits, the vectorised branch of `screlu_flatten`
(lane-wise clamp, 16-bit lane multiply, multiply-add with the activation into
32-bit lanes, horizontal sum, division by 255) returns exactly the value of the
scalar branch. -/
theorem screlu_flatten_vec_eq_scalar (R h : Nat) (hR : R = 2 * h) (hpos : 0 < R)
    (hdiv : R ∣ 768) (us them weights : Nat → Int)
    (hfit : ∀ i < 768, InInt16 (clamp (us i) 0 255 * weights i) ∧
      InInt16 (clamp (them i) 0 255 * weights (768 + i))) :
    screlu_flatten_vec R us them weights = screlu_flatten us them weights := by
  have hs : ∑ i ∈ Finset.range 768, vecTerm us them weights i =
      ∑ i ∈ Finset.range 768, scalarTerm us them weights i := by
    refine Finset.sum_congr rfl (fun i hi => ?_)
    rw [Finset.mem_range] at hi
    exact vecTerm_eq_scalarTerm us them weights i (hfit i hi).1 (hfit i hi).2
  rw [screlu_flatten_vec_eq_sum R h hR hpos hdiv, screlu_flatten_eq_sum, hs]

theorem weightsSmall_fit : ∀ i < 768,
    InInt16 (clamp (usOne i) 0 255 * weightsSmall i) ∧
    InInt16 (clamp ((fun _ => (0 : Int)) i) 0 255 * weightsSmall (768 + i)) := by
  intro i _
  by_cases hi : i = 0
  · subst hi; decide
  · simp [usOne, weightsSmall, hi, clamp, InInt16]

/-- The amended C15 with 16 lanes, the activation 255 and the weight 100 in
entry 0: both branches return 25500. -/
theorem screlu_flatten_vec_eq_scalar_witness :
    screlu_flatten_vec 16 usOne (fun _ => 0) weightsSmall = 25500 :=
  (screlu_flatten_vec_eq_scalar 16 8 (by decide) (by decide) (by decide) usOne (fun _ => 0)
    weightsSmall weightsSmall_fit).trans (by
      rw [screlu_flatten_eq_sum, Finset.sum_eq_single 0]
      · decide
      · intro i _ hi
        simp [scalarTerm, usOne, weightsSmall, hi, screlu, clamp, SCRELU_MIN, SCRELU_MAX]
      · intro h
        simp at h)

end Patricia
